import Mathlib

/-!
# Verification of the A-Maze-ing maze engine

A shallow embedding of `maze_generator.py` (class `MazeGenerator`) together
with proofs about its operations: the `42`-pattern stamping, the recursive
backtracking carve, the wall-breaking pass, the BFS solver and the hex
serialization.

Conventions of the embedding:
* a cell is five booleans, as in the Python `Cell` class;
* the grid is a total function from coordinates `(x, y)` to cells; the
  Python program only ever reads in-bounds coordinates, so out-of-bounds
  values are phantom;
* `random.choice` / `random.random()` draws are abstracted as explicit
  streams that the operations take as parameters, and all theorems
  quantify over those streams;
* the two `while` loops (carve, BFS) are modelled with an explicit fuel
  argument; the fuel chosen in the top-level wrappers is proved sufficient,
  so the exhaustion branch is dead code.
-/

/-- One grid location, mirroring the Python `Cell` class: four wall flags
(`true` = wall present) plus the transient `visited` flag. -/
structure Cell where
  north : Bool
  east : Bool
  south : Bool
  west : Bool
  visited : Bool
deriving DecidableEq, Repr

/-- A freshly constructed cell: all walls closed, not visited. -/
def Cell.init : Cell := ⟨true, true, true, true, false⟩

/-- Grid coordinates `(x, y)`, zero-based, `y = 0` is the top row. -/
abbrev Pos : Type := Nat × Nat

/-- The maze generator state: dimensions, grid and the `42`-pattern cell
set (the Python attribute `pattern_cells`, modelled as a list). -/
@[ext]
structure Maze where
  width : Nat
  height : Nat
  grid : Pos → Cell
  pattern_cells : List Pos

/-- `MazeGenerator.__init__`: every cell has all walls closed and is
unvisited; the pattern set starts empty. -/
def Maze.fresh (width height : Nat) : Maze :=
  { width := width, height := height, grid := fun _ => Cell.init, pattern_cells := [] }

/-- `p` is an in-bounds coordinate of `m`. -/
def Maze.inB (m : Maze) (p : Pos) : Prop :=
  p.1 < m.width ∧ p.2 < m.height

instance (m : Maze) (p : Pos) : Decidable (m.inB p) := by
  unfold Maze.inB; infer_instance

/-- Overwrite the cell at `p`. -/
def Maze.setCell (m : Maze) (p : Pos) (c : Cell) : Maze :=
  { m with grid := fun q => if q = p then c else m.grid q }

/-- Apply `f` to the cell at `p`. -/
def Maze.modCell (m : Maze) (p : Pos) (f : Cell → Cell) : Maze :=
  { m with grid := fun q => if q = p then f (m.grid q) else m.grid q }

@[simp] theorem Maze.modCell_width (m : Maze) (p : Pos) (f : Cell → Cell) :
    (m.modCell p f).width = m.width := rfl

@[simp] theorem Maze.modCell_height (m : Maze) (p : Pos) (f : Cell → Cell) :
    (m.modCell p f).height = m.height := rfl

@[simp] theorem Maze.modCell_pattern (m : Maze) (p : Pos) (f : Cell → Cell) :
    (m.modCell p f).pattern_cells = m.pattern_cells := rfl

theorem Maze.modCell_grid_same (m : Maze) (p : Pos) (f : Cell → Cell) :
    (m.modCell p f).grid p = f (m.grid p) := by
  simp [Maze.modCell]

theorem Maze.modCell_grid_other (m : Maze) (p q : Pos) (f : Cell → Cell)
    (h : q ≠ p) : (m.modCell p f).grid q = m.grid q := by
  simp [Maze.modCell, h]

/-! ## `add_42_pattern` -/

/-- The bitmap of the digit `4` (3 wide × 5 tall), row by row. -/
def digit4 : List (List Nat) :=
  [[1, 0, 1], [1, 0, 1], [1, 1, 1], [0, 0, 1], [0, 0, 1]]

/-- The bitmap of the digit `2` (3 wide × 5 tall), row by row. -/
def digit2 : List (List Nat) :=
  [[1, 1, 1], [0, 0, 1], [1, 1, 1], [1, 0, 0], [1, 1, 1]]

/-- `NUMBER_42_PATTERN` from the source. -/
def number42Pattern : List (List (List Nat)) := [digit4, digit2]

/-- The column offset of each digit inside the pattern (`digit_offsets`). -/
def digitOffsets : List Nat := [0, 4]

/-- The list of absolute coordinates stamped by `add_42_pattern` on a
`w × h` grid, in the order the Python loops visit them: digit index, then
bitmap row `y`, then bitmap column `x`, keeping only bits equal to `1`.
The top-left corner is `((w - 7) / 2, (h - 5) / 2)`. -/
def patternCoords (w h : Nat) : List Pos :=
  (List.range number42Pattern.length).flatMap fun d =>
    (List.range 5).flatMap fun y =>
      (List.range 3).filterMap fun x =>
        if (((number42Pattern.getD d []).getD y []).getD x 0) = 1 then
          some ((w - 7) / 2 + x + digitOffsets.getD d 0, (h - 5) / 2 + y)
        else
          none

/-- `MazeGenerator.add_42_pattern`: fails (returning `false`, changing
nothing) when `width < 7 + 2` or `height < 5 + 2`; otherwise replaces the
pattern set with the stamped coordinates and closes all four walls of every
stamped cell, also marking it visited. -/
def add_42_pattern (m : Maze) : Maze × Bool :=
  if m.width < 7 + 2 ∨ m.height < 5 + 2 then
    (m, false)
  else
    ({ m with
        pattern_cells := patternCoords m.width m.height,
        grid := fun q =>
          if q ∈ patternCoords m.width m.height then
            ⟨true, true, true, true, true⟩
          else
            m.grid q },
      true)

example : patternCoords 9 7 =
    [(1, 1), (3, 1), (1, 2), (3, 2), (1, 3), (2, 3), (3, 3), (3, 4), (3, 5),
     (5, 1), (6, 1), (7, 1), (7, 2), (5, 3), (6, 3), (7, 3), (5, 4), (5, 5), (6, 5), (7, 5)] := by
  decide

/-- The placement the spec describes for a stamped cell: top-left corner
`((w − 7) / 2, (h − 5) / 2)`, first digit occupying relative columns
`[0, 3)`, second digit occupying `[4, 7)`. -/
def specPatternCell (w h : Nat) (p : Pos) : Prop :=
  ∃ r c, r < 5 ∧ c < 7 ∧
    p = ((w - 7) / 2 + c, (h - 5) / 2 + r) ∧
    ((c < 3 ∧ (digit4.getD r []).getD c 0 = 1) ∨
     (4 ≤ c ∧ (digit2.getD r []).getD (c - 4) 0 = 1))

theorem patternCoords_iff (w h : Nat) (p : Pos) :
    p ∈ patternCoords w h ↔ specPatternCell w h p := by
  unfold patternCoords specPatternCell
  simp only [List.mem_flatMap, List.mem_filterMap, List.mem_range]
  constructor
  · rintro ⟨d, hd, y, hy, x, hx, hfa⟩
    split at hfa
    · rename_i hbit
      have hp := (Option.some_injective _ hfa).symm
      simp only [number42Pattern, List.length_cons, List.length_nil] at hd
      interval_cases d
      · refine ⟨y, x, hy, by omega, ?_, Or.inl ⟨hx, ?_⟩⟩
        · rw [hp]; simp [digitOffsets]
        · simpa [number42Pattern] using hbit
      · refine ⟨y, x + 4, hy, by omega, ?_, Or.inr ⟨by omega, ?_⟩⟩
        · rw [hp]; simp only [digitOffsets, List.getD, List.get?]
          refine Prod.ext ?_ rfl
          simp; omega
        · simpa [number42Pattern] using hbit
    · exact absurd hfa (by simp)
  · rintro ⟨r, c, hr, hc7, rfl, hcase | hcase⟩
    · obtain ⟨hc3, hbit⟩ := hcase
      refine ⟨0, by simp [number42Pattern], r, hr, c, hc3, ?_⟩
      rw [if_pos (by simpa [number42Pattern] using hbit)]
      simp [digitOffsets]
    · obtain ⟨hc4, hbit⟩ := hcase
      refine ⟨1, by simp [number42Pattern], r, hr, c - 4, by omega, ?_⟩
      rw [if_pos (by simpa [number42Pattern] using hbit)]
      simp only [digitOffsets, Option.some_inj]
      refine Prod.ext ?_ rfl
      simp; omega

/-- C8: `add_42_pattern` on a grid with `width < 9` or `height < 7`
reports failure and changes nothing; otherwise it reports success, the
pattern set becomes exactly the cells the spec's placement describes, and
every stamped cell has all four walls closed and `visited = true`. -/
theorem add_42_pattern_small_or_stamps (m : Maze) :
    ((m.width < 9 ∨ m.height < 7) → add_42_pattern m = (m, false)) ∧
    (9 ≤ m.width → 7 ≤ m.height →
      (add_42_pattern m).2 = true ∧
      (∀ p : Pos, p ∈ (add_42_pattern m).1.pattern_cells ↔
        specPatternCell m.width m.height p) ∧
      (∀ p : Pos, p ∈ (add_42_pattern m).1.pattern_cells →
        (add_42_pattern m).1.grid p = ⟨true, true, true, true, true⟩)) := by
  constructor
  · intro h
    have hc : m.width < 7 + 2 ∨ m.height < 5 + 2 := by omega
    unfold add_42_pattern
    rw [if_pos hc]
  · intro h9 h7
    have hc : ¬(m.width < 7 + 2 ∨ m.height < 5 + 2) := by omega
    unfold add_42_pattern
    rw [if_neg hc]
    refine ⟨rfl, ?_, ?_⟩
    · intro p
      exact patternCoords_iff m.width m.height p
    · intro p hp
      have hp2 : p ∈ patternCoords m.width m.height := hp
      simp [hp2]

/-- Witness for C8 at the concrete grids 3×3 (too small) and 9×7 (minimal
success). -/
theorem add_42_pattern_small_or_stamps_witness :
    ((Maze.fresh 3 3).width < 9 ∨ (Maze.fresh 3 3).height < 7) ∧
    add_42_pattern (Maze.fresh 3 3) = (Maze.fresh 3 3, false) ∧
    9 ≤ (Maze.fresh 9 7).width ∧ 7 ≤ (Maze.fresh 9 7).height ∧
    (add_42_pattern (Maze.fresh 9 7)).2 = true ∧
    ((1, 1) ∈ (add_42_pattern (Maze.fresh 9 7)).1.pattern_cells ↔
      specPatternCell 9 7 (1, 1)) :=
  ⟨by decide, (add_42_pattern_small_or_stamps (Maze.fresh 3 3)).1 (by decide),
   by decide, by decide,
   ((add_42_pattern_small_or_stamps (Maze.fresh 9 7)).2 (by decide) (by decide)).1,
   ((add_42_pattern_small_or_stamps (Maze.fresh 9 7)).2 (by decide) (by decide)).2.1 (1, 1)⟩

/-! ## `write_maze_hex` -/

/-- Python's `format(value, "X")` for `value < 16`: one uppercase
hexadecimal digit. -/
def hexChar (v : Nat) : Char :=
  if v < 10 then Char.ofNat (48 + v) else Char.ofNat (55 + v)

/-- The per-cell encoding of `write_maze_hex`: `value` starts at 0 and the
four walls add `1`, `2`, `4`, `8` in turn. -/
def cellValue (c : Cell) : Nat :=
  (((0 + (if c.north then 1 else 0)) + (if c.east then 2 else 0)) +
    (if c.south then 4 else 0)) + (if c.west then 8 else 0)

/-- One serialized grid row: the hex digit of each cell of row `y`, for
`x = 0, …, width − 1` (`"".join(row)`). -/
def rowHex (m : Maze) (y : Nat) : String :=
  String.mk ((List.range m.width).map fun x => hexChar (cellValue (m.grid (x, y))))

/-- `MazeGenerator.write_maze_hex`: the full file contents produced by the
sequence of `f.write` calls — one line per grid row, then a blank line,
the entry and exit coordinates, and the path, each `"\n"`-terminated. -/
def write_maze_hex (m : Maze) (entry exitP : Pos) (path : String) : String :=
  (((List.range m.height).map fun y => rowHex m y ++ "\n").foldl (· ++ ·) "") ++
    ("\n" ++ (toString entry.1 ++ "," ++ toString entry.2) ++ "\n") ++
    ((toString exitP.1 ++ "," ++ toString exitP.2) ++ "\n") ++
    (path ++ "\n")

theorem intercalate_go_cons (s a b : String) (l : List String) :
    String.intercalate.go a s (b :: l) = a ++ s ++ String.intercalate.go b s l := by
  induction l generalizing a b with
  | nil => rfl
  | cons c cs ih => rw [String.intercalate.go, ih, ih]; simp [String.append_assoc]

theorem intercalate_cons_of_ne_nil (s a : String) (l : List String) (h : l ≠ []) :
    String.intercalate s (a :: l) = a ++ s ++ String.intercalate s l := by
  match l with
  | b :: bs => rw [String.intercalate, intercalate_go_cons, String.intercalate]

theorem foldl_str_acc (xs : List String) (acc : String) :
    xs.foldl (· ++ ·) acc = acc ++ xs.foldl (· ++ ·) "" := by
  induction xs generalizing acc with
  | nil => exact (String.append_empty acc).symm
  | cons x xs ih =>
    show xs.foldl (· ++ ·) (acc ++ x) = acc ++ xs.foldl (· ++ ·) ("" ++ x)
    rw [ih (acc ++ x), ih ("" ++ x), String.empty_append, String.append_assoc]

theorem intercalate_append_of_ne_nil (s : String) (l t : List String) (ht : t ≠ []) :
    String.intercalate s (l ++ t) =
      (l.map (· ++ s)).foldl (· ++ ·) "" ++ String.intercalate s t := by
  induction l with
  | nil => rw [List.nil_append, List.map_nil, List.foldl_nil, String.empty_append]
  | cons b bs ih =>
    rw [List.cons_append, intercalate_cons_of_ne_nil s b (bs ++ t) (by simp [ht]),
      List.map_cons, List.foldl_cons, ih,
      foldl_str_acc (List.map (fun x => x ++ s) bs) ("" ++ (b ++ s)), String.empty_append]
    simp [String.append_assoc]

theorem intercalate_four (s a b c d : String) :
    String.intercalate s [a, b, c, d] = a ++ s ++ b ++ s ++ c ++ s ++ d := by
  rw [String.intercalate, intercalate_go_cons, intercalate_go_cons, intercalate_go_cons,
    show String.intercalate.go d s [] = d from rfl]
  simp [String.append_assoc]

/-- C5: the output of `write_maze_hex` is the `"\n"`-join of: the `height`
hex rows in row-major order, a blank line, `entryX,entryY`, `exitX,exitY`
and the path, with a final newline; each row has `width` characters, and
the character at column `x` of row `y` is the digit of
`north·1 + east·2 + south·4 + west·8` in `"0123456789ABCDEF"`. -/
theorem write_maze_hex_format (m : Maze) (entry exitP : Pos) (path : String) :
    write_maze_hex m entry exitP path =
      String.intercalate "\n"
        (((List.range m.height).map fun y => rowHex m y) ++
          ["", toString entry.1 ++ "," ++ toString entry.2,
           toString exitP.1 ++ "," ++ toString exitP.2, path]) ++ "\n" ∧
    ((List.range m.height).map fun y => rowHex m y).length = m.height ∧
    (∀ y, y < m.height → (rowHex m y).length = m.width) ∧
    (∀ y, y < m.height → ∀ x, x < m.width →
      (rowHex m y).data[x]? =
        "0123456789ABCDEF".data[(if (m.grid (x, y)).north then 1 else 0) * 1 +
          (if (m.grid (x, y)).east then 1 else 0) * 2 +
          (if (m.grid (x, y)).south then 1 else 0) * 4 +
          (if (m.grid (x, y)).west then 1 else 0) * 8]?) := by
  refine ⟨?_, by simp, ?_, ?_⟩
  · unfold write_maze_hex
    have h0 : (List.map (fun y => rowHex m y ++ "\n") (List.range m.height)) =
        List.map (· ++ "\n") (List.map (fun y => rowHex m y) (List.range m.height)) := by
      simp
    rw [h0, intercalate_append_of_ne_nil _ _ _ (by simp), intercalate_four]
    simp [String.append_assoc, String.empty_append]
  · intro y _
    show ((List.range m.width).map fun x => hexChar (cellValue (m.grid (x, y)))).length = _
    simp
  · intro y _ x hx
    show ((List.range m.width).map fun x => hexChar (cellValue (m.grid (x, y))))[x]? = _
    rw [List.getElem?_map, List.getElem?_range hx]
    show some (hexChar (cellValue (m.grid (x, y)))) = _
    rcases hc : m.grid (x, y) with ⟨n, e, s, w, v⟩
    cases n <;> cases e <;> cases s <;> cases w <;> rfl

/-- Witness for C5 on a concrete 1×1 fresh maze. -/
theorem write_maze_hex_format_witness :
    (0 : Nat) < (Maze.fresh 1 1).height ∧ (0 : Nat) < (Maze.fresh 1 1).width ∧
    (rowHex (Maze.fresh 1 1) 0).length = (Maze.fresh 1 1).width ∧
    (rowHex (Maze.fresh 1 1) 0).data[0]? =
      "0123456789ABCDEF".data[(if ((Maze.fresh 1 1).grid (0, 0)).north then 1 else 0) * 1 +
        (if ((Maze.fresh 1 1).grid (0, 0)).east then 1 else 0) * 2 +
        (if ((Maze.fresh 1 1).grid (0, 0)).south then 1 else 0) * 4 +
        (if ((Maze.fresh 1 1).grid (0, 0)).west then 1 else 0) * 8]? :=
  ⟨by decide, by decide,
   (write_maze_hex_format (Maze.fresh 1 1) (0, 0) (0, 0) "").2.2.1 0 (by decide),
   (write_maze_hex_format (Maze.fresh 1 1) (0, 0) (0, 0) "").2.2.2 0 (by decide) 0 (by decide)⟩

/-! ## Directions and wall-opening primitives -/

/-- The four compass directions (`"N"`, `"E"`, `"S"`, `"W"`). -/
inductive Dir where
  | N
  | E
  | S
  | W
deriving DecidableEq, Repr

/-- Open the wall between `p` and its north neighbour, both sides
(`current.north = False; neighbor.south = False`). -/
def Maze.openNorth (m : Maze) (p : Pos) : Maze :=
  (m.modCell p fun c => { c with north := false }).modCell (p.1, p.2 - 1)
    fun c => { c with south := false }

/-- Open the wall between `p` and its south neighbour, both sides. -/
def Maze.openSouth (m : Maze) (p : Pos) : Maze :=
  (m.modCell p fun c => { c with south := false }).modCell (p.1, p.2 + 1)
    fun c => { c with north := false }

/-- Open the wall between `p` and its east neighbour, both sides. -/
def Maze.openEast (m : Maze) (p : Pos) : Maze :=
  (m.modCell p fun c => { c with east := false }).modCell (p.1 + 1, p.2)
    fun c => { c with west := false }

/-- Open the wall between `p` and its west neighbour, both sides. -/
def Maze.openWest (m : Maze) (p : Pos) : Maze :=
  (m.modCell p fun c => { c with west := false }).modCell (p.1 - 1, p.2)
    fun c => { c with east := false }

/-! ## `break_walls`

`random.random() < chance` is abstracted as a boolean draw `coin p` and
`random.choice(["N", "E", "S", "W"])` as a direction draw `dirOf p`, one
independent draw per visited cell. -/

/-- The body of the two nested `for` loops of `break_walls` for the cell
`p`: skip pattern cells; with a positive coin draw, try the drawn
direction, skipping it when out of bounds or when the neighbour in that
direction is a pattern cell. -/
def breakCell (coin : Pos → Bool) (dirOf : Pos → Dir) (m : Maze) (p : Pos) : Maze :=
  if p ∈ m.pattern_cells then m
  else if coin p then
    match dirOf p with
    | Dir.N =>
      if 0 < p.2 then
        if (p.1, p.2 - 1) ∈ m.pattern_cells then m else m.openNorth p
      else m
    | Dir.S =>
      if p.2 < m.height - 1 then
        if (p.1, p.2 + 1) ∈ m.pattern_cells then m else m.openSouth p
      else m
    | Dir.E =>
      if p.1 < m.width - 1 then
        if (p.1 + 1, p.2) ∈ m.pattern_cells then m else m.openEast p
      else m
    | Dir.W =>
      if 0 < p.1 then
        if (p.1 - 1, p.2) ∈ m.pattern_cells then m else m.openWest p
      else m
  else m

/-- The cells `(x, y)` in the order the two nested loops visit them
(`y` outer, `x` inner). -/
def rowMajor (w h : Nat) : List Pos :=
  (List.range h).flatMap fun y => (List.range w).map fun x => (x, y)

/-- `MazeGenerator.break_walls`. -/
def break_walls (coin : Pos → Bool) (dirOf : Pos → Dir) (m : Maze) : Maze :=
  (rowMajor m.width m.height).foldl (breakCell coin dirOf) m

theorem breakCell_width (coin : Pos → Bool) (dirOf : Pos → Dir) (m : Maze) (p : Pos) :
    (breakCell coin dirOf m p).width = m.width := by
  unfold breakCell Maze.openNorth Maze.openSouth Maze.openEast Maze.openWest
  repeat' split
  all_goals rfl

theorem breakCell_height (coin : Pos → Bool) (dirOf : Pos → Dir) (m : Maze) (p : Pos) :
    (breakCell coin dirOf m p).height = m.height := by
  unfold breakCell Maze.openNorth Maze.openSouth Maze.openEast Maze.openWest
  repeat' split
  all_goals rfl

theorem breakCell_pattern (coin : Pos → Bool) (dirOf : Pos → Dir) (m : Maze) (p : Pos) :
    (breakCell coin dirOf m p).pattern_cells = m.pattern_cells := by
  unfold breakCell Maze.openNorth Maze.openSouth Maze.openEast Maze.openWest
  repeat' split
  all_goals rfl

theorem openPair_grid (m : Maze) (a b : Pos) (p : Pos) (hab : a ≠ b)
    (f g : Cell → Cell) :
    ((m.modCell a f).modCell b g).grid p =
      if p = b then g (m.grid p)
      else if p = a then f (m.grid p)
      else m.grid p := by
  by_cases hb : p = b
  · subst hb
    rw [if_pos rfl, Maze.modCell_grid_same, Maze.modCell_grid_other m a p f (Ne.symm hab)]
  · rw [if_neg hb, Maze.modCell_grid_other _ _ _ _ hb]
    by_cases ha : p = a
    · subst ha
      rw [if_pos rfl, Maze.modCell_grid_same]
    · rw [if_neg ha, Maze.modCell_grid_other _ _ _ _ ha]

theorem openNorth_grid (m : Maze) (q p : Pos) (h : 0 < q.2) :
    (m.openNorth q).grid p =
      if p = (q.1, q.2 - 1) then { m.grid p with south := false }
      else if p = q then { m.grid p with north := false }
      else m.grid p :=
  openPair_grid m q (q.1, q.2 - 1) p
    (fun hc => by
      have : q.2 = q.2 - 1 := congrArg Prod.snd hc
      omega) _ _

theorem openSouth_grid (m : Maze) (q p : Pos) :
    (m.openSouth q).grid p =
      if p = (q.1, q.2 + 1) then { m.grid p with north := false }
      else if p = q then { m.grid p with south := false }
      else m.grid p :=
  openPair_grid m q (q.1, q.2 + 1) p
    (fun hc => by
      have : q.2 = q.2 + 1 := congrArg Prod.snd hc
      omega) _ _

theorem openEast_grid (m : Maze) (q p : Pos) :
    (m.openEast q).grid p =
      if p = (q.1 + 1, q.2) then { m.grid p with west := false }
      else if p = q then { m.grid p with east := false }
      else m.grid p :=
  openPair_grid m q (q.1 + 1, q.2) p
    (fun hc => by
      have : q.1 = q.1 + 1 := congrArg Prod.fst hc
      omega) _ _

theorem openWest_grid (m : Maze) (q p : Pos) (h : 0 < q.1) :
    (m.openWest q).grid p =
      if p = (q.1 - 1, q.2) then { m.grid p with east := false }
      else if p = q then { m.grid p with west := false }
      else m.grid p :=
  openPair_grid m q (q.1 - 1, q.2) p
    (fun hc => by
      have : q.1 = q.1 - 1 := congrArg Prod.fst hc
      omega) _ _

/-- The effect of `breakCell coin dirOf · q` on the cell at `p`, as a
function of the draws and the (unchanged) pattern set and dimensions. -/
def maskQ (coin : Pos → Bool) (dirOf : Pos → Dir) (pat : List Pos) (w h : Nat)
    (q p : Pos) (c : Cell) : Cell :=
  if q ∈ pat then c
  else if coin q then
    match dirOf q with
    | Dir.N =>
      if 0 < q.2 then
        if (q.1, q.2 - 1) ∈ pat then c
        else if p = (q.1, q.2 - 1) then { c with south := false }
        else if p = q then { c with north := false }
        else c
      else c
    | Dir.S =>
      if q.2 < h - 1 then
        if (q.1, q.2 + 1) ∈ pat then c
        else if p = (q.1, q.2 + 1) then { c with north := false }
        else if p = q then { c with south := false }
        else c
      else c
    | Dir.E =>
      if q.1 < w - 1 then
        if (q.1 + 1, q.2) ∈ pat then c
        else if p = (q.1 + 1, q.2) then { c with west := false }
        else if p = q then { c with east := false }
        else c
      else c
    | Dir.W =>
      if 0 < q.1 then
        if (q.1 - 1, q.2) ∈ pat then c
        else if p = (q.1 - 1, q.2) then { c with east := false }
        else if p = q then { c with west := false }
        else c
      else c
  else c

theorem breakCell_grid (coin : Pos → Bool) (dirOf : Pos → Dir) (m : Maze) (q p : Pos) :
    (breakCell coin dirOf m q).grid p =
      maskQ coin dirOf m.pattern_cells m.width m.height q p (m.grid p) := by
  unfold breakCell maskQ
  split
  · rfl
  split
  · split
    · split
      · split
        · rfl
        · next h _ => exact openNorth_grid m q p h
      · rfl
    · split
      · split
        · rfl
        · exact openSouth_grid m q p
      · rfl
    · split
      · split
        · rfl
        · exact openEast_grid m q p
      · rfl
    · split
      · split
        · rfl
        · next h _ => exact openWest_grid m q p h
      · rfl
  · rfl

/-- The four and-masks (north, east, south, west) that `breakCell · q`
applies to the wall flags of the cell at `p`. -/
def maskQbits (coin : Pos → Bool) (dirOf : Pos → Dir) (pat : List Pos) (w h : Nat)
    (q p : Pos) : Bool × Bool × Bool × Bool :=
  if q ∈ pat then (true, true, true, true)
  else if coin q then
    match dirOf q with
    | Dir.N =>
      if 0 < q.2 then
        if (q.1, q.2 - 1) ∈ pat then (true, true, true, true)
        else if p = (q.1, q.2 - 1) then (true, true, false, true)
        else if p = q then (false, true, true, true)
        else (true, true, true, true)
      else (true, true, true, true)
    | Dir.S =>
      if q.2 < h - 1 then
        if (q.1, q.2 + 1) ∈ pat then (true, true, true, true)
        else if p = (q.1, q.2 + 1) then (false, true, true, true)
        else if p = q then (true, true, false, true)
        else (true, true, true, true)
      else (true, true, true, true)
    | Dir.E =>
      if q.1 < w - 1 then
        if (q.1 + 1, q.2) ∈ pat then (true, true, true, true)
        else if p = (q.1 + 1, q.2) then (true, true, true, false)
        else if p = q then (true, false, true, true)
        else (true, true, true, true)
      else (true, true, true, true)
    | Dir.W =>
      if 0 < q.1 then
        if (q.1 - 1, q.2) ∈ pat then (true, true, true, true)
        else if p = (q.1 - 1, q.2) then (true, false, true, true)
        else if p = q then (true, true, true, false)
        else (true, true, true, true)
      else (true, true, true, true)
  else (true, true, true, true)

theorem maskQ_eq_bits (coin : Pos → Bool) (dirOf : Pos → Dir) (pat : List Pos)
    (w h : Nat) (q p : Pos) (c : Cell) :
    maskQ coin dirOf pat w h q p c =
      ⟨c.north && (maskQbits coin dirOf pat w h q p).1,
       c.east && (maskQbits coin dirOf pat w h q p).2.1,
       c.south && (maskQbits coin dirOf pat w h q p).2.2.1,
       c.west && (maskQbits coin dirOf pat w h q p).2.2.2,
       c.visited⟩ := by
  unfold maskQ maskQbits
  repeat' split
  all_goals cases c
  all_goals simp

/-- The accumulated effect on the cell at `p` of processing the cells of
`L` in order. -/
def maskL (coin : Pos → Bool) (dirOf : Pos → Dir) (pat : List Pos) (w h : Nat)
    (L : List Pos) (p : Pos) (c : Cell) : Cell :=
  match L with
  | [] => c
  | q :: rest => maskL coin dirOf pat w h rest p (maskQ coin dirOf pat w h q p c)

theorem foldl_breakCell_width (coin : Pos → Bool) (dirOf : Pos → Dir) :
    ∀ (L : List Pos) (m : Maze), (L.foldl (breakCell coin dirOf) m).width = m.width := by
  intro L
  induction L with
  | nil => intro m; rfl
  | cons q rest ih =>
    intro m
    show (rest.foldl (breakCell coin dirOf) (breakCell coin dirOf m q)).width = m.width
    rw [ih, breakCell_width]

theorem foldl_breakCell_height (coin : Pos → Bool) (dirOf : Pos → Dir) :
    ∀ (L : List Pos) (m : Maze), (L.foldl (breakCell coin dirOf) m).height = m.height := by
  intro L
  induction L with
  | nil => intro m; rfl
  | cons q rest ih =>
    intro m
    show (rest.foldl (breakCell coin dirOf) (breakCell coin dirOf m q)).height = m.height
    rw [ih, breakCell_height]

theorem foldl_breakCell_pattern (coin : Pos → Bool) (dirOf : Pos → Dir) :
    ∀ (L : List Pos) (m : Maze),
      (L.foldl (breakCell coin dirOf) m).pattern_cells = m.pattern_cells := by
  intro L
  induction L with
  | nil => intro m; rfl
  | cons q rest ih =>
    intro m
    show (rest.foldl (breakCell coin dirOf) (breakCell coin dirOf m q)).pattern_cells = _
    rw [ih, breakCell_pattern]

theorem foldl_breakCell_grid (coin : Pos → Bool) (dirOf : Pos → Dir) :
    ∀ (L : List Pos) (m : Maze) (p : Pos),
      (L.foldl (breakCell coin dirOf) m).grid p =
        maskL coin dirOf m.pattern_cells m.width m.height L p (m.grid p) := by
  intro L
  induction L with
  | nil => intro m p; rfl
  | cons q rest ih =>
    intro m p
    show (rest.foldl (breakCell coin dirOf) (breakCell coin dirOf m q)).grid p = _
    rw [ih (breakCell coin dirOf m q) p, breakCell_grid, breakCell_pattern,
      breakCell_width, breakCell_height]
    rfl

theorem maskL_shape (coin : Pos → Bool) (dirOf : Pos → Dir) (pat : List Pos)
    (w h : Nat) (L : List Pos) (p : Pos) :
    ∃ a b d e : Bool, ∀ c : Cell,
      maskL coin dirOf pat w h L p c =
        ⟨c.north && a, c.east && b, c.south && d, c.west && e, c.visited⟩ := by
  induction L with
  | nil => exact ⟨true, true, true, true, fun c => by cases c; simp [maskL]⟩
  | cons q rest ih =>
    obtain ⟨a, b, d, e, hrest⟩ := ih
    refine ⟨(maskQbits coin dirOf pat w h q p).1 && a,
      (maskQbits coin dirOf pat w h q p).2.1 && b,
      (maskQbits coin dirOf pat w h q p).2.2.1 && d,
      (maskQbits coin dirOf pat w h q p).2.2.2 && e, fun c => ?_⟩
    show maskL coin dirOf pat w h rest p (maskQ coin dirOf pat w h q p c) = _
    rw [maskQ_eq_bits, hrest]
    simp [Bool.and_assoc]

/-- C9 (amended): replaying the same random draws, a second `break_walls`
pass leaves the grid exactly as after the first pass — every wall flag it
would clear is already cleared. -/
theorem break_walls_idempotent_same_draws (coin : Pos → Bool) (dirOf : Pos → Dir)
    (m : Maze) :
    break_walls coin dirOf (break_walls coin dirOf m) = break_walls coin dirOf m := by
  unfold break_walls
  apply Maze.ext
  · rw [foldl_breakCell_width, foldl_breakCell_width]
  · rw [foldl_breakCell_height, foldl_breakCell_height]
  · funext p
    rw [foldl_breakCell_grid, foldl_breakCell_grid, foldl_breakCell_width,
      foldl_breakCell_height, foldl_breakCell_pattern]
    obtain ⟨a, b, d, e, hsh⟩ := maskL_shape coin dirOf m.pattern_cells m.width m.height
      (rowMajor m.width m.height) p
    rw [hsh, hsh]
    simp [Bool.and_assoc, Bool.and_self]
  · rw [foldl_breakCell_pattern, foldl_breakCell_pattern]

/-- C9 counterexample: on a fresh 2×1 grid with `chance = 1` (every
`random.random() < chance` draw succeeds), a first pass whose direction
draws are all `"N"` changes nothing (north is out of bounds on row 0),
while the second pass draws fresh randomness — here all `"E"` — and opens
the east wall of `(0, 0)`; so the state after two passes differs from the
state after one. -/
theorem break_walls_second_pass_differs :
    ((break_walls (fun _ => true) (fun _ => Dir.N) (Maze.fresh 2 1)).grid (0, 0)).east
        = true ∧
    ((break_walls (fun _ => true) (fun _ => Dir.E)
        (break_walls (fun _ => true) (fun _ => Dir.N) (Maze.fresh 2 1))).grid (0, 0)).east
        = false ∧
    break_walls (fun _ => true) (fun _ => Dir.E)
        (break_walls (fun _ => true) (fun _ => Dir.N) (Maze.fresh 2 1)) ≠
      break_walls (fun _ => true) (fun _ => Dir.N) (Maze.fresh 2 1) := by
  refine ⟨by decide, by decide, fun hcontra => ?_⟩
  have h2 := congrArg (fun z => (z.grid (0, 0)).east) hcontra
  revert h2
  decide

/-! ## `generate_backtracking` -/

/-- Mark the cell at `p` visited. -/
def Maze.setVisited (m : Maze) (p : Pos) : Maze :=
  m.modCell p fun c => { c with visited := true }

/-- The unvisited non-pattern in-bounds neighbours of `p`, in the order the
source checks them: north, east, south, west. -/
def candidates (m : Maze) (p : Pos) : List Pos :=
  (if 0 < p.2 ∧ ¬(m.grid (p.1, p.2 - 1)).visited ∧ (p.1, p.2 - 1) ∉ m.pattern_cells
    then [(p.1, p.2 - 1)] else []) ++
  (if p.1 < m.width - 1 ∧ ¬(m.grid (p.1 + 1, p.2)).visited ∧ (p.1 + 1, p.2) ∉ m.pattern_cells
    then [(p.1 + 1, p.2)] else []) ++
  (if p.2 < m.height - 1 ∧ ¬(m.grid (p.1, p.2 + 1)).visited ∧ (p.1, p.2 + 1) ∉ m.pattern_cells
    then [(p.1, p.2 + 1)] else []) ++
  (if 0 < p.1 ∧ ¬(m.grid (p.1 - 1, p.2)).visited ∧ (p.1 - 1, p.2) ∉ m.pattern_cells
    then [(p.1 - 1, p.2)] else [])

/-- The `elif` chain that removes the wall between the current cell and the
chosen neighbour, opening both adjacent flags. -/
def openWallBetween (m : Maze) (cur nxt : Pos) : Maze :=
  if nxt.2 < cur.2 then
    (m.modCell cur fun c => { c with north := false }).modCell nxt
      fun c => { c with south := false }
  else if cur.2 < nxt.2 then
    (m.modCell cur fun c => { c with south := false }).modCell nxt
      fun c => { c with north := false }
  else if cur.1 < nxt.1 then
    (m.modCell cur fun c => { c with east := false }).modCell nxt
      fun c => { c with west := false }
  else if nxt.1 < cur.1 then
    (m.modCell cur fun c => { c with west := false }).modCell nxt
      fun c => { c with east := false }
  else m

/-- The `while stack:` loop of `generate_backtracking`, with an explicit
fuel.  `rnd` supplies the `random.choice` draws: with `k` candidates the
next draw selects index `rnd 0 % k`, and the stream is shifted after each
draw. -/
def carveLoop (rnd : Nat → Nat) (fuel : Nat) (m : Maze) (stack : List Pos) : Maze :=
  match fuel, stack with
  | 0, _ => m
  | _ + 1, [] => m
  | fuel + 1, top :: rest =>
    match candidates m top with
    | [] => carveLoop rnd fuel m rest
    | c :: cs =>
      let nxt := (c :: cs).getD (rnd 0 % (c :: cs).length) c
      carveLoop (fun n => rnd (n + 1)) fuel
        ((openWallBetween m top nxt).setVisited nxt) (nxt :: top :: rest)

/-- `MazeGenerator.generate_backtracking`: mark the entry visited, seed the
stack with it and run the loop.  The fuel `2·width·height + 1` is an upper
bound on the number of iterations (each iteration either visits a new cell
and pushes, or pops). -/
def generate_backtracking (rnd : Nat → Nat) (m : Maze) (entry : Pos) : Maze :=
  carveLoop rnd (2 * m.width * m.height + 1) (m.setVisited entry) [entry]

/-- `MazeGenerator.reset_visited`: clear the visited flag of every
in-bounds cell. -/
def reset_visited (m : Maze) : Maze :=
  { m with
    grid := fun p =>
      if p.1 < m.width ∧ p.2 < m.height then { m.grid p with visited := false }
      else m.grid p }

/-! ## `solve_bfs` -/

/-- The coordinate one step in direction `d` from `p`. -/
def moveDir (p : Pos) (d : Dir) : Pos :=
  match d with
  | Dir.N => (p.1, p.2 - 1)
  | Dir.E => (p.1 + 1, p.2)
  | Dir.S => (p.1, p.2 + 1)
  | Dir.W => (p.1 - 1, p.2)

/-- The bounds guard the BFS uses before stepping from `p` in direction
`d` (`y > 0`, `x < width - 1`, `y < height - 1`, `x > 0`). -/
def boundOk (m : Maze) (p : Pos) (d : Dir) : Bool :=
  match d with
  | Dir.N => decide (0 < p.2)
  | Dir.E => decide (p.1 < m.width - 1)
  | Dir.S => decide (p.2 < m.height - 1)
  | Dir.W => decide (0 < p.1)

/-- The wall flag of `c` on the side of direction `d`. -/
def wallOf (c : Cell) (d : Dir) : Bool :=
  match d with
  | Dir.N => c.north
  | Dir.E => c.east
  | Dir.S => c.south
  | Dir.W => c.west

/-- The BFS parent map: an association list keyed by the discovered cell,
storing its predecessor and the direction taken (Python's
`parent[(nx, ny)] = ((x, y), d)`, each key inserted once). -/
def lookupP (par : List (Pos × Pos × Dir)) (p : Pos) : Option (Pos × Dir) :=
  match par with
  | [] => none
  | (k, v) :: rest => if p = k then some v else lookupP rest p

/-- One direction check of the BFS inner body from the dequeued cell `c`:
if the move is in bounds, the wall on that side of `c` is open and the
target is unvisited, enqueue the target, mark it visited and record its
parent.  `s` is `(queue-tail, visited, parent)`. -/
def expandDir (m : Maze) (c : Pos) (d : Dir)
    (s : List Pos × List Pos × List (Pos × Pos × Dir)) :
    List Pos × List Pos × List (Pos × Pos × Dir) :=
  if boundOk m c d = true ∧ wallOf (m.grid c) d = false ∧ moveDir c d ∉ s.2.1 then
    (s.1 ++ [moveDir c d], moveDir c d :: s.2.1, (moveDir c d, (c, d)) :: s.2.2)
  else s

/-- The BFS `while queue:` loop, threading the (never written) maze state
through as the Python method threads `self`.  Dequeues from the front,
breaks when the exit is dequeued, otherwise expands north, east, south,
west in order. -/
def bfsLoop (exitP : Pos) :
    Nat → Maze → List Pos → List Pos → List (Pos × Pos × Dir) →
      Maze × List Pos × List (Pos × Pos × Dir)
  | 0, m, _, vis, par => (m, vis, par)
  | _ + 1, m, [], vis, par => (m, vis, par)
  | fuel + 1, m, c :: rest, vis, par =>
    if c = exitP then (m, vis, par)
    else
      let s := expandDir m c Dir.W (expandDir m c Dir.S
        (expandDir m c Dir.E (expandDir m c Dir.N (rest, vis, par))))
      bfsLoop exitP fuel m s.1 s.2.1 s.2.2

/-- The path-reconstruction loop (`while current != entry`), walking the
parent map backwards from the exit and collecting the directions taken, in
back-to-front order; `none` models the `return ""` on a missing parent.
The fuel is an upper bound on the chain length. -/
def backtrack (entry : Pos) (par : List (Pos × Pos × Dir)) :
    Nat → Pos → Option (List Dir)
  | 0, _ => none
  | fuel + 1, cur =>
    if cur = entry then some []
    else
      match lookupP par cur with
      | none => none
      | some (q, d) =>
        match backtrack entry par fuel q with
        | none => none
        | some ds => some (d :: ds)

/-- The single-letter token of a direction. -/
def dirChar (d : Dir) : Char :=
  match d with
  | Dir.N => 'N'
  | Dir.E => 'E'
  | Dir.S => 'S'
  | Dir.W => 'W'

/-- `MazeGenerator.solve_bfs`, returning the final `self` (unwritten, as in
the source) together with the direction string: the collected directions
reversed and joined.  The fuel `width·height` bounds the number of loop
iterations (every iteration dequeues, and only fresh in-bounds cells are
ever enqueued). -/
def solve_bfs_full (m : Maze) (entry exitP : Pos) : Maze × String :=
  let r := bfsLoop exitP (m.width * m.height) m [entry] [entry] []
  (r.1,
    match backtrack entry r.2.2 (r.2.2.length + 1) exitP with
    | none => ""
    | some ds => String.mk ((ds.reverse).map dirChar))

/-- The direction string returned by `solve_bfs`. -/
def solve_bfs (m : Maze) (entry exitP : Pos) : String :=
  (solve_bfs_full m entry exitP).2

/-! ## Operation sequences -/

/-- The mutating engine operations a caller can interleave. -/
inductive Op where
  | pattern
  | carve (entry : Pos) (rnd : Nat → Nat)
  | breakW (coin : Pos → Bool) (dirOf : Pos → Dir)
  | reset
  | solve (entry exitP : Pos)

/-- Apply one operation to the maze state. -/
def applyOp (m : Maze) (o : Op) : Maze :=
  match o with
  | Op.pattern => (add_42_pattern m).1
  | Op.carve entry rnd => generate_backtracking rnd m entry
  | Op.breakW coin dirOf => break_walls coin dirOf m
  | Op.reset => reset_visited m
  | Op.solve entry exitP => (solve_bfs_full m entry exitP).1

/-- Run a sequence of operations left to right. -/
def runOps (m : Maze) (ops : List Op) : Maze :=
  ops.foldl applyOp m

/-! ## Carve loop: generic invariants -/

theorem mem_ite_single {c : Prop} [Decidable c] {q x : Pos}
    (h : q ∈ (if c then [x] else ([] : List Pos))) : c ∧ q = x := by
  split at h
  · next hc => exact ⟨hc, by simpa using h⟩
  · simp at h

/-- What membership in `candidates m p` tells us about the chosen cell. -/
theorem candidates_mem (m : Maze) (p q : Pos) (h : q ∈ candidates m p) :
    ¬(m.grid q).visited = true ∧ q ∉ m.pattern_cells ∧
    ((q = (p.1, p.2 - 1) ∧ 0 < p.2) ∨
     (q = (p.1 + 1, p.2) ∧ p.1 < m.width - 1) ∨
     (q = (p.1, p.2 + 1) ∧ p.2 < m.height - 1) ∨
     (q = (p.1 - 1, p.2) ∧ 0 < p.1)) := by
  unfold candidates at h
  simp only [List.mem_append] at h
  rcases h with ((h | h) | h) | h
  · obtain ⟨⟨hb, hv, hp⟩, rfl⟩ := mem_ite_single h
    exact ⟨hv, hp, Or.inl ⟨rfl, hb⟩⟩
  · obtain ⟨⟨hb, hv, hp⟩, rfl⟩ := mem_ite_single h
    exact ⟨hv, hp, Or.inr (Or.inl ⟨rfl, hb⟩)⟩
  · obtain ⟨⟨hb, hv, hp⟩, rfl⟩ := mem_ite_single h
    exact ⟨hv, hp, Or.inr (Or.inr (Or.inl ⟨rfl, hb⟩))⟩
  · obtain ⟨⟨hb, hv, hp⟩, rfl⟩ := mem_ite_single h
    exact ⟨hv, hp, Or.inr (Or.inr (Or.inr ⟨rfl, hb⟩))⟩

theorem openWallBetween_width (m : Maze) (cur nxt : Pos) :
    (openWallBetween m cur nxt).width = m.width := by
  unfold openWallBetween
  repeat' split
  all_goals rfl

theorem openWallBetween_height (m : Maze) (cur nxt : Pos) :
    (openWallBetween m cur nxt).height = m.height := by
  unfold openWallBetween
  repeat' split
  all_goals rfl

theorem openWallBetween_pattern (m : Maze) (cur nxt : Pos) :
    (openWallBetween m cur nxt).pattern_cells = m.pattern_cells := by
  unfold openWallBetween
  repeat' split
  all_goals rfl

/-- `openWallBetween` touches only the cells `cur` and `nxt`. -/
theorem openWallBetween_grid_other (m : Maze) (cur nxt p : Pos)
    (h1 : p ≠ cur) (h2 : p ≠ nxt) :
    (openWallBetween m cur nxt).grid p = m.grid p := by
  unfold openWallBetween
  repeat' split
  all_goals
    first
    | rfl
    | rw [Maze.modCell_grid_other _ _ _ _ h2, Maze.modCell_grid_other _ _ _ _ h1]

/-- Each cell of the grid after `openWallBetween` keeps each wall flag or
has it cleared, and keeps its visited flag. -/
theorem openWallBetween_le (m : Maze) (cur nxt p : Pos) :
    (((openWallBetween m cur nxt).grid p).north = (m.grid p).north ∨
      ((openWallBetween m cur nxt).grid p).north = false) ∧
    (((openWallBetween m cur nxt).grid p).east = (m.grid p).east ∨
      ((openWallBetween m cur nxt).grid p).east = false) ∧
    (((openWallBetween m cur nxt).grid p).south = (m.grid p).south ∨
      ((openWallBetween m cur nxt).grid p).south = false) ∧
    (((openWallBetween m cur nxt).grid p).west = (m.grid p).west ∨
      ((openWallBetween m cur nxt).grid p).west = false) ∧
    ((openWallBetween m cur nxt).grid p).visited = (m.grid p).visited := by
  unfold openWallBetween
  split
  · next h =>
    rw [openPair_grid m cur nxt p (fun hc => by rw [hc] at h; omega) _ _]
    split_ifs <;> simp
  split
  · next h =>
    rw [openPair_grid m cur nxt p (fun hc => by rw [hc] at h; omega) _ _]
    split_ifs <;> simp
  split
  · next h =>
    rw [openPair_grid m cur nxt p (fun hc => by rw [hc] at h; omega) _ _]
    split_ifs <;> simp
  split
  · next h =>
    rw [openPair_grid m cur nxt p (fun hc => by rw [hc] at h; omega) _ _]
    split_ifs <;> simp
  simp

/-- The chosen neighbour is one of the candidates. -/
theorem choice_mem_candidates (m : Maze) (top : Pos) (r : Nat) (c : Pos) (cs : List Pos)
    (hq : candidates m top = c :: cs) :
    (c :: cs).getD (r % (c :: cs).length) c ∈ candidates m top := by
  rw [hq]
  have hlt : r % (c :: cs).length < (c :: cs).length :=
    Nat.mod_lt _ (Nat.succ_pos _)
  rw [List.getD_eq_getElem (c :: cs) c hlt]
  exact List.getElem_mem hlt

/-- Any property preserved by the push step and the pop step holds of the
final maze of `carveLoop` (in some final stack configuration). -/
theorem carveLoop_inv (P : Maze → List Pos → Prop)
    (hpop : ∀ m top rest, candidates m top = [] → P m (top :: rest) → P m rest)
    (hpush : ∀ m top rest nxt, nxt ∈ candidates m top → P m (top :: rest) →
      P ((openWallBetween m top nxt).setVisited nxt) (nxt :: top :: rest)) :
    ∀ (fuel : Nat) (rnd : Nat → Nat) (m : Maze) (stack : List Pos),
      P m stack → ∃ st2, P (carveLoop rnd fuel m stack) st2 := by
  intro fuel
  induction fuel with
  | zero => exact fun rnd m stack h => ⟨stack, h⟩
  | succ fuel ih =>
    intro rnd m stack h
    cases stack with
    | nil => exact ⟨[], h⟩
    | cons top rest =>
      rcases hq : candidates m top with _ | ⟨c, cs⟩
      · have he : carveLoop rnd (fuel + 1) m (top :: rest) = carveLoop rnd fuel m rest := by
          simp only [carveLoop, hq]
        rw [he]
        exact ih rnd m rest (hpop m top rest hq h)
      · have he : carveLoop rnd (fuel + 1) m (top :: rest) =
            carveLoop (fun n => rnd (n + 1)) fuel
              ((openWallBetween m top
                ((c :: cs).getD (rnd 0 % (c :: cs).length) c)).setVisited
                ((c :: cs).getD (rnd 0 % (c :: cs).length) c))
              (((c :: cs).getD (rnd 0 % (c :: cs).length) c) :: top :: rest) := by
          simp only [carveLoop, hq]
        rw [he]
        exact ih _ _ _
          (hpush m top rest _ (choice_mem_candidates m top (rnd 0) c cs hq) h)

/-! ## Per-operation frame and preservation lemmas -/

/-- The BFS loop threads `self` through unchanged. -/
theorem bfsLoop_maze (exitP : Pos) :
    ∀ (fuel : Nat) (m : Maze) (q vis : List Pos) (par : List (Pos × Pos × Dir)),
      (bfsLoop exitP fuel m q vis par).1 = m := by
  intro fuel
  induction fuel with
  | zero => intro m q vis par; rfl
  | succ fuel ih =>
    intro m q vis par
    cases q with
    | nil => rfl
    | cons c rest =>
      show (if c = exitP then (m, vis, par) else _).1 = m
      split
      · rfl
      · exact ih m _ _ _

theorem solve_bfs_full_fst (m : Maze) (entry exitP : Pos) :
    (solve_bfs_full m entry exitP).1 = m :=
  bfsLoop_maze exitP (m.width * m.height) m [entry] [entry] []

/-- C10: `solve_bfs` never writes to the maze: the threaded state comes
back unchanged — every cell keeps all four wall flags and its visited
flag — and the only output is the direction string. -/
theorem solve_bfs_leaves_maze_unchanged (m : Maze) (entry exitP : Pos) :
    (solve_bfs_full m entry exitP).1 = m ∧
    (solve_bfs_full m entry exitP).2 = solve_bfs m entry exitP :=
  ⟨solve_bfs_full_fst m entry exitP, rfl⟩

theorem reset_visited_width (m : Maze) : (reset_visited m).width = m.width := rfl

theorem reset_visited_height (m : Maze) : (reset_visited m).height = m.height := rfl

theorem reset_visited_pattern (m : Maze) :
    (reset_visited m).pattern_cells = m.pattern_cells := rfl

/-- `reset_visited` changes no wall flag. -/
theorem reset_visited_walls (m : Maze) (p : Pos) :
    ((reset_visited m).grid p).north = (m.grid p).north ∧
    ((reset_visited m).grid p).east = (m.grid p).east ∧
    ((reset_visited m).grid p).south = (m.grid p).south ∧
    ((reset_visited m).grid p).west = (m.grid p).west := by
  unfold reset_visited
  refine ⟨?_, ?_, ?_, ?_⟩
  all_goals dsimp only
  all_goals split <;> rfl

/-- `reset_visited` clears the visited flag of every in-bounds cell. -/
theorem reset_visited_clears (m : Maze) (p : Pos)
    (hx : p.1 < m.width) (hy : p.2 < m.height) :
    ((reset_visited m).grid p).visited = false := by
  unfold reset_visited
  dsimp only
  rw [if_pos ⟨hx, hy⟩]

/-- When the chosen neighbour really is the north neighbour, the `elif`
chain reduces to `openNorth`. -/
theorem openWallBetween_north (m : Maze) (cur : Pos) (h : 0 < cur.2) :
    openWallBetween m cur (cur.1, cur.2 - 1) = m.openNorth cur := by
  unfold openWallBetween Maze.openNorth
  rw [if_pos (by simp <;> omega)]

theorem openWallBetween_south (m : Maze) (cur : Pos) :
    openWallBetween m cur (cur.1, cur.2 + 1) = m.openSouth cur := by
  unfold openWallBetween Maze.openSouth
  rw [if_neg (by simp), if_pos (by simp)]

theorem openWallBetween_east (m : Maze) (cur : Pos) :
    openWallBetween m cur (cur.1 + 1, cur.2) = m.openEast cur := by
  unfold openWallBetween Maze.openEast
  rw [if_neg (by simp), if_neg (by simp), if_pos (by simp)]

theorem openWallBetween_west (m : Maze) (cur : Pos) (h : 0 < cur.1) :
    openWallBetween m cur (cur.1 - 1, cur.2) = m.openWest cur := by
  unfold openWallBetween Maze.openWest
  rw [if_neg (by simp), if_neg (by simp), if_neg (by simp <;> omega), if_pos (by simp <;> omega)]

@[simp] theorem Maze.openNorth_width (m : Maze) (q : Pos) : (m.openNorth q).width = m.width := rfl

@[simp] theorem Maze.openNorth_height (m : Maze) (q : Pos) : (m.openNorth q).height = m.height := rfl

@[simp] theorem Maze.openNorth_pat (m : Maze) (q : Pos) : (m.openNorth q).pattern_cells = m.pattern_cells := rfl

@[simp] theorem Maze.openSouth_width (m : Maze) (q : Pos) : (m.openSouth q).width = m.width := rfl

@[simp] theorem Maze.openSouth_height (m : Maze) (q : Pos) : (m.openSouth q).height = m.height := rfl

@[simp] theorem Maze.openSouth_pat (m : Maze) (q : Pos) : (m.openSouth q).pattern_cells = m.pattern_cells := rfl

@[simp] theorem Maze.openEast_width (m : Maze) (q : Pos) : (m.openEast q).width = m.width := rfl

@[simp] theorem Maze.openEast_height (m : Maze) (q : Pos) : (m.openEast q).height = m.height := rfl

@[simp] theorem Maze.openEast_pat (m : Maze) (q : Pos) : (m.openEast q).pattern_cells = m.pattern_cells := rfl

@[simp] theorem Maze.openWest_width (m : Maze) (q : Pos) : (m.openWest q).width = m.width := rfl

@[simp] theorem Maze.openWest_height (m : Maze) (q : Pos) : (m.openWest q).height = m.height := rfl

@[simp] theorem Maze.openWest_pat (m : Maze) (q : Pos) : (m.openWest q).pattern_cells = m.pattern_cells := rfl

@[simp] theorem Maze.setVisited_width (m : Maze) (q : Pos) : (m.setVisited q).width = m.width := rfl

@[simp] theorem Maze.setVisited_height (m : Maze) (q : Pos) : (m.setVisited q).height = m.height := rfl

@[simp] theorem Maze.setVisited_pat (m : Maze) (q : Pos) : (m.setVisited q).pattern_cells = m.pattern_cells := rfl

/-- `setVisited` changes no wall flag. -/
theorem setVisited_walls (m : Maze) (v p : Pos) :
    ((m.setVisited v).grid p).north = (m.grid p).north ∧
    ((m.setVisited v).grid p).east = (m.grid p).east ∧
    ((m.setVisited v).grid p).south = (m.grid p).south ∧
    ((m.setVisited v).grid p).west = (m.grid p).west := by
  unfold Maze.setVisited Maze.modCell
  dsimp only
  refine ⟨?_, ?_, ?_, ?_⟩ <;> (split <;> rfl)

/-- C4's invariant: the wall state between two adjacent in-bounds cells is
symmetric, in both orientations. -/
def symmWalls (m : Maze) : Prop :=
  ∀ p : Pos, p.1 < m.width → p.2 < m.height →
    (p.1 + 1 < m.width → (m.grid p).east = (m.grid (p.1 + 1, p.2)).west) ∧
    (p.2 + 1 < m.height → (m.grid p).south = (m.grid (p.1, p.2 + 1)).north)

theorem symmWalls_openEast (m : Maze) (q : Pos) (hs : symmWalls m) :
    symmWalls (m.openEast q) := by
  intro p hx hy
  obtain ⟨px, py⟩ := p
  obtain ⟨qx, qy⟩ := q
  obtain ⟨hE, hS⟩ := hs (px, py) hx hy
  constructor
  · intro hx2
    have hEE := hE hx2
    rw [openEast_grid, openEast_grid]
    split_ifs <;> simp_all [Prod.ext_iff] <;> omega
  · intro hy2
    have hSS := hS hy2
    rw [openEast_grid, openEast_grid]
    split_ifs <;> simp_all [Prod.ext_iff] <;> omega

theorem symmWalls_openSouth (m : Maze) (q : Pos) (hs : symmWalls m) :
    symmWalls (m.openSouth q) := by
  intro p hx hy
  obtain ⟨px, py⟩ := p
  obtain ⟨qx, qy⟩ := q
  obtain ⟨hE, hS⟩ := hs (px, py) hx hy
  constructor
  · intro hx2
    have hEE := hE hx2
    rw [openSouth_grid, openSouth_grid]
    split_ifs <;> simp_all [Prod.ext_iff] <;> omega
  · intro hy2
    have hSS := hS hy2
    rw [openSouth_grid, openSouth_grid]
    split_ifs <;> simp_all [Prod.ext_iff] <;> omega

theorem symmWalls_openNorth (m : Maze) (q : Pos) (hq : 0 < q.2) (hs : symmWalls m) :
    symmWalls (m.openNorth q) := by
  intro p hx hy
  obtain ⟨px, py⟩ := p
  obtain ⟨qx, qy⟩ := q
  obtain ⟨hE, hS⟩ := hs (px, py) hx hy
  constructor
  · intro hx2
    have hEE := hE hx2
    rw [openNorth_grid _ _ _ hq, openNorth_grid _ _ _ hq]
    split_ifs <;>
      (try simp only [Prod.mk.injEq] at *) <;>
      (try (exfalso; omega)) <;>
      (try simp_all) <;>
      (try omega)
  · intro hy2
    have hSS := hS hy2
    rw [openNorth_grid _ _ _ hq, openNorth_grid _ _ _ hq]
    split_ifs <;>
      (try simp only [Prod.mk.injEq] at *) <;>
      (try (exfalso; omega)) <;>
      (try simp_all) <;>
      (try omega)

theorem symmWalls_openWest (m : Maze) (q : Pos) (hq : 0 < q.1) (hs : symmWalls m) :
    symmWalls (m.openWest q) := by
  intro p hx hy
  obtain ⟨px, py⟩ := p
  obtain ⟨qx, qy⟩ := q
  obtain ⟨hE, hS⟩ := hs (px, py) hx hy
  constructor
  · intro hx2
    have hEE := hE hx2
    rw [openWest_grid _ _ _ hq, openWest_grid _ _ _ hq]
    split_ifs <;>
      (try simp only [Prod.mk.injEq] at *) <;>
      (try (exfalso; omega)) <;>
      (try simp_all) <;>
      (try omega)
  · intro hy2
    have hSS := hS hy2
    rw [openWest_grid _ _ _ hq, openWest_grid _ _ _ hq]
    split_ifs <;>
      (try simp only [Prod.mk.injEq] at *) <;>
      (try (exfalso; omega)) <;>
      (try simp_all) <;>
      (try omega)

theorem symmWalls_setVisited (m : Maze) (v : Pos) (hs : symmWalls m) :
    symmWalls (m.setVisited v) := by
  intro p hx hy
  obtain ⟨hE, hS⟩ := hs p hx hy
  refine ⟨fun h2 => ?_, fun h2 => ?_⟩
  · rw [(setVisited_walls m v p).2.1, (setVisited_walls m v (p.1 + 1, p.2)).2.2.2]
    exact hE h2
  · rw [(setVisited_walls m v p).2.2.1, (setVisited_walls m v (p.1, p.2 + 1)).1]
    exact hS h2

theorem symmWalls_reset (m : Maze) (hs : symmWalls m) :
    symmWalls (reset_visited m) := by
  intro p hx hy
  obtain ⟨hE, hS⟩ := hs p hx hy
  refine ⟨fun h2 => ?_, fun h2 => ?_⟩
  · rw [(reset_visited_walls m p).2.1, (reset_visited_walls m (p.1 + 1, p.2)).2.2.2]
    exact hE h2
  · rw [(reset_visited_walls m p).2.2.1, (reset_visited_walls m (p.1, p.2 + 1)).1]
    exact hS h2

theorem symmWalls_breakCell (coin : Pos → Bool) (dirOf : Pos → Dir) (m : Maze)
    (q : Pos) (hs : symmWalls m) : symmWalls (breakCell coin dirOf m q) := by
  unfold breakCell
  split
  · exact hs
  split
  · split
    · split
      · rename_i hb
        split
        · exact hs
        · exact symmWalls_openNorth m q hb hs
      · exact hs
    · split
      · split
        · exact hs
        · exact symmWalls_openSouth m q hs
      · exact hs
    · split
      · split
        · exact hs
        · exact symmWalls_openEast m q hs
      · exact hs
    · split
      · rename_i hb
        split
        · exact hs
        · exact symmWalls_openWest m q hb hs
      · exact hs
  · exact hs

theorem symmWalls_foldl_breakCell (coin : Pos → Bool) (dirOf : Pos → Dir) :
    ∀ (L : List Pos) (m : Maze), symmWalls m →
      symmWalls (L.foldl (breakCell coin dirOf) m) := by
  intro L
  induction L with
  | nil => exact fun m h => h
  | cons q rest ih => exact fun m h => ih _ (symmWalls_breakCell coin dirOf m q h)

theorem symmWalls_break_walls (coin : Pos → Bool) (dirOf : Pos → Dir) (m : Maze)
    (hs : symmWalls m) : symmWalls (break_walls coin dirOf m) :=
  symmWalls_foldl_breakCell coin dirOf (rowMajor m.width m.height) m hs

theorem symmWalls_push (m : Maze) (top nxt : Pos)
    (hmem : nxt ∈ candidates m top) (hs : symmWalls m) :
    symmWalls ((openWallBetween m top nxt).setVisited nxt) := by
  apply symmWalls_setVisited
  obtain ⟨_, _, hcase⟩ := candidates_mem m top nxt hmem
  rcases hcase with ⟨rfl, hb⟩ | ⟨rfl, hb⟩ | ⟨rfl, hb⟩ | ⟨rfl, hb⟩
  · rw [openWallBetween_north m top hb]
    exact symmWalls_openNorth m top hb hs
  · rw [openWallBetween_east m top]
    exact symmWalls_openEast m top hs
  · rw [openWallBetween_south m top]
    exact symmWalls_openSouth m top hs
  · rw [openWallBetween_west m top hb]
    exact symmWalls_openWest m top hb hs

theorem symmWalls_generate (rnd : Nat → Nat) (m : Maze) (entry : Pos)
    (hs : symmWalls m) : symmWalls (generate_backtracking rnd m entry) := by
  unfold generate_backtracking
  obtain ⟨st2, h2⟩ := carveLoop_inv (fun mm _ => symmWalls mm)
    (fun _ _ _ _ h => h)
    (fun m top rest nxt hmem h => symmWalls_push m top nxt hmem h)
    (2 * m.width * m.height + 1) rnd (m.setVisited entry) [entry]
    (symmWalls_setVisited m entry hs)
  exact h2

/-- All walls of every cell closed (the state in which `add_42_pattern` may
run without breaking symmetry). -/
def allClosed (m : Maze) : Prop :=
  ∀ p : Pos, (m.grid p).north = true ∧ (m.grid p).east = true ∧
    (m.grid p).south = true ∧ (m.grid p).west = true

theorem allClosed_symmWalls (m : Maze) (h : allClosed m) : symmWalls m := by
  intro p _ _
  refine ⟨fun _ => ?_, fun _ => ?_⟩
  · rw [(h p).2.1, (h (p.1 + 1, p.2)).2.2.2]
  · rw [(h p).2.2.1, (h (p.1, p.2 + 1)).1]

theorem allClosed_pattern (m : Maze) (h : allClosed m) :
    allClosed (add_42_pattern m).1 := by
  unfold add_42_pattern
  split
  · exact h
  · intro p
    dsimp only
    split
    · exact ⟨rfl, rfl, rfl, rfl⟩
    · exact h p

theorem allClosed_reset (m : Maze) (h : allClosed m) :
    allClosed (reset_visited m) := by
  intro p
  obtain ⟨h1, h2, h3, h4⟩ := h p
  obtain ⟨r1, r2, r3, r4⟩ := reset_visited_walls m p
  exact ⟨r1.trans h1, r2.trans h2, r3.trans h3, r4.trans h4⟩

theorem allClosed_phase1 :
    ∀ (l : List Op) (m : Maze), allClosed m →
      (∀ o ∈ l, o = Op.pattern ∨ o = Op.reset ∨ ∃ e x, o = Op.solve e x) →
      allClosed (runOps m l) := by
  intro l
  induction l with
  | nil => exact fun m h _ => h
  | cons o rest ih =>
    intro m h hl
    show allClosed (runOps (applyOp m o) rest)
    apply ih
    · rcases hl o (List.mem_cons_self o rest) with rfl | rfl | ⟨e, x, rfl⟩
      · exact allClosed_pattern m h
      · exact allClosed_reset m h
      · show allClosed (solve_bfs_full m e x).1
        rw [solve_bfs_full_fst m e x]
        exact h
    · exact fun o2 ho => hl o2 (List.mem_cons_of_mem _ ho)

theorem symmWalls_phase2 :
    ∀ (l : List Op) (m : Maze), symmWalls m → (∀ o ∈ l, o ≠ Op.pattern) →
      symmWalls (runOps m l) := by
  intro l
  induction l with
  | nil => exact fun m h _ => h
  | cons o rest ih =>
    intro m h hl
    show symmWalls (runOps (applyOp m o) rest)
    apply ih
    · cases o with
      | pattern => exact absurd rfl (hl Op.pattern (List.mem_cons_self _ rest))
      | carve e rnd => exact symmWalls_generate rnd m e h
      | breakW coin dirOf => exact symmWalls_break_walls coin dirOf m h
      | reset => exact symmWalls_reset m h
      | solve e x =>
        show symmWalls (solve_bfs_full m e x).1
        rw [solve_bfs_full_fst m e x]
        exact h
    · exact fun o2 ho => hl o2 (List.mem_cons_of_mem _ ho)

/-- C4 (amended): wall symmetry holds between every pair of adjacent
in-bounds cells in every state reachable from a fresh grid by a sequence
in which every `add_42_pattern` call comes before every
`generate_backtracking` and `break_walls` call (as the program always
orders them); each mutation opens both adjacent flags together. -/
theorem wall_symmetry_when_pattern_first (w h : Nat) (l1 l2 : List Op)
    (h1 : ∀ o ∈ l1, o = Op.pattern ∨ o = Op.reset ∨ ∃ e x, o = Op.solve e x)
    (h2 : ∀ o ∈ l2, o ≠ Op.pattern) :
    symmWalls (runOps (Maze.fresh w h) (l1 ++ l2)) := by
  show symmWalls ((l1 ++ l2).foldl applyOp (Maze.fresh w h))
  rw [List.foldl_append]
  exact symmWalls_phase2 l2 _
    (allClosed_symmWalls _
      (allClosed_phase1 l1 _ (fun _ => ⟨rfl, rfl, rfl, rfl⟩) h1)) h2

/-- Witness for the amended C4 at a concrete sequence. -/
theorem wall_symmetry_when_pattern_first_witness :
    (∀ o ∈ [Op.pattern], o = Op.pattern ∨ o = Op.reset ∨ ∃ e x, o = Op.solve e x) ∧
    (∀ o ∈ [Op.carve (0, 0) (fun _ => 0)], o ≠ Op.pattern) ∧
    symmWalls (runOps (Maze.fresh 2 2) ([Op.pattern] ++ [Op.carve (0, 0) (fun _ => 0)])) := by
  have hh1 : ∀ o ∈ [Op.pattern], o = Op.pattern ∨ o = Op.reset ∨ ∃ e x, o = Op.solve e x := by
    intro o ho
    rw [List.mem_singleton] at ho
    exact Or.inl ho
  have hh2 : ∀ o ∈ [Op.carve (0, 0) (fun _ => 0)], o ≠ Op.pattern := by
    intro o ho
    rw [List.mem_singleton] at ho
    subst ho
    exact fun hcon => Op.noConfusion hcon
  exact ⟨hh1, hh2, wall_symmetry_when_pattern_first 2 2 _ _ hh1 hh2⟩

set_option maxRecDepth 100000 in
set_option maxHeartbeats 2000000 in
/-- C4 counterexample: running `add_42_pattern` after a carve that had
opened the wall between `(1, 0)` and its south neighbour re-closes only
the pattern cell's side, so the adjacent pair `(1, 0)`, `(1, 1)` ends up
with `(1,0).south` open but `(1,1).north` closed: wall symmetry fails in a
state reachable by a sequence of the listed operations. -/
theorem pattern_after_carve_asymmetry :
    (runOps (Maze.fresh 9 7) [Op.carve (1, 0) (fun _ => 1), Op.pattern]).width = 9 ∧
    (runOps (Maze.fresh 9 7) [Op.carve (1, 0) (fun _ => 1), Op.pattern]).height = 7 ∧
    ((runOps (Maze.fresh 9 7) [Op.carve (1, 0) (fun _ => 1), Op.pattern]).grid (1, 0)).south = false ∧
    ((runOps (Maze.fresh 9 7) [Op.carve (1, 0) (fun _ => 1), Op.pattern]).grid (1, 1)).north = true ∧
    ¬ symmWalls (runOps (Maze.fresh 9 7) [Op.carve (1, 0) (fun _ => 1), Op.pattern]) := by
  refine ⟨by decide, by decide, by decide, by decide, fun hs => ?_⟩
  have h2 := (hs (1, 0) (by decide) (by decide)).2 (by decide)
  revert h2
  decide

/-! ## C3: pattern-incident wall flags are never opened -/

/-- Every wall flag belonging to a pattern cell, or facing a pattern cell
from a neighbour, is unchanged from its value in `m0`. -/
def patProtected (P0 : List Pos) (m0 m : Maze) : Prop :=
  ∀ p : Pos,
    ((p ∈ P0 ∨ (p.1, p.2 - 1) ∈ P0) → (m.grid p).north = (m0.grid p).north) ∧
    ((p ∈ P0 ∨ (p.1 + 1, p.2) ∈ P0) → (m.grid p).east = (m0.grid p).east) ∧
    ((p ∈ P0 ∨ (p.1, p.2 + 1) ∈ P0) → (m.grid p).south = (m0.grid p).south) ∧
    ((p ∈ P0 ∨ (p.1 - 1, p.2) ∈ P0) → (m.grid p).west = (m0.grid p).west)

theorem patProtected_openNorth (P0 : List Pos) (m0 m : Maze) (q : Pos)
    (hq : 0 < q.2) (hqp : q ∉ P0) (hnp : (q.1, q.2 - 1) ∉ P0)
    (h : patProtected P0 m0 m) : patProtected P0 m0 (m.openNorth q) := by
  obtain ⟨qx, qy⟩ := q
  intro p
  obtain ⟨hp1, hp2, hp3, hp4⟩ := h p
  refine ⟨fun hant => ?_, fun hant => ?_, fun hant => ?_, fun hant => ?_⟩ <;>
    rw [openNorth_grid _ _ _ hq]
  · by_cases e1 : p = ((qx, qy).1, (qx, qy).2 - 1)
    · rw [if_pos e1]
      exact hp1 hant
    · rw [if_neg e1]
      by_cases e2 : p = (qx, qy)
      · exfalso
        subst e2
        rcases hant with hh | hh
        · exact hqp hh
        · exact hnp hh
      · rw [if_neg e2]
        exact hp1 hant
  · split_ifs with e1 e2
    · exact hp2 hant
    · exact hp2 hant
    · exact hp2 hant
  · by_cases e1 : p = ((qx, qy).1, (qx, qy).2 - 1)
    · exfalso
      subst e1
      rcases hant with hh | hh
      · exact hnp hh
      · rw [show (qy - 1 + 1) = qy from by omega] at hh
        exact hqp hh
    · rw [if_neg e1]
      by_cases e2 : p = (qx, qy)
      · rw [if_pos e2]
        exact hp3 hant
      · rw [if_neg e2]
        exact hp3 hant
  · split_ifs with e1 e2
    · exact hp4 hant
    · exact hp4 hant
    · exact hp4 hant

theorem patProtected_openSouth (P0 : List Pos) (m0 m : Maze) (q : Pos)
    (hqp : q ∉ P0) (hnp : (q.1, q.2 + 1) ∉ P0)
    (h : patProtected P0 m0 m) : patProtected P0 m0 (m.openSouth q) := by
  obtain ⟨qx, qy⟩ := q
  intro p
  obtain ⟨hp1, hp2, hp3, hp4⟩ := h p
  refine ⟨fun hant => ?_, fun hant => ?_, fun hant => ?_, fun hant => ?_⟩ <;>
    rw [openSouth_grid]
  · by_cases e1 : p = ((qx, qy).1, (qx, qy).2 + 1)
    · exfalso
      subst e1
      rcases hant with hh | hh
      · exact hnp hh
      · rw [show (qy + 1 - 1) = qy from by omega] at hh
        exact hqp hh
    · rw [if_neg e1]
      by_cases e2 : p = (qx, qy)
      · rw [if_pos e2]
        exact hp1 hant
      · rw [if_neg e2]
        exact hp1 hant
  · split_ifs with e1 e2
    · exact hp2 hant
    · exact hp2 hant
    · exact hp2 hant
  · by_cases e1 : p = ((qx, qy).1, (qx, qy).2 + 1)
    · rw [if_pos e1]
      exact hp3 hant
    · rw [if_neg e1]
      by_cases e2 : p = (qx, qy)
      · exfalso
        subst e2
        rcases hant with hh | hh
        · exact hqp hh
        · exact hnp hh
      · rw [if_neg e2]
        exact hp3 hant
  · split_ifs with e1 e2
    · exact hp4 hant
    · exact hp4 hant
    · exact hp4 hant

theorem patProtected_openEast (P0 : List Pos) (m0 m : Maze) (q : Pos)
    (hqp : q ∉ P0) (hnp : (q.1 + 1, q.2) ∉ P0)
    (h : patProtected P0 m0 m) : patProtected P0 m0 (m.openEast q) := by
  obtain ⟨qx, qy⟩ := q
  intro p
  obtain ⟨hp1, hp2, hp3, hp4⟩ := h p
  refine ⟨fun hant => ?_, fun hant => ?_, fun hant => ?_, fun hant => ?_⟩ <;>
    rw [openEast_grid]
  · split_ifs with e1 e2
    · exact hp1 hant
    · exact hp1 hant
    · exact hp1 hant
  · by_cases e1 : p = ((qx, qy).1 + 1, (qx, qy).2)
    · rw [if_pos e1]
      exact hp2 hant
    · rw [if_neg e1]
      by_cases e2 : p = (qx, qy)
      · exfalso
        subst e2
        rcases hant with hh | hh
        · exact hqp hh
        · exact hnp hh
      · rw [if_neg e2]
        exact hp2 hant
  · split_ifs with e1 e2
    · exact hp3 hant
    · exact hp3 hant
    · exact hp3 hant
  · by_cases e1 : p = ((qx, qy).1 + 1, (qx, qy).2)
    · exfalso
      subst e1
      rcases hant with hh | hh
      · exact hnp hh
      · rw [show (qx + 1 - 1) = qx from by omega] at hh
        exact hqp hh
    · rw [if_neg e1]
      by_cases e2 : p = (qx, qy)
      · rw [if_pos e2]
        exact hp4 hant
      · rw [if_neg e2]
        exact hp4 hant

theorem patProtected_openWest (P0 : List Pos) (m0 m : Maze) (q : Pos)
    (hq : 0 < q.1) (hqp : q ∉ P0) (hnp : (q.1 - 1, q.2) ∉ P0)
    (h : patProtected P0 m0 m) : patProtected P0 m0 (m.openWest q) := by
  obtain ⟨qx, qy⟩ := q
  intro p
  obtain ⟨hp1, hp2, hp3, hp4⟩ := h p
  refine ⟨fun hant => ?_, fun hant => ?_, fun hant => ?_, fun hant => ?_⟩ <;>
    rw [openWest_grid _ _ _ hq]
  · split_ifs with e1 e2
    · exact hp1 hant
    · exact hp1 hant
    · exact hp1 hant
  · by_cases e1 : p = ((qx, qy).1 - 1, (qx, qy).2)
    · exfalso
      subst e1
      rcases hant with hh | hh
      · exact hnp hh
      · rw [show (qx - 1 + 1) = qx from by omega] at hh
        exact hqp hh
    · rw [if_neg e1]
      by_cases e2 : p = (qx, qy)
      · rw [if_pos e2]
        exact hp2 hant
      · rw [if_neg e2]
        exact hp2 hant
  · split_ifs with e1 e2
    · exact hp3 hant
    · exact hp3 hant
    · exact hp3 hant
  · by_cases e1 : p = ((qx, qy).1 - 1, (qx, qy).2)
    · rw [if_pos e1]
      exact hp4 hant
    · rw [if_neg e1]
      by_cases e2 : p = (qx, qy)
      · exfalso
        subst e2
        rcases hant with hh | hh
        · exact hqp hh
        · exact hnp hh
      · rw [if_neg e2]
        exact hp4 hant

theorem patProtected_refl (P0 : List Pos) (m0 : Maze) : patProtected P0 m0 m0 :=
  fun _ => ⟨fun _ => rfl, fun _ => rfl, fun _ => rfl, fun _ => rfl⟩

theorem patProtected_setVisited (P0 : List Pos) (m0 m : Maze) (v : Pos)
    (h : patProtected P0 m0 m) : patProtected P0 m0 (m.setVisited v) := by
  intro p
  obtain ⟨hp1, hp2, hp3, hp4⟩ := h p
  obtain ⟨w1, w2, w3, w4⟩ := setVisited_walls m v p
  exact ⟨fun ha => w1.trans (hp1 ha), fun ha => w2.trans (hp2 ha),
    fun ha => w3.trans (hp3 ha), fun ha => w4.trans (hp4 ha)⟩

theorem patProtected_reset (P0 : List Pos) (m0 m : Maze)
    (h : patProtected P0 m0 m) : patProtected P0 m0 (reset_visited m) := by
  intro p
  obtain ⟨hp1, hp2, hp3, hp4⟩ := h p
  obtain ⟨w1, w2, w3, w4⟩ := reset_visited_walls m p
  exact ⟨fun ha => w1.trans (hp1 ha), fun ha => w2.trans (hp2 ha),
    fun ha => w3.trans (hp3 ha), fun ha => w4.trans (hp4 ha)⟩

theorem patProtected_breakCell (P0 : List Pos) (m0 m : Maze)
    (coin : Pos → Bool) (dirOf : Pos → Dir) (q : Pos)
    (hpat : m.pattern_cells = P0) (h : patProtected P0 m0 m) :
    patProtected P0 m0 (breakCell coin dirOf m q) := by
  unfold breakCell
  rw [hpat]
  split
  · exact h
  rename_i hqp
  split
  · split
    · split
      · rename_i hb
        split
        · exact h
        · rename_i hnp
          exact patProtected_openNorth P0 m0 m q hb hqp hnp h
      · exact h
    · split
      · split
        · exact h
        · rename_i hnp
          exact patProtected_openSouth P0 m0 m q hqp hnp h
      · exact h
    · split
      · split
        · exact h
        · rename_i hnp
          exact patProtected_openEast P0 m0 m q hqp hnp h
      · exact h
    · split
      · rename_i hb
        split
        · exact h
        · rename_i hnp
          exact patProtected_openWest P0 m0 m q hb hqp hnp h
      · exact h
  · exact h

theorem patProtected_foldl_breakCell (P0 : List Pos) (m0 : Maze)
    (coin : Pos → Bool) (dirOf : Pos → Dir) :
    ∀ (L : List Pos) (m : Maze), m.pattern_cells = P0 → patProtected P0 m0 m →
      patProtected P0 m0 (L.foldl (breakCell coin dirOf) m) := by
  intro L
  induction L with
  | nil => exact fun m _ h => h
  | cons q rest ih =>
    intro m hpat h
    exact ih _ ((breakCell_pattern coin dirOf m q).trans hpat)
      (patProtected_breakCell P0 m0 m coin dirOf q hpat h)

theorem patProtected_break_walls (P0 : List Pos) (m0 m : Maze)
    (coin : Pos → Bool) (dirOf : Pos → Dir)
    (hpat : m.pattern_cells = P0) (h : patProtected P0 m0 m) :
    patProtected P0 m0 (break_walls coin dirOf m) :=
  patProtected_foldl_breakCell P0 m0 coin dirOf (rowMajor m.width m.height) m hpat h

theorem patProtected_push (P0 : List Pos) (m0 m : Maze) (top nxt : Pos)
    (hpat : m.pattern_cells = P0) (htop : top ∉ P0)
    (hmem : nxt ∈ candidates m top) (h : patProtected P0 m0 m) :
    patProtected P0 m0 ((openWallBetween m top nxt).setVisited nxt) := by
  apply patProtected_setVisited
  obtain ⟨_, hnp, hcase⟩ := candidates_mem m top nxt hmem
  rw [hpat] at hnp
  rcases hcase with ⟨rfl, hb⟩ | ⟨rfl, hb⟩ | ⟨rfl, hb⟩ | ⟨rfl, hb⟩
  · rw [openWallBetween_north m top hb]
    exact patProtected_openNorth P0 m0 m top hb htop hnp h
  · rw [openWallBetween_east m top]
    exact patProtected_openEast P0 m0 m top htop hnp h
  · rw [openWallBetween_south m top]
    exact patProtected_openSouth P0 m0 m top htop hnp h
  · rw [openWallBetween_west m top hb]
    exact patProtected_openWest P0 m0 m top hb htop hnp h

theorem patProtected_generate (P0 : List Pos) (m0 m : Maze) (rnd : Nat → Nat)
    (entry : Pos) (hpat : m.pattern_cells = P0) (hentry : entry ∉ P0)
    (h : patProtected P0 m0 m) :
    patProtected P0 m0 (generate_backtracking rnd m entry) ∧
    (generate_backtracking rnd m entry).pattern_cells = P0 := by
  unfold generate_backtracking
  obtain ⟨st2, h2⟩ := carveLoop_inv
    (fun mm st => mm.pattern_cells = P0 ∧ patProtected P0 m0 mm ∧ ∀ s ∈ st, s ∉ P0)
    (fun m top rest _ hP => ⟨hP.1, hP.2.1, fun s hs => hP.2.2 s (List.mem_cons_of_mem _ hs)⟩)
    (fun m top rest nxt hmem hP => by
      obtain ⟨hpat2, hprot, hstk⟩ := hP
      have htop : top ∉ P0 := hstk top (List.mem_cons_self _ _)
      have hnxt : nxt ∉ P0 := by
        have := (candidates_mem m top nxt hmem).2.1
        rw [hpat2] at this
        exact this
      refine ⟨?_, patProtected_push P0 m0 m top nxt hpat2 htop hmem hprot, ?_⟩
      · show ((openWallBetween m top nxt).setVisited nxt).pattern_cells = P0
        rw [Maze.setVisited_pat, openWallBetween_pattern]
        exact hpat2
      · intro s hs
        rw [List.mem_cons] at hs
        rcases hs with rfl | hs
        · exact hnxt
        · rw [List.mem_cons] at hs
          rcases hs with rfl | hs
          · exact htop
          · exact hstk s (List.mem_cons_of_mem _ hs))
    (2 * m.width * m.height + 1) rnd (m.setVisited entry) [entry]
    ⟨by rw [Maze.setVisited_pat]; exact hpat,
     patProtected_setVisited P0 m0 m entry h,
     fun s hs => by rw [List.mem_singleton] at hs; subst hs; exact hentry⟩
  exact ⟨h2.2.1, h2.1⟩

/-- The operations C3's amended claim allows after the stamp: anything but
`add_42_pattern`, with carve entries outside the pattern set. -/
def patSafeOp (P0 : List Pos) (o : Op) : Prop :=
  o = Op.reset ∨ (∃ c d, o = Op.breakW c d) ∨ (∃ e x, o = Op.solve e x) ∨
    (∃ e rnd, o = Op.carve e rnd ∧ e ∉ P0)

theorem patProtected_runOps (P0 : List Pos) (m0 : Maze) :
    ∀ (ops : List Op) (m : Maze), m.pattern_cells = P0 → patProtected P0 m0 m →
      (∀ o ∈ ops, patSafeOp P0 o) →
      (runOps m ops).pattern_cells = P0 ∧ patProtected P0 m0 (runOps m ops) := by
  intro ops
  induction ops with
  | nil => exact fun m hpat h _ => ⟨hpat, h⟩
  | cons o rest ih =>
    intro m hpat h hl
    show (runOps (applyOp m o) rest).pattern_cells = P0 ∧ _
    have hsafe := hl o (List.mem_cons_self o rest)
    have hstep : (applyOp m o).pattern_cells = P0 ∧ patProtected P0 m0 (applyOp m o) := by
      rcases hsafe with rfl | ⟨c, d, rfl⟩ | ⟨e, x, rfl⟩ | ⟨e, rnd, rfl, he⟩
      · exact ⟨hpat, patProtected_reset P0 m0 m h⟩
      · refine ⟨?_, patProtected_break_walls P0 m0 m c d hpat h⟩
        show (break_walls c d m).pattern_cells = P0
        unfold break_walls
        rw [foldl_breakCell_pattern]
        exact hpat
      · show (solve_bfs_full m e x).1.pattern_cells = P0 ∧
          patProtected P0 m0 (solve_bfs_full m e x).1
        rw [solve_bfs_full_fst m e x]
        exact ⟨hpat, h⟩
      · obtain ⟨h2, h1⟩ := patProtected_generate P0 m0 m rnd e hpat he h
        exact ⟨h1, h2⟩
    exact ih (applyOp m o) hstep.1 hstep.2 (fun o2 ho => hl o2 (List.mem_cons_of_mem _ ho))

/-- On success, every stamped cell of `add_42_pattern` is fully closed and
visited. -/
theorem add42_grid_pattern (m : Maze) (p : Pos)
    (h42 : (add_42_pattern m).2 = true)
    (hp : p ∈ (add_42_pattern m).1.pattern_cells) :
    (add_42_pattern m).1.grid p = ⟨true, true, true, true, true⟩ := by
  by_cases hc : m.width < 7 + 2 ∨ m.height < 5 + 2
  · rw [show add_42_pattern m = (m, false) from by unfold add_42_pattern; rw [if_pos hc]] at h42
    exact absurd h42 (by simp)
  · rw [show (add_42_pattern m).1 = { m with
        pattern_cells := patternCoords m.width m.height,
        grid := fun q => if q ∈ patternCoords m.width m.height then
          ⟨true, true, true, true, true⟩ else m.grid q }
      from by unfold add_42_pattern; rw [if_neg hc]] at hp ⊢
    have hp2 : p ∈ patternCoords m.width m.height := hp
    simp [hp2]

/-- C3 (amended): after a successful `add_42_pattern`, under any sequence
of `generate_backtracking`, `break_walls`, `reset_visited` and `solve_bfs`
calls whose carve entries are not pattern cells, every pattern cell keeps
all four walls closed, and a non-pattern cell adjacent to a pattern cell
keeps the shared wall closed on its side (its facing flag is exactly as
the stamp left it).  Carving from an entry inside the pattern set does
open pattern walls — see the counterexample. -/
theorem pattern_walls_never_opened (m : Maze)
    (h42 : (add_42_pattern m).2 = true) (ops : List Op)
    (hl : ∀ o ∈ ops, patSafeOp (add_42_pattern m).1.pattern_cells o) :
    (∀ p ∈ (add_42_pattern m).1.pattern_cells,
      ((runOps (add_42_pattern m).1 ops).grid p).north = true ∧
      ((runOps (add_42_pattern m).1 ops).grid p).east = true ∧
      ((runOps (add_42_pattern m).1 ops).grid p).south = true ∧
      ((runOps (add_42_pattern m).1 ops).grid p).west = true) ∧
    (∀ q : Pos, q ∉ (add_42_pattern m).1.pattern_cells →
      ((q.1, q.2 - 1) ∈ (add_42_pattern m).1.pattern_cells →
        ((runOps (add_42_pattern m).1 ops).grid q).north =
          ((add_42_pattern m).1.grid q).north) ∧
      ((q.1 + 1, q.2) ∈ (add_42_pattern m).1.pattern_cells →
        ((runOps (add_42_pattern m).1 ops).grid q).east =
          ((add_42_pattern m).1.grid q).east) ∧
      ((q.1, q.2 + 1) ∈ (add_42_pattern m).1.pattern_cells →
        ((runOps (add_42_pattern m).1 ops).grid q).south =
          ((add_42_pattern m).1.grid q).south) ∧
      ((q.1 - 1, q.2) ∈ (add_42_pattern m).1.pattern_cells →
        ((runOps (add_42_pattern m).1 ops).grid q).west =
          ((add_42_pattern m).1.grid q).west)) := by
  obtain ⟨hpat, hprot⟩ := patProtected_runOps (add_42_pattern m).1.pattern_cells
    (add_42_pattern m).1 ops (add_42_pattern m).1 rfl
    (patProtected_refl _ _) hl
  constructor
  · intro p hp
    obtain ⟨h1, h2, h3, h4⟩ := hprot p
    have hcell := add42_grid_pattern m p h42 hp
    refine ⟨?_, ?_, ?_, ?_⟩
    · rw [h1 (Or.inl hp), hcell]
    · rw [h2 (Or.inl hp), hcell]
    · rw [h3 (Or.inl hp), hcell]
    · rw [h4 (Or.inl hp), hcell]
  · intro q _
    obtain ⟨h1, h2, h3, h4⟩ := hprot q
    exact ⟨fun hmem => h1 (Or.inr hmem), fun hmem => h2 (Or.inr hmem),
      fun hmem => h3 (Or.inr hmem), fun hmem => h4 (Or.inr hmem)⟩

/-- Witness for the amended C3 at a concrete grid and sequence. -/
theorem pattern_walls_never_opened_witness :
    (add_42_pattern (Maze.fresh 9 7)).2 = true ∧
    (∀ o ∈ [Op.carve (0, 0) (fun _ => 0)],
      patSafeOp (add_42_pattern (Maze.fresh 9 7)).1.pattern_cells o) ∧
    ((1, 1) ∈ (add_42_pattern (Maze.fresh 9 7)).1.pattern_cells ∧
      ((runOps (add_42_pattern (Maze.fresh 9 7)).1
        [Op.carve (0, 0) (fun _ => 0)]).grid (1, 1)).north = true) := by
  have hsafe : ∀ o ∈ [Op.carve (0, 0) (fun _ => 0)],
      patSafeOp (add_42_pattern (Maze.fresh 9 7)).1.pattern_cells o := by
    intro o ho
    rw [List.mem_singleton] at ho
    subst ho
    exact Or.inr (Or.inr (Or.inr ⟨(0, 0), fun _ => 0, rfl, by decide⟩))
  have hmem : (1, 1) ∈ (add_42_pattern (Maze.fresh 9 7)).1.pattern_cells := by decide
  refine ⟨by decide, hsafe, hmem, ?_⟩
  exact ((pattern_walls_never_opened (Maze.fresh 9 7) (by decide)
    [Op.carve (0, 0) (fun _ => 0)] hsafe).1 (1, 1) hmem).1

set_option maxRecDepth 100000 in
set_option maxHeartbeats 2000000 in
/-- C3 counterexample: with the carve entry inside the pattern set
(`generate_backtracking` never checks this), the first carve step opens
the north wall of the pattern cell `(1, 1)`. -/
theorem carve_from_pattern_entry_opens_pattern_wall :
    (1, 1) ∈ (add_42_pattern (Maze.fresh 9 7)).1.pattern_cells ∧
    ((runOps (add_42_pattern (Maze.fresh 9 7)).1
      [Op.carve (1, 1) (fun _ => 0)]).grid (1, 1)).north = false := by
  constructor
  · decide
  · decide

/-! ## C7: visited flags of pattern cells -/

theorem breakCell_visited (coin : Pos → Bool) (dirOf : Pos → Dir) (m : Maze)
    (q p : Pos) :
    ((breakCell coin dirOf m q).grid p).visited = (m.grid p).visited := by
  rw [breakCell_grid, maskQ_eq_bits]

theorem foldl_breakCell_visited (coin : Pos → Bool) (dirOf : Pos → Dir) :
    ∀ (L : List Pos) (m : Maze) (p : Pos),
      ((L.foldl (breakCell coin dirOf) m).grid p).visited = (m.grid p).visited := by
  intro L
  induction L with
  | nil => exact fun m p => rfl
  | cons q rest ih =>
    intro m p
    show ((rest.foldl (breakCell coin dirOf) (breakCell coin dirOf m q)).grid p).visited = _
    rw [ih, breakCell_visited]

theorem generate_keeps_visited (rnd : Nat → Nat) (m : Maze) (entry p0 : Pos)
    (h : (m.grid p0).visited = true) :
    ((generate_backtracking rnd m entry).grid p0).visited = true := by
  unfold generate_backtracking
  obtain ⟨st2, h2⟩ := carveLoop_inv (fun mm _ => (mm.grid p0).visited = true)
    (fun _ _ _ _ h => h)
    (fun m top rest nxt _ h => by
      show (((openWallBetween m top nxt).setVisited nxt).grid p0).visited = true
      unfold Maze.setVisited Maze.modCell
      dsimp only
      split
      · rfl
      · rw [(openWallBetween_le m top nxt p0).2.2.2.2]
        exact h)
    (2 * m.width * m.height + 1) rnd (m.setVisited entry) [entry]
    (by
      show ((m.setVisited entry).grid p0).visited = true
      unfold Maze.setVisited Maze.modCell
      dsimp only
      split
      · rfl
      · exact h)
  exact h2

/-- The operations C7's amended claim quantifies over: carve, break and
solve (no reset, no re-stamp). -/
def keepsVisitedOp (o : Op) : Prop :=
  (∃ e rnd, o = Op.carve e rnd) ∨ (∃ c d, o = Op.breakW c d) ∨ (∃ e x, o = Op.solve e x)

theorem visited_kept_runOps (p0 : Pos) :
    ∀ (ops : List Op) (m : Maze), (m.grid p0).visited = true →
      (∀ o ∈ ops, keepsVisitedOp o) → ((runOps m ops).grid p0).visited = true := by
  intro ops
  induction ops with
  | nil => exact fun m h _ => h
  | cons o rest ih =>
    intro m h hl
    show ((runOps (applyOp m o) rest).grid p0).visited = true
    apply ih
    · rcases hl o (List.mem_cons_self o rest) with ⟨e, rnd, rfl⟩ | ⟨c, d, rfl⟩ | ⟨e, x, rfl⟩
      · exact generate_keeps_visited rnd m e p0 h
      · show ((break_walls c d m).grid p0).visited = true
        unfold break_walls
        rw [foldl_breakCell_visited]
        exact h
      · show (((solve_bfs_full m e x).1).grid p0).visited = true
        rw [solve_bfs_full_fst m e x]
        exact h
    · exact fun o2 ho => hl o2 (List.mem_cons_of_mem _ ho)

/-- C7 (amended): a pattern cell's visited flag is true from the moment
`add_42_pattern` stamps it and stays true under every subsequent
`generate_backtracking`, `break_walls` and `solve_bfs` call; but
`reset_visited` clears it together with every other in-bounds cell's
visited flag. -/
theorem pattern_visited_until_reset (m : Maze)
    (h42 : (add_42_pattern m).2 = true) (ops : List Op)
    (hl : ∀ o ∈ ops, keepsVisitedOp o) :
    (∀ p ∈ (add_42_pattern m).1.pattern_cells,
      ((runOps (add_42_pattern m).1 ops).grid p).visited = true) ∧
    (∀ (m2 : Maze) (p : Pos), p.1 < m2.width → p.2 < m2.height →
      ((reset_visited m2).grid p).visited = false) := by
  constructor
  · intro p hp
    apply visited_kept_runOps p ops (add_42_pattern m).1 _ hl
    rw [add42_grid_pattern m p h42 hp]
  · exact fun m2 p hx hy => reset_visited_clears m2 p hx hy

/-- Witness for the amended C7. -/
theorem pattern_visited_until_reset_witness :
    (add_42_pattern (Maze.fresh 9 7)).2 = true ∧
    (∀ o ∈ [Op.breakW (fun _ => true) (fun _ => Dir.N)], keepsVisitedOp o) ∧
    (1, 1) ∈ (add_42_pattern (Maze.fresh 9 7)).1.pattern_cells ∧
    ((runOps (add_42_pattern (Maze.fresh 9 7)).1
      [Op.breakW (fun _ => true) (fun _ => Dir.N)]).grid (1, 1)).visited = true ∧
    (0 : Nat) < (Maze.fresh 1 1).width ∧ (0 : Nat) < (Maze.fresh 1 1).height ∧
    ((reset_visited (Maze.fresh 1 1)).grid (0, 0)).visited = false := by
  have hsafe : ∀ o ∈ [Op.breakW (fun _ => true) (fun _ => Dir.N)], keepsVisitedOp o := by
    intro o ho
    rw [List.mem_singleton] at ho
    subst ho
    exact Or.inr (Or.inl ⟨_, _, rfl⟩)
  have hmem : (1, 1) ∈ (add_42_pattern (Maze.fresh 9 7)).1.pattern_cells := by decide
  refine ⟨by decide, hsafe, hmem, ?_, by decide, by decide, ?_⟩
  · exact (pattern_visited_until_reset (Maze.fresh 9 7) (by decide)
      [Op.breakW (fun _ => true) (fun _ => Dir.N)] hsafe).1 (1, 1) hmem
  · exact (pattern_visited_until_reset (Maze.fresh 9 7) (by decide) [] (by simp)).2
      (Maze.fresh 1 1) (0, 0) (by decide) (by decide)

/-- C7 counterexample: `reset_visited` (which the program runs between the
carve and solve phases) sets a pattern cell's visited flag to false, so
the flag does not persist for the maze's lifetime. -/
theorem reset_clears_pattern_visited :
    (1, 1) ∈ (add_42_pattern (Maze.fresh 9 7)).1.pattern_cells ∧
    ((add_42_pattern (Maze.fresh 9 7)).1.grid (1, 1)).visited = true ∧
    ((runOps (add_42_pattern (Maze.fresh 9 7)).1 [Op.reset]).grid (1, 1)).visited = false := by
  refine ⟨by decide, by decide, by decide⟩

/-! ## The open-wall graph -/

/-- Two cells are joined in the open-wall graph if they are adjacent
in-bounds cells and the shared wall is open on both sides. -/
def adjE (m : Maze) (p q : Pos) : Prop :=
  m.inB p ∧ m.inB q ∧
  ((q = (p.1 + 1, p.2) ∧ (m.grid p).east = false ∧ (m.grid q).west = false) ∨
   (p = (q.1 + 1, q.2) ∧ (m.grid q).east = false ∧ (m.grid p).west = false) ∨
   (q = (p.1, p.2 + 1) ∧ (m.grid p).south = false ∧ (m.grid q).north = false) ∨
   (p = (q.1, q.2 + 1) ∧ (m.grid q).south = false ∧ (m.grid p).north = false))

theorem adjE_symm (m : Maze) {p q : Pos} (h : adjE m p q) : adjE m q p := by
  obtain ⟨h1, h2, hcase⟩ := h
  refine ⟨h2, h1, ?_⟩
  rcases hcase with h | h | h | h
  · exact Or.inr (Or.inl h)
  · exact Or.inl h
  · exact Or.inr (Or.inr (Or.inr h))
  · exact Or.inr (Or.inr (Or.inl h))

theorem adjE_irrefl (m : Maze) (p : Pos) : ¬ adjE m p p := by
  rintro ⟨_, _, h | h | h | h⟩ <;>
    (obtain ⟨he, _⟩ := h; have := congrArg Prod.fst he; have := congrArg Prod.snd he; omega)

/-- The open-wall graph on coordinates. -/
def posGraph (m : Maze) : SimpleGraph Pos where
  Adj := adjE m
  symm := fun _ _ h => adjE_symm m h
  loopless := fun p h => adjE_irrefl m p h

/-- The last vertex of a walk's support is its endpoint. -/
theorem walk_support_getLast {V : Type} {G : SimpleGraph V} :
    ∀ {u v : V} (p : G.Walk u v), p.support.getLast? = some v := by
  intro u v p
  induction p with
  | nil => rfl
  | cons h q ih =>
    rw [SimpleGraph.Walk.support_cons]
    rw [SimpleGraph.Walk.support_eq_cons q, List.getLast?_cons_cons,
      ← SimpleGraph.Walk.support_eq_cons q]
    exact ih

theorem tail_reverse_perm {α : Type} (l : List α) (v : α)
    (hhead : l.head? = some v) (hlast : l.getLast? = some v) :
    l.reverse.tail.Perm l.tail := by
  obtain ⟨t, rfl⟩ : ∃ t, l = v :: t := by
    cases l with
    | nil => cases hhead
    | cons a t =>
      obtain rfl : a = v := by simpa using hhead
      exact ⟨t, rfl⟩
  cases ht : t with
  | nil => simp
  | cons b t2 =>
    subst ht
    have hlast2 : (b :: t2).getLast? = some v := by
      rw [← List.getLast?_cons_cons (a := v)]
      exact hlast
    have hsplit : (b :: t2).dropLast ++ [v] = b :: t2 :=
      List.dropLast_append_getLast? v hlast2
    have he : (v :: b :: t2).reverse.tail = (b :: t2).dropLast.reverse ++ [v] := by
      conv_lhs => rw [List.reverse_cons, ← hsplit, List.reverse_append]
      rfl
    have hperm : ((b :: t2).dropLast.reverse ++ [v]).Perm ((b :: t2).dropLast ++ [v]) :=
      (List.reverse_perm _).append_right [v]
    rw [hsplit] at hperm
    rw [he]
    exact hperm

theorem isCycle_reverse {V : Type} {G : SimpleGraph V} {v : V} {p : G.Walk v v}
    (hp : p.IsCycle) : p.reverse.IsCycle := by
  rw [SimpleGraph.Walk.isCycle_def] at hp ⊢
  obtain ⟨ht, hne, hnd⟩ := hp
  refine ⟨?_, ?_, ?_⟩
  · rw [SimpleGraph.Walk.isTrail_def] at ht ⊢
    rw [SimpleGraph.Walk.edges_reverse]
    exact List.nodup_reverse.mpr ht
  · intro hcon
    apply hne
    have h2 := congrArg SimpleGraph.Walk.reverse hcon
    rwa [SimpleGraph.Walk.reverse_reverse] at h2
  · rw [SimpleGraph.Walk.support_reverse]
    refine ((tail_reverse_perm p.support v ?_ ?_).symm).nodup hnd
    · rw [SimpleGraph.Walk.support_eq_cons]
      rfl
    · exact walk_support_getLast p

theorem isCycle_transfer {V : Type} {G H : SimpleGraph V} {v : V} {p : G.Walk v v}
    (hp : p.IsCycle) (hsub : ∀ e ∈ p.edges, e ∈ H.edgeSet) :
    (p.transfer H hsub).IsCycle := by
  rw [SimpleGraph.Walk.isCycle_def] at hp ⊢
  obtain ⟨ht, hne, hnd⟩ := hp
  refine ⟨?_, ?_, ?_⟩
  · rw [SimpleGraph.Walk.isTrail_def] at ht ⊢
    rw [SimpleGraph.Walk.edges_transfer]
    exact ht
  · intro hcon
    apply hne
    have hlen := SimpleGraph.Walk.length_transfer p hsub
    rw [hcon] at hlen
    cases p with
    | nil => rfl
    | cons h q => exact absurd hlen.symm (by simp)
  · rw [SimpleGraph.Walk.support_transfer]
    exact hnd

/-- A non-nil closed walk starts with an edge out of its base vertex. -/
theorem exists_first_edge {V : Type} {G2 : SimpleGraph V} {v : V}
    (c : G2.Walk v v) (h : c ≠ SimpleGraph.Walk.nil) :
    ∃ (b : V) (_ : G2.Adj v b), c.edges.head? = some s(v, b) := by
  cases c with
  | nil => exact absurd rfl h
  | cons h1 rest =>
    refine ⟨_, h1, ?_⟩
    rw [SimpleGraph.Walk.edges_cons]
    rfl

theorem head_getLast_nodup {α : Type} (l : List α) (e : α)
    (hh : l.head? = some e) (hl : l.getLast? = some e) (hn : l.Nodup) :
    l.length ≤ 1 := by
  cases l with
  | nil => simp
  | cons x t =>
    have hxe : x = e := by simpa using hh
    cases t with
    | nil => simp
    | cons y t2 =>
      exfalso
      rw [List.getLast?_cons_cons] at hl
      have hmem : e ∈ y :: t2 := by
        have h2 := List.dropLast_append_getLast? e hl
        rw [← h2]
        simp
      rw [List.nodup_cons, hxe] at hn
      exact hn.1 hmem

/-- Adding a single edge `{u, v}` to an acyclic graph, where `v` was an
isolated vertex, keeps the graph acyclic. -/
theorem isAcyclic_pendant {V : Type} [DecidableEq V] (G G2 : SimpleGraph V)
    (u v : V) (huv : u ≠ v) (hiso : ∀ w, ¬ G.Adj v w)
    (hadj : ∀ a b, G2.Adj a b ↔ G.Adj a b ∨ (a = u ∧ b = v) ∨ (a = v ∧ b = u))
    (hG : G.IsAcyclic) : G2.IsAcyclic := by
  have haux : ∀ c2 : G2.Walk v v, ¬ c2.IsCycle := by
    intro c2 hc2
    have hc2d := (SimpleGraph.Walk.isCycle_def c2).mp hc2
    obtain ⟨a, ha1, hhead⟩ := exists_first_edge c2 hc2d.2.1
    have hrne : c2.reverse ≠ SimpleGraph.Walk.nil := by
      intro hcon
      apply hc2d.2.1
      have h2 := congrArg SimpleGraph.Walk.reverse hcon
      rwa [SimpleGraph.Walk.reverse_reverse] at h2
    obtain ⟨b, hb1, hb2⟩ := exists_first_edge c2.reverse hrne
    have hau : a = u := by
      rcases (hadj v a).mp ha1 with h | ⟨hvu, _⟩ | ⟨_, hau⟩
      · exact absurd h (hiso a)
      · exact absurd hvu.symm huv
      · exact hau
    have hbu : b = u := by
      rcases (hadj v b).mp hb1 with h | ⟨hvu, _⟩ | ⟨_, hbu⟩
      · exact absurd h (hiso b)
      · exact absurd hvu.symm huv
      · exact hbu
    rw [hau] at hhead
    rw [hbu] at hb2
    have hlast : c2.edges.getLast? = some s(v, u) := by
      rw [← List.head?_reverse, ← SimpleGraph.Walk.edges_reverse]
      exact hb2
    have hle := head_getLast_nodup c2.edges s(v, u) hhead hlast
      ((SimpleGraph.Walk.isTrail_def c2).mp hc2.isTrail)
    have h3 := hc2.three_le_length
    have hel := SimpleGraph.Walk.length_edges c2
    omega
  intro root c hc
  by_cases hv : v ∈ c.support
  · exact haux (c.rotate hv) (hc.rotate hv)
  · have hsub : ∀ e ∈ c.edges, e ∈ G.edgeSet := by
      intro e he
      induction e using Sym2.ind with
      | _ a b =>
        rcases (hadj a b).mp (SimpleGraph.Walk.adj_of_mem_edges c he) with h | ⟨_, rfl⟩ | ⟨rfl, _⟩
        · exact h
        · exact absurd (SimpleGraph.Walk.snd_mem_support_of_mem_edges c he) hv
        · exact absurd (SimpleGraph.Walk.fst_mem_support_of_mem_edges c he) hv
    exact hG (c.transfer G hsub) (isCycle_transfer hc hsub)

/-! ## Counting open walls and visited cells -/

/-- The in-bounds coordinates as a finite set. -/
def gridFinset (w h : Nat) : Finset Pos := Finset.range w ×ˢ Finset.range h

theorem mem_gridFinset {w h : Nat} {p : Pos} :
    p ∈ gridFinset w h ↔ p.1 < w ∧ p.2 < h := by
  unfold gridFinset
  rw [Finset.mem_product, Finset.mem_range, Finset.mem_range]

/-- The number of open walls, counting each wall once through the cell on
its west (for vertical walls) or north (for horizontal walls) side. -/
def openWallCount (m : Maze) : ℕ :=
  ∑ p ∈ gridFinset m.width m.height,
    ((if p.1 + 1 < m.width ∧ (m.grid p).east = false then 1 else 0) +
     (if p.2 + 1 < m.height ∧ (m.grid p).south = false then 1 else 0))

/-- The number of visited in-bounds cells. -/
def visitedCount (m : Maze) : ℕ :=
  ∑ p ∈ gridFinset m.width m.height, (if (m.grid p).visited = true then 1 else 0)

/-- The number of unvisited in-bounds cells. -/
def unvisCount (m : Maze) : ℕ :=
  ∑ p ∈ gridFinset m.width m.height, (if (m.grid p).visited = true then 0 else 1)

theorem sum_succ_at {s : Finset Pos} {f g : Pos → ℕ} (a : Pos) (ha : a ∈ s)
    (hsame : ∀ b ∈ s, b ≠ a → f b = g b) (hdiff : f a = g a + 1) :
    ∑ b ∈ s, f b = (∑ b ∈ s, g b) + 1 := by
  rw [← Finset.sum_erase_add s f ha, ← Finset.sum_erase_add s g ha]
  have he : ∑ b ∈ s.erase a, f b = ∑ b ∈ s.erase a, g b := by
    apply Finset.sum_congr rfl
    intro b hb
    rw [Finset.mem_erase] at hb
    exact hsame b hb.2 hb.1
  omega

theorem sum_eq_of_eq {s : Finset Pos} {f g : Pos → ℕ}
    (hsame : ∀ b ∈ s, f b = g b) : ∑ b ∈ s, f b = ∑ b ∈ s, g b :=
  Finset.sum_congr rfl hsame

/-- Fresh-grid counts: no open walls. -/
theorem openWallCount_fresh_setVisited (w h : Nat) (entry : Pos) :
    openWallCount ((Maze.fresh w h).setVisited entry) = 0 := by
  unfold openWallCount
  apply Finset.sum_eq_zero
  intro p _
  have he : (((Maze.fresh w h).setVisited entry).grid p).east = true := by
    unfold Maze.fresh Maze.setVisited Maze.modCell
    dsimp only
    split <;> rfl
  have hs : (((Maze.fresh w h).setVisited entry).grid p).south = true := by
    unfold Maze.fresh Maze.setVisited Maze.modCell
    dsimp only
    split <;> rfl
  rw [he, hs]
  simp

theorem visitedCount_fresh_setVisited (w h : Nat) (entry : Pos)
    (hx : entry.1 < w) (hy : entry.2 < h) :
    visitedCount ((Maze.fresh w h).setVisited entry) = 1 := by
  unfold visitedCount
  rw [show (((Maze.fresh w h).setVisited entry).width) = w from rfl,
    show (((Maze.fresh w h).setVisited entry).height) = h from rfl]
  have hstep : ∀ p ∈ gridFinset w h,
      (if ((((Maze.fresh w h).setVisited entry).grid p).visited = true) then 1 else 0) =
      (if p = entry then 1 else 0) := by
    intro p _
    unfold Maze.fresh Maze.setVisited Maze.modCell
    dsimp only
    by_cases hp : p = entry
    · subst hp
      simp
    · rw [if_neg hp, if_neg hp]
      rfl
  rw [Finset.sum_congr rfl hstep, Finset.sum_ite_eq']
  rw [if_pos (mem_gridFinset.mpr ⟨hx, hy⟩)]

theorem unvisCount_split (m : Maze) :
    unvisCount m + visitedCount m = m.width * m.height := by
  unfold unvisCount visitedCount
  rw [← Finset.sum_add_distrib]
  have hone : ∀ p ∈ gridFinset m.width m.height,
      ((if (m.grid p).visited = true then 0 else 1) +
        (if (m.grid p).visited = true then 1 else 0)) = 1 := by
    intro p _
    split <;> rfl
  rw [Finset.sum_congr rfl hone, Finset.sum_const, smul_eq_mul, mul_one]
  unfold gridFinset
  rw [Finset.card_product, Finset.card_range, Finset.card_range]

/-! ## How each carve step changes the open-wall graph -/

theorem openEast_flags (m : Maze) (u p : Pos) :
    ((m.openEast u).grid p).north = (m.grid p).north ∧
    ((m.openEast u).grid p).south = (m.grid p).south ∧
    ((m.openEast u).grid p).visited = (m.grid p).visited ∧
    (((m.openEast u).grid p).east = false ↔ ((m.grid p).east = false ∨ p = u)) ∧
    (((m.openEast u).grid p).west = false ↔
      ((m.grid p).west = false ∨ p = (u.1 + 1, u.2))) := by
  rw [openEast_grid]
  by_cases h1 : p = (u.1 + 1, u.2)
  · rw [if_pos h1]
    have hne : p ≠ u := by
      rw [h1]
      intro hc
      have := congrArg Prod.fst hc
      simp only at this
      omega
    exact ⟨rfl, rfl, rfl, by simp [hne], by simp [h1]⟩
  · rw [if_neg h1]
    by_cases h2 : p = u
    · rw [if_pos h2]
      exact ⟨rfl, rfl, rfl, by simp [h2], by simp [h1]⟩
    · rw [if_neg h2]
      exact ⟨rfl, rfl, rfl, by simp [h2], by simp [h1]⟩

theorem openSouth_flags (m : Maze) (u p : Pos) :
    ((m.openSouth u).grid p).east = (m.grid p).east ∧
    ((m.openSouth u).grid p).west = (m.grid p).west ∧
    ((m.openSouth u).grid p).visited = (m.grid p).visited ∧
    (((m.openSouth u).grid p).south = false ↔ ((m.grid p).south = false ∨ p = u)) ∧
    (((m.openSouth u).grid p).north = false ↔
      ((m.grid p).north = false ∨ p = (u.1, u.2 + 1))) := by
  rw [openSouth_grid]
  by_cases h1 : p = (u.1, u.2 + 1)
  · rw [if_pos h1]
    have hne : p ≠ u := by
      rw [h1]
      intro hc
      have := congrArg Prod.snd hc
      simp only at this
      omega
    exact ⟨rfl, rfl, rfl, by simp [hne], by simp [h1]⟩
  · rw [if_neg h1]
    by_cases h2 : p = u
    · rw [if_pos h2]
      exact ⟨rfl, rfl, rfl, by simp [h2], by simp [h1]⟩
    · rw [if_neg h2]
      exact ⟨rfl, rfl, rfl, by simp [h2], by simp [h1]⟩

/-- Opening a north wall is the same maze mutation as opening the south
wall of the cell above. -/
theorem openNorth_eq_openSouth (m : Maze) (u : Pos) (h : 0 < u.2) :
    m.openNorth u = m.openSouth (u.1, u.2 - 1) := by
  have hgrid : (m.openNorth u).grid = (m.openSouth (u.1, u.2 - 1)).grid := by
    funext p
    rw [openNorth_grid m u p h, openSouth_grid m (u.1, u.2 - 1) p]
    obtain ⟨ux, uy⟩ := u
    obtain ⟨px, py⟩ := p
    simp only at h ⊢
    split_ifs <;>
      (try simp only [Prod.mk.injEq] at *) <;> (try (exfalso; omega)) <;>
      (try rfl) <;> (try simp_all) <;> (try omega)
  exact Maze.ext rfl rfl hgrid rfl

/-- Opening a west wall is the same maze mutation as opening the east
wall of the cell to the left. -/
theorem openWest_eq_openEast (m : Maze) (u : Pos) (h : 0 < u.1) :
    m.openWest u = m.openEast (u.1 - 1, u.2) := by
  have hgrid : (m.openWest u).grid = (m.openEast (u.1 - 1, u.2)).grid := by
    funext p
    rw [openWest_grid m u p h, openEast_grid m (u.1 - 1, u.2) p]
    obtain ⟨ux, uy⟩ := u
    obtain ⟨px, py⟩ := p
    simp only at h ⊢
    split_ifs <;>
      (try simp only [Prod.mk.injEq] at *) <;> (try (exfalso; omega)) <;>
      (try rfl) <;> (try simp_all) <;> (try omega)
  exact Maze.ext rfl rfl hgrid rfl

theorem pos_ext {a b : Pos} (h1 : a.1 = b.1) (h2 : a.2 = b.2) : a = b :=
  Prod.ext h1 h2

/-- Opening the east wall of `u` adds exactly the edge between `u` and its
east neighbour to the open-wall graph. -/
theorem adjE_openEast (m : Maze) (u : Pos) (hu : m.inB u) (hv : m.inB (u.1 + 1, u.2))
    (a b : Pos) :
    adjE (m.openEast u) a b ↔
      adjE m a b ∨ (a = u ∧ b = (u.1 + 1, u.2)) ∨ (a = (u.1 + 1, u.2) ∧ b = u) := by
  constructor
  · rintro ⟨ha, hb, hcase⟩
    have ha2 : m.inB a := ha
    have hb2 : m.inB b := hb
    rcases hcase with ⟨hgeo, he, hw⟩ | ⟨hgeo, he, hw⟩ | ⟨hgeo, hs, hn⟩ | ⟨hgeo, hs, hn⟩
    · rw [(openEast_flags m u a).2.2.2.1] at he
      rw [(openEast_flags m u b).2.2.2.2] at hw
      rcases he with he | hau
      · rcases hw with hw | hbv
        · exact Or.inl ⟨ha2, hb2, Or.inl ⟨hgeo, he, hw⟩⟩
        · refine Or.inr (Or.inl ⟨?_, hbv⟩)
          rw [hbv] at hgeo
          have h1 := congrArg Prod.fst hgeo
          have h2 := congrArg Prod.snd hgeo
          simp only at h1 h2
          exact pos_ext (by omega) (by omega)
      · refine Or.inr (Or.inl ⟨hau, ?_⟩)
        rw [hgeo, hau]
    · rw [(openEast_flags m u b).2.2.2.1] at he
      rw [(openEast_flags m u a).2.2.2.2] at hw
      rcases he with he | hbu
      · rcases hw with hw | hav
        · exact Or.inl ⟨ha2, hb2, Or.inr (Or.inl ⟨hgeo, he, hw⟩)⟩
        · refine Or.inr (Or.inr ⟨hav, ?_⟩)
          rw [hav] at hgeo
          have h1 := congrArg Prod.fst hgeo
          have h2 := congrArg Prod.snd hgeo
          simp only at h1 h2
          exact pos_ext (by omega) (by omega)
      · refine Or.inr (Or.inr ⟨?_, hbu⟩)
        rw [hgeo, hbu]
    · rw [(openEast_flags m u a).2.1] at hs
      rw [(openEast_flags m u b).1] at hn
      exact Or.inl ⟨ha2, hb2, Or.inr (Or.inr (Or.inl ⟨hgeo, hs, hn⟩))⟩
    · rw [(openEast_flags m u b).2.1] at hs
      rw [(openEast_flags m u a).1] at hn
      exact Or.inl ⟨ha2, hb2, Or.inr (Or.inr (Or.inr ⟨hgeo, hs, hn⟩))⟩
  · rintro (⟨ha, hb, hcase⟩ | ⟨hau2, hbv2⟩ | ⟨hav2, hbu2⟩)
    rotate_left
    · rw [hau2, hbv2]
      exact ⟨hu, hv, Or.inl ⟨rfl, (openEast_flags m u u).2.2.2.1.mpr (Or.inr rfl),
        (openEast_flags m u (u.1 + 1, u.2)).2.2.2.2.mpr (Or.inr rfl)⟩⟩
    · rw [hav2, hbu2]
      exact ⟨hv, hu, Or.inr (Or.inl ⟨rfl, (openEast_flags m u u).2.2.2.1.mpr (Or.inr rfl),
        (openEast_flags m u (u.1 + 1, u.2)).2.2.2.2.mpr (Or.inr rfl)⟩)⟩
    · refine ⟨ha, hb, ?_⟩
      rcases hcase with ⟨hgeo, he, hw⟩ | ⟨hgeo, he, hw⟩ | ⟨hgeo, hs, hn⟩ | ⟨hgeo, hs, hn⟩
      · exact Or.inl ⟨hgeo, (openEast_flags m u a).2.2.2.1.mpr (Or.inl he),
          (openEast_flags m u b).2.2.2.2.mpr (Or.inl hw)⟩
      · exact Or.inr (Or.inl ⟨hgeo, (openEast_flags m u b).2.2.2.1.mpr (Or.inl he),
          (openEast_flags m u a).2.2.2.2.mpr (Or.inl hw)⟩)
      · exact Or.inr (Or.inr (Or.inl ⟨hgeo, by
          rw [(openEast_flags m u a).2.1]
          exact hs, by
          rw [(openEast_flags m u b).1]
          exact hn⟩))
      · exact Or.inr (Or.inr (Or.inr ⟨hgeo, by
          rw [(openEast_flags m u b).2.1]
          exact hs, by
          rw [(openEast_flags m u a).1]
          exact hn⟩))

/-- Opening the south wall of `u` adds exactly the edge between `u` and its
south neighbour to the open-wall graph. -/
theorem adjE_openSouth (m : Maze) (u : Pos) (hu : m.inB u) (hv : m.inB (u.1, u.2 + 1))
    (a b : Pos) :
    adjE (m.openSouth u) a b ↔
      adjE m a b ∨ (a = u ∧ b = (u.1, u.2 + 1)) ∨ (a = (u.1, u.2 + 1) ∧ b = u) := by
  constructor
  · rintro ⟨ha, hb, hcase⟩
    have ha2 : m.inB a := ha
    have hb2 : m.inB b := hb
    rcases hcase with ⟨hgeo, he, hw⟩ | ⟨hgeo, he, hw⟩ | ⟨hgeo, hs, hn⟩ | ⟨hgeo, hs, hn⟩
    · rw [(openSouth_flags m u a).1] at he
      rw [(openSouth_flags m u b).2.1] at hw
      exact Or.inl ⟨ha2, hb2, Or.inl ⟨hgeo, he, hw⟩⟩
    · rw [(openSouth_flags m u b).1] at he
      rw [(openSouth_flags m u a).2.1] at hw
      exact Or.inl ⟨ha2, hb2, Or.inr (Or.inl ⟨hgeo, he, hw⟩)⟩
    · rw [(openSouth_flags m u a).2.2.2.1] at hs
      rw [(openSouth_flags m u b).2.2.2.2] at hn
      rcases hs with hs | hau
      · rcases hn with hn | hbv
        · exact Or.inl ⟨ha2, hb2, Or.inr (Or.inr (Or.inl ⟨hgeo, hs, hn⟩))⟩
        · refine Or.inr (Or.inl ⟨?_, hbv⟩)
          rw [hbv] at hgeo
          have h1 := congrArg Prod.fst hgeo
          have h2 := congrArg Prod.snd hgeo
          simp only at h1 h2
          exact pos_ext (by omega) (by omega)
      · refine Or.inr (Or.inl ⟨hau, ?_⟩)
        rw [hgeo, hau]
    · rw [(openSouth_flags m u b).2.2.2.1] at hs
      rw [(openSouth_flags m u a).2.2.2.2] at hn
      rcases hs with hs | hbu
      · rcases hn with hn | hav
        · exact Or.inl ⟨ha2, hb2, Or.inr (Or.inr (Or.inr ⟨hgeo, hs, hn⟩))⟩
        · refine Or.inr (Or.inr ⟨hav, ?_⟩)
          rw [hav] at hgeo
          have h1 := congrArg Prod.fst hgeo
          have h2 := congrArg Prod.snd hgeo
          simp only at h1 h2
          exact pos_ext (by omega) (by omega)
      · refine Or.inr (Or.inr ⟨?_, hbu⟩)
        rw [hgeo, hbu]
  · rintro (⟨ha, hb, hcase⟩ | ⟨hau2, hbv2⟩ | ⟨hav2, hbu2⟩)
    rotate_left
    · rw [hau2, hbv2]
      exact ⟨hu, hv, Or.inr (Or.inr (Or.inl ⟨rfl,
        (openSouth_flags m u u).2.2.2.1.mpr (Or.inr rfl),
        (openSouth_flags m u (u.1, u.2 + 1)).2.2.2.2.mpr (Or.inr rfl)⟩))⟩
    · rw [hav2, hbu2]
      exact ⟨hv, hu, Or.inr (Or.inr (Or.inr ⟨rfl,
        (openSouth_flags m u u).2.2.2.1.mpr (Or.inr rfl),
        (openSouth_flags m u (u.1, u.2 + 1)).2.2.2.2.mpr (Or.inr rfl)⟩))⟩
    · refine ⟨ha, hb, ?_⟩
      rcases hcase with ⟨hgeo, he, hw⟩ | ⟨hgeo, he, hw⟩ | ⟨hgeo, hs, hn⟩ | ⟨hgeo, hs, hn⟩
      · exact Or.inl ⟨hgeo, by
          rw [(openSouth_flags m u a).1]
          exact he, by
          rw [(openSouth_flags m u b).2.1]
          exact hw⟩
      · exact Or.inr (Or.inl ⟨hgeo, by
          rw [(openSouth_flags m u b).1]
          exact he, by
          rw [(openSouth_flags m u a).2.1]
          exact hw⟩)
      · exact Or.inr (Or.inr (Or.inl ⟨hgeo, (openSouth_flags m u a).2.2.2.1.mpr (Or.inl hs),
          (openSouth_flags m u b).2.2.2.2.mpr (Or.inl hn)⟩))
      · exact Or.inr (Or.inr (Or.inr ⟨hgeo, (openSouth_flags m u b).2.2.2.1.mpr (Or.inl hs),
          (openSouth_flags m u a).2.2.2.2.mpr (Or.inl hn)⟩))

/-- Marking a cell visited does not change the open-wall graph. -/
theorem adjE_setVisited (m : Maze) (v a b : Pos) :
    adjE (m.setVisited v) a b ↔ adjE m a b := by
  unfold adjE
  rw [show ((m.setVisited v).inB a ↔ m.inB a) from Iff.rfl,
    show ((m.setVisited v).inB b ↔ m.inB b) from Iff.rfl,
    (setVisited_walls m v a).1, (setVisited_walls m v a).2.1,
    (setVisited_walls m v a).2.2.1, (setVisited_walls m v a).2.2.2,
    (setVisited_walls m v b).1, (setVisited_walls m v b).2.1,
    (setVisited_walls m v b).2.2.1, (setVisited_walls m v b).2.2.2]

/-- A cell with all four walls closed is isolated in the open-wall graph. -/
theorem adjE_isolated (m : Maze) (v : Pos)
    (hall : (m.grid v).north = true ∧ (m.grid v).east = true ∧
      (m.grid v).south = true ∧ (m.grid v).west = true) :
    ∀ q, ¬ adjE m v q := by
  rintro q ⟨_, _, hcase⟩
  rcases hcase with ⟨_, he, _⟩ | ⟨_, _, hw⟩ | ⟨_, hs, _⟩ | ⟨_, _, hn⟩
  · rw [hall.2.1] at he
    cases he
  · rw [hall.2.2.2] at hw
    cases hw
  · rw [hall.2.2.1] at hs
    cases hs
  · rw [hall.1] at hn
    cases hn

/-- One carve step (`openWallBetween` towards a candidate, then marking it
visited) adds exactly the edge between `top` and `nxt`. -/
theorem adjE_pushStep (m : Maze) (top nxt : Pos) (htop : m.inB top) (hnxt : m.inB nxt)
    (hgeo : (nxt = (top.1, top.2 - 1) ∧ 0 < top.2) ∨ nxt = (top.1 + 1, top.2) ∨
      nxt = (top.1, top.2 + 1) ∨ (nxt = (top.1 - 1, top.2) ∧ 0 < top.1))
    (a b : Pos) :
    adjE ((openWallBetween m top nxt).setVisited nxt) a b ↔
      adjE m a b ∨ (a = top ∧ b = nxt) ∨ (a = nxt ∧ b = top) := by
  rw [adjE_setVisited]
  rcases hgeo with ⟨hn, hpos⟩ | he | hs | ⟨hw, hpos⟩
  · rw [hn, openWallBetween_north m top hpos, openNorth_eq_openSouth m top hpos]
    have hback : ((top.1, top.2 - 1) : Pos).2 + 1 = top.2 := by
      simp only
      omega
    have htv : (((top.1, top.2 - 1) : Pos).1, ((top.1, top.2 - 1) : Pos).2 + 1) = top := by
      exact pos_ext rfl hback
    rw [adjE_openSouth m (top.1, top.2 - 1)
      (by
        have h2 := htop.2
        exact ⟨htop.1, by simp only; omega⟩) (by rw [htv]; exact htop) a b, htv]
    tauto
  · rw [he, openWallBetween_east m top,
      adjE_openEast m top htop (by rw [← he]; exact hnxt) a b, ← he]
  · rw [hs, openWallBetween_south m top,
      adjE_openSouth m top htop (by rw [← hs]; exact hnxt) a b, ← hs]
  · rw [hw, openWallBetween_west m top hpos, openWest_eq_openEast m top hpos]
    have hback : ((top.1 - 1, top.2) : Pos).1 + 1 = top.1 := by
      simp only
      omega
    have htv : (((top.1 - 1, top.2) : Pos).1 + 1, ((top.1 - 1, top.2) : Pos).2) = top := by
      exact pos_ext hback rfl
    rw [adjE_openEast m (top.1 - 1, top.2)
      (by
        have h1 := htop.1
        exact ⟨by simp only; omega, htop.2⟩) (by rw [htv]; exact htop) a b, htv]
    tauto

/-! ## How each carve step changes the counts -/

theorem openWallCount_openEast (m : Maze) (u : Pos) (hx : u.1 + 1 < m.width)
    (hy : u.2 < m.height) (hold : (m.grid u).east = true) :
    openWallCount (m.openEast u) = openWallCount m + 1 := by
  unfold openWallCount
  rw [Maze.openEast_width, Maze.openEast_height]
  apply sum_succ_at u (mem_gridFinset.mpr ⟨by omega, hy⟩)
  · intro b _ hbne
    have hflag : ((m.openEast u).grid b).east = (m.grid b).east ∧
        ((m.openEast u).grid b).south = (m.grid b).south := by
      rw [openEast_grid]
      by_cases h1 : b = (u.1 + 1, u.2)
      · rw [if_pos h1]
        exact ⟨rfl, rfl⟩
      · rw [if_neg h1, if_neg hbne]
        exact ⟨rfl, rfl⟩
    rw [hflag.1, hflag.2]
  · have hne : u ≠ (u.1 + 1, u.2) := by
      intro hc
      have := congrArg Prod.fst hc
      simp only at this
      omega
    have heastu : ((m.openEast u).grid u).east = false := by
      rw [openEast_grid, if_neg hne, if_pos rfl]
    have hsouthu : ((m.openEast u).grid u).south = (m.grid u).south := by
      rw [openEast_grid, if_neg hne, if_pos rfl]
    rw [heastu, hsouthu]
    have hz : (if u.1 + 1 < m.width ∧ (m.grid u).east = false then (1 : ℕ) else 0) = 0 :=
      if_neg (fun hc => by rw [hold] at hc; exact Bool.noConfusion hc.2)
    rw [hz, if_pos (show u.1 + 1 < m.width ∧ (false : Bool) = false from ⟨hx, rfl⟩)]
    omega

theorem openWallCount_openSouth (m : Maze) (u : Pos) (hx : u.1 < m.width)
    (hy : u.2 + 1 < m.height) (hold : (m.grid u).south = true) :
    openWallCount (m.openSouth u) = openWallCount m + 1 := by
  unfold openWallCount
  rw [Maze.openSouth_width, Maze.openSouth_height]
  apply sum_succ_at u (mem_gridFinset.mpr ⟨hx, by omega⟩)
  · intro b _ hbne
    have hflag : ((m.openSouth u).grid b).east = (m.grid b).east ∧
        ((m.openSouth u).grid b).south = (m.grid b).south := by
      rw [openSouth_grid]
      by_cases h1 : b = (u.1, u.2 + 1)
      · rw [if_pos h1]
        exact ⟨rfl, rfl⟩
      · rw [if_neg h1, if_neg hbne]
        exact ⟨rfl, rfl⟩
    rw [hflag.1, hflag.2]
  · have hne : u ≠ (u.1, u.2 + 1) := by
      intro hc
      have := congrArg Prod.snd hc
      simp only at this
      omega
    have hsouthu : ((m.openSouth u).grid u).south = false := by
      rw [openSouth_grid, if_neg hne, if_pos rfl]
    have heastu : ((m.openSouth u).grid u).east = (m.grid u).east := by
      rw [openSouth_grid, if_neg hne, if_pos rfl]
    rw [hsouthu, heastu]
    have hz : (if u.2 + 1 < m.height ∧ (m.grid u).south = false then (1 : ℕ) else 0) = 0 :=
      if_neg (fun hc => by rw [hold] at hc; exact Bool.noConfusion hc.2)
    rw [hz, if_pos (show u.2 + 1 < m.height ∧ (false : Bool) = false from ⟨hy, rfl⟩)]

theorem openWallCount_setVisited (m : Maze) (v : Pos) :
    openWallCount (m.setVisited v) = openWallCount m := by
  unfold openWallCount
  rw [Maze.setVisited_width, Maze.setVisited_height]
  apply sum_eq_of_eq
  intro b _
  rw [(setVisited_walls m v b).2.1, (setVisited_walls m v b).2.2.1]

theorem visitedCount_openWallBetween (m : Maze) (cur nxt : Pos) :
    visitedCount (openWallBetween m cur nxt) = visitedCount m := by
  unfold visitedCount
  rw [openWallBetween_width, openWallBetween_height]
  apply sum_eq_of_eq
  intro b _
  rw [(openWallBetween_le m cur nxt b).2.2.2.2]

theorem unvisCount_openWallBetween (m : Maze) (cur nxt : Pos) :
    unvisCount (openWallBetween m cur nxt) = unvisCount m := by
  unfold unvisCount
  rw [openWallBetween_width, openWallBetween_height]
  apply sum_eq_of_eq
  intro b _
  rw [(openWallBetween_le m cur nxt b).2.2.2.2]

theorem visitedCount_setVisited (m : Maze) (v : Pos) (hx : v.1 < m.width)
    (hy : v.2 < m.height) (hnv : (m.grid v).visited = false) :
    visitedCount (m.setVisited v) = visitedCount m + 1 := by
  unfold visitedCount
  rw [Maze.setVisited_width, Maze.setVisited_height]
  apply sum_succ_at v (mem_gridFinset.mpr ⟨hx, hy⟩)
  · intro b _ hbne
    have hb : ((m.setVisited v).grid b).visited = (m.grid b).visited := by
      unfold Maze.setVisited Maze.modCell
      dsimp only
      rw [if_neg hbne]
    rw [hb]
  · have hv2 : ((m.setVisited v).grid v).visited = true := by
      unfold Maze.setVisited Maze.modCell
      dsimp only
      rw [if_pos rfl]
    rw [hv2, if_pos rfl, if_neg (fun hc => by rw [hnv] at hc; exact Bool.noConfusion hc)]

theorem unvisCount_setVisited (m : Maze) (v : Pos) (hx : v.1 < m.width)
    (hy : v.2 < m.height) (hnv : (m.grid v).visited = false) :
    unvisCount m = unvisCount (m.setVisited v) + 1 := by
  unfold unvisCount
  rw [Maze.setVisited_width, Maze.setVisited_height]
  apply sum_succ_at v (mem_gridFinset.mpr ⟨hx, hy⟩)
  · intro b _ hbne
    have hb : ((m.setVisited v).grid b).visited = (m.grid b).visited := by
      unfold Maze.setVisited Maze.modCell
      dsimp only
      rw [if_neg hbne]
    rw [hb]
  · have hv2 : ((m.setVisited v).grid v).visited = true := by
      unfold Maze.setVisited Maze.modCell
      dsimp only
      rw [if_pos rfl]
    rw [hv2, if_pos rfl, if_neg (fun hc => by rw [hnv] at hc; exact Bool.noConfusion hc)]

/-- When `candidates` is empty (and there are no pattern cells), every
in-bounds neighbour is visited. -/
theorem candidates_nil (m : Maze) (p : Pos) (hpat : m.pattern_cells = [])
    (h : candidates m p = []) :
    (0 < p.2 → (m.grid (p.1, p.2 - 1)).visited = true) ∧
    (p.1 < m.width - 1 → (m.grid (p.1 + 1, p.2)).visited = true) ∧
    (p.2 < m.height - 1 → (m.grid (p.1, p.2 + 1)).visited = true) ∧
    (0 < p.1 → (m.grid (p.1 - 1, p.2)).visited = true) := by
  unfold candidates at h
  rw [hpat] at h
  rw [List.append_eq_nil, List.append_eq_nil, List.append_eq_nil] at h
  obtain ⟨⟨⟨h1, h2⟩, h3⟩, h4⟩ := h
  refine ⟨?_, ?_, ?_, ?_⟩
  · intro hb
    by_contra hv
    rw [if_pos ⟨hb, hv, List.not_mem_nil _⟩] at h1
    exact List.cons_ne_nil _ _ h1
  · intro hb
    by_contra hv
    rw [if_pos ⟨hb, hv, List.not_mem_nil _⟩] at h2
    exact List.cons_ne_nil _ _ h2
  · intro hb
    by_contra hv
    rw [if_pos ⟨hb, hv, List.not_mem_nil _⟩] at h3
    exact List.cons_ne_nil _ _ h3
  · intro hb
    by_contra hv
    rw [if_pos ⟨hb, hv, List.not_mem_nil _⟩] at h4
    exact List.cons_ne_nil _ _ h4

/-- The visited flag after one carve step. -/
theorem visited_pushStep (m : Maze) (top nxt p : Pos) :
    (((openWallBetween m top nxt).setVisited nxt).grid p).visited =
      (if p = nxt then true else (m.grid p).visited) := by
  unfold Maze.setVisited Maze.modCell
  dsimp only
  by_cases hp : p = nxt
  · rw [if_pos hp, if_pos hp]
  · rw [if_neg hp, if_neg hp, (openWallBetween_le m top nxt p).2.2.2.2]

/-- Walls of cells other than `top` and `nxt` after one carve step. -/
theorem walls_pushStep_other (m : Maze) (top nxt p : Pos) (h1 : p ≠ top) (h2 : p ≠ nxt) :
    (((openWallBetween m top nxt).setVisited nxt).grid p).north = (m.grid p).north ∧
    (((openWallBetween m top nxt).setVisited nxt).grid p).east = (m.grid p).east ∧
    (((openWallBetween m top nxt).setVisited nxt).grid p).south = (m.grid p).south ∧
    (((openWallBetween m top nxt).setVisited nxt).grid p).west = (m.grid p).west := by
  obtain ⟨w1, w2, w3, w4⟩ := setVisited_walls (openWallBetween m top nxt) nxt p
  rw [w1, w2, w3, w4, openWallBetween_grid_other m top nxt p h1 h2]
  exact ⟨rfl, rfl, rfl, rfl⟩

/-- One carve step opens exactly one new wall (counted once). -/
theorem openWallCount_push (m : Maze) (top nxt : Pos) (htop : m.inB top) (hnxt : m.inB nxt)
    (hsym : symmWalls m)
    (hclosed : (m.grid nxt).north = true ∧ (m.grid nxt).east = true ∧
      (m.grid nxt).south = true ∧ (m.grid nxt).west = true)
    (hgeo : (nxt = (top.1, top.2 - 1) ∧ 0 < top.2) ∨ nxt = (top.1 + 1, top.2) ∨
      nxt = (top.1, top.2 + 1) ∨ (nxt = (top.1 - 1, top.2) ∧ 0 < top.1)) :
    openWallCount ((openWallBetween m top nxt).setVisited nxt) = openWallCount m + 1 := by
  rw [openWallCount_setVisited]
  rcases hgeo with ⟨hn, hpos⟩ | he | hs | ⟨hw2, hpos⟩
  · rw [hn, openWallBetween_north m top hpos, openNorth_eq_openSouth m top hpos]
    rw [hn] at hclosed
    apply openWallCount_openSouth
    · exact htop.1
    · show top.2 - 1 + 1 < m.height
      have := htop.2
      omega
    · exact hclosed.2.2.1
  · rw [he, openWallBetween_east m top]
    rw [he] at hclosed hnxt
    apply openWallCount_openEast
    · exact hnxt.1
    · exact htop.2
    · rw [(hsym top htop.1 htop.2).1 hnxt.1]
      exact hclosed.2.2.2
  · rw [hs, openWallBetween_south m top]
    rw [hs] at hclosed hnxt
    apply openWallCount_openSouth
    · exact htop.1
    · exact hnxt.2
    · rw [(hsym top htop.1 htop.2).2 hnxt.2]
      exact hclosed.1
  · rw [hw2, openWallBetween_west m top hpos, openWest_eq_openEast m top hpos]
    rw [hw2] at hclosed
    apply openWallCount_openEast
    · show top.1 - 1 + 1 < m.width
      have := htop.1
      omega
    · exact htop.2
    · exact hclosed.2.1

/-- `q` is one of the four grid neighbours of `p`. -/
def nbrFull (p q : Pos) : Prop :=
  q = (p.1 + 1, p.2) ∨ p = (q.1 + 1, q.2) ∨ q = (p.1, p.2 + 1) ∨ p = (q.1, q.2 + 1)

theorem candidates_geom (m : Maze) (top nxt : Pos) (htop : m.inB top)
    (hmem : nxt ∈ candidates m top) :
    m.inB nxt ∧
    ((nxt = (top.1, top.2 - 1) ∧ 0 < top.2) ∨ nxt = (top.1 + 1, top.2) ∨
      nxt = (top.1, top.2 + 1) ∨ (nxt = (top.1 - 1, top.2) ∧ 0 < top.1)) ∧ top ≠ nxt := by
  obtain ⟨_, _, hgeo⟩ := candidates_mem m top nxt hmem
  obtain ⟨hx, hy⟩ := htop
  rcases hgeo with ⟨rfl, hb⟩ | ⟨rfl, hb⟩ | ⟨rfl, hb⟩ | ⟨rfl, hb⟩
  · refine ⟨⟨hx, by show top.2 - 1 < m.height; omega⟩, Or.inl ⟨rfl, hb⟩, ?_⟩
    intro hc
    have := congrArg Prod.snd hc
    simp only at this
    omega
  · refine ⟨⟨by show top.1 + 1 < m.width; omega, hy⟩, Or.inr (Or.inl rfl), ?_⟩
    intro hc
    have := congrArg Prod.fst hc
    simp only at this
    omega
  · refine ⟨⟨hx, by show top.2 + 1 < m.height; omega⟩, Or.inr (Or.inr (Or.inl rfl)), ?_⟩
    intro hc
    have := congrArg Prod.snd hc
    simp only at this
    omega
  · refine ⟨⟨by show top.1 - 1 < m.width; omega, hy⟩, Or.inr (Or.inr (Or.inr ⟨rfl, hb⟩)), ?_⟩
    intro hc
    have := congrArg Prod.fst hc
    simp only at this
    omega

/-- The invariant maintained by the carve loop: dimensions, empty pattern
set, a stack of visited in-bounds cells, fully closed unvisited cells,
wall symmetry, reachability of every visited cell from the entry,
acyclicity of the open-wall graph, the wall count one below the visited
count, and closure: visited cells off the stack have all their in-bounds
neighbours visited. -/
structure CarveInv (w h : Nat) (entry : Pos) (m : Maze) (stack : List Pos) : Prop where
  dimw : m.width = w
  dimh : m.height = h
  pat : m.pattern_cells = []
  entry_in : m.inB entry
  entry_vis : (m.grid entry).visited = true
  stack_ok : ∀ p ∈ stack, m.inB p ∧ (m.grid p).visited = true
  unvis_closed : ∀ p : Pos, (m.grid p).visited = false →
    (m.grid p).north = true ∧ (m.grid p).east = true ∧
    (m.grid p).south = true ∧ (m.grid p).west = true
  symm : symmWalls m
  reach : ∀ p : Pos, m.inB p → (m.grid p).visited = true → (posGraph m).Reachable entry p
  acyc : (posGraph m).IsAcyclic
  count : openWallCount m + 1 = visitedCount m
  closure : ∀ p : Pos, m.inB p → (m.grid p).visited = true → p ∉ stack →
    ∀ q : Pos, q.1 < m.width → q.2 < m.height → nbrFull p q → (m.grid q).visited = true

/-- Popping a cell with no remaining candidates preserves the invariant. -/
theorem carveInv_pop (w h : Nat) (entry : Pos) (m : Maze) (top : Pos) (rest : List Pos)
    (hq : candidates m top = []) (hinv : CarveInv w h entry m (top :: rest)) :
    CarveInv w h entry m rest := by
  obtain ⟨dimw, dimh, pat, entin, entv, stk, unv, sym, rch, acy, cnt, clo⟩ := hinv
  refine ⟨dimw, dimh, pat, entin, entv, fun p hp => stk p (List.mem_cons_of_mem _ hp),
    unv, sym, rch, acy, cnt, ?_⟩
  intro p hpB hpv hpns q hqx hqy hnbr
  by_cases hpt : p = top
  · subst hpt
    obtain ⟨c1, c2, c3, c4⟩ := candidates_nil m p pat hq
    rcases hnbr with h1 | h1 | h1 | h1
    · rw [h1] at hqx ⊢
      have hqx2 : p.1 + 1 < m.width := hqx
      exact c2 (by omega)
    · have e1 : p.1 = q.1 + 1 := by rw [h1]
      have e2 : p.2 = q.2 := by rw [h1]
      have hqe : q = (p.1 - 1, p.2) := pos_ext (by omega) (by omega)
      rw [hqe]
      exact c4 (by omega)
    · rw [h1] at hqy ⊢
      have hqy2 : p.2 + 1 < m.height := hqy
      exact c3 (by omega)
    · have e1 : p.1 = q.1 := by rw [h1]
      have e2 : p.2 = q.2 + 1 := by rw [h1]
      have hqe : q = (p.1, p.2 - 1) := pos_ext (by omega) (by omega)
      rw [hqe]
      exact c1 (by omega)
  · refine clo p hpB hpv ?_ q hqx hqy hnbr
    intro hc
    rcases List.mem_cons.mp hc with hc2 | hc2
    · exact hpt hc2
    · exact hpns hc2

/-- Carving towards a fresh candidate preserves the invariant. -/
theorem carveInv_push (w h : Nat) (entry : Pos) (m : Maze) (top : Pos) (rest : List Pos)
    (nxt : Pos) (hmem : nxt ∈ candidates m top)
    (hinv : CarveInv w h entry m (top :: rest)) :
    CarveInv w h entry ((openWallBetween m top nxt).setVisited nxt) (nxt :: top :: rest) := by
  obtain ⟨dimw, dimh, pat, entin, entv, stk, unv, sym, rch, acy, cnt, clo⟩ := hinv
  have htopB : m.inB top := (stk top (List.mem_cons_self _ _)).1
  have htopv : (m.grid top).visited = true := (stk top (List.mem_cons_self _ _)).2
  obtain ⟨hnv0, hnp, _⟩ := candidates_mem m top nxt hmem
  have hnv : (m.grid nxt).visited = false := by
    cases hb : (m.grid nxt).visited
    · rfl
    · exact absurd hb hnv0
  obtain ⟨hnxtB, hgeo, hne⟩ := candidates_geom m top nxt htopB hmem
  have hMw : ((openWallBetween m top nxt).setVisited nxt).width = m.width := by
    rw [Maze.setVisited_width, openWallBetween_width]
  have hMh : ((openWallBetween m top nxt).setVisited nxt).height = m.height := by
    rw [Maze.setVisited_height, openWallBetween_height]
  have hMp : ((openWallBetween m top nxt).setVisited nxt).pattern_cells = m.pattern_cells := by
    rw [Maze.setVisited_pat, openWallBetween_pattern]
  have hMvis := visited_pushStep m top nxt
  have hadj := adjE_pushStep m top nxt htopB hnxtB hgeo
  have hle : posGraph m ≤ posGraph ((openWallBetween m top nxt).setVisited nxt) := by
    intro a b hab
    exact (hadj a b).mpr (Or.inl hab)
  have hinBM : ∀ p, ((openWallBetween m top nxt).setVisited nxt).inB p ↔ m.inB p := by
    intro p
    unfold Maze.inB
    rw [hMw, hMh]
  refine ⟨?_, ?_, ?_, ?_, ?_, ?_, ?_, ?_, ?_, ?_, ?_, ?_⟩
  · rw [hMw]
    exact dimw
  · rw [hMh]
    exact dimh
  · rw [hMp]
    exact pat
  · exact (hinBM entry).mpr entin
  · rw [hMvis entry]
    split_ifs with h1
    · rfl
    · exact entv
  · intro p hp
    rcases List.mem_cons.mp hp with hc | hc
    · subst hc
      refine ⟨(hinBM p).mpr hnxtB, ?_⟩
      rw [hMvis p, if_pos rfl]
    · refine ⟨(hinBM p).mpr (stk p hc).1, ?_⟩
      rw [hMvis p]
      split_ifs with h1
      · rfl
      · exact (stk p hc).2
  · intro p hpv
    rw [hMvis p] at hpv
    by_cases hp1 : p = nxt
    · rw [if_pos hp1] at hpv
      exact Bool.noConfusion hpv
    · rw [if_neg hp1] at hpv
      have hptop : p ≠ top := by
        intro hc
        rw [hc, htopv] at hpv
        exact Bool.noConfusion hpv
      obtain ⟨w1, w2, w3, w4⟩ := walls_pushStep_other m top nxt p hptop hp1
      rw [w1, w2, w3, w4]
      exact unv p hpv
  · exact symmWalls_push m top nxt hmem sym
  · intro p hpB hpv
    rw [hinBM] at hpB
    rw [hMvis p] at hpv
    split_ifs at hpv with hp1
    · rw [hp1]
      have h1 : (posGraph ((openWallBetween m top nxt).setVisited nxt)).Reachable entry top :=
        SimpleGraph.Reachable.mono hle (rch top htopB htopv)
      have h2 : (posGraph ((openWallBetween m top nxt).setVisited nxt)).Adj top nxt :=
        (hadj top nxt).mpr (Or.inr (Or.inl ⟨rfl, rfl⟩))
      exact h1.trans h2.reachable
    · exact SimpleGraph.Reachable.mono hle (rch p hpB hpv)
  · exact isAcyclic_pendant (posGraph m) _ top nxt hne
      (adjE_isolated m nxt (unv nxt hnv)) hadj acy
  · have h1 : openWallCount ((openWallBetween m top nxt).setVisited nxt) =
        openWallCount m + 1 :=
      openWallCount_push m top nxt htopB hnxtB sym (unv nxt hnv) hgeo
    have h2 : visitedCount ((openWallBetween m top nxt).setVisited nxt) =
        visitedCount m + 1 := by
      rw [visitedCount_setVisited (openWallBetween m top nxt) nxt
        (by rw [openWallBetween_width]; exact hnxtB.1)
        (by rw [openWallBetween_height]; exact hnxtB.2)
        (by rw [(openWallBetween_le m top nxt nxt).2.2.2.2]; exact hnv),
        visitedCount_openWallBetween]
    omega
  · intro p hpB hpv hpns q hqx hqy hnbr
    have hpnxt : p ≠ nxt := by
      intro hc
      exact hpns (by rw [hc]; exact List.mem_cons_self _ _)
    have hprest : p ∉ top :: rest := by
      intro hc
      exact hpns (List.mem_cons_of_mem _ hc)
    rw [hMvis p, if_neg hpnxt] at hpv
    rw [hinBM] at hpB
    rw [hMw] at hqx
    rw [hMh] at hqy
    rw [hMvis q]
    split_ifs with hq1
    · rfl
    · exact clo p hpB hpv hprest q hqx hqy hnbr

theorem unvis_pushStep (m : Maze) (top nxt : Pos) (hnxtB : m.inB nxt)
    (hnv : (m.grid nxt).visited = false) :
    unvisCount m = unvisCount ((openWallBetween m top nxt).setVisited nxt) + 1 := by
  rw [← unvisCount_openWallBetween m top nxt]
  exact unvisCount_setVisited (openWallBetween m top nxt) nxt
    (by rw [openWallBetween_width]; exact hnxtB.1)
    (by rw [openWallBetween_height]; exact hnxtB.2)
    (by rw [(openWallBetween_le m top nxt nxt).2.2.2.2]; exact hnv)

/-- The carve loop with enough fuel runs until the stack is empty and
preserves the invariant throughout. -/
theorem carve_main (w h : Nat) (entry : Pos) :
    ∀ (fuel : Nat) (rnd : Nat → Nat) (m : Maze) (stack : List Pos),
      CarveInv w h entry m stack →
      2 * unvisCount m + stack.length ≤ fuel →
      CarveInv w h entry (carveLoop rnd fuel m stack) [] := by
  intro fuel
  induction fuel with
  | zero =>
    intro rnd m stack hinv hf
    cases stack with
    | nil => exact hinv
    | cons a l =>
      rw [List.length_cons] at hf
      omega
  | succ fuel ih =>
    intro rnd m stack hinv hf
    cases stack with
    | nil => exact hinv
    | cons top rest =>
      rcases hq : candidates m top with _ | ⟨c, cs⟩
      · have he : carveLoop rnd (fuel + 1) m (top :: rest) = carveLoop rnd fuel m rest := by
          simp only [carveLoop, hq]
        rw [he]
        apply ih rnd m rest (carveInv_pop w h entry m top rest hq hinv)
        rw [List.length_cons] at hf
        omega
      · have hmem := choice_mem_candidates m top (rnd 0) c cs hq
        have he : carveLoop rnd (fuel + 1) m (top :: rest) =
            carveLoop (fun n => rnd (n + 1)) fuel
              ((openWallBetween m top
                ((c :: cs).getD (rnd 0 % (c :: cs).length) c)).setVisited
                ((c :: cs).getD (rnd 0 % (c :: cs).length) c))
              (((c :: cs).getD (rnd 0 % (c :: cs).length) c) :: top :: rest) := by
          simp only [carveLoop, hq]
        rw [he]
        apply ih _ _ _ (carveInv_push w h entry m top rest _ hmem hinv)
        have htopB : m.inB top := (hinv.stack_ok top (List.mem_cons_self _ _)).1
        obtain ⟨hnv0, _, _⟩ :=
          candidates_mem m top ((c :: cs).getD (rnd 0 % (c :: cs).length) c) hmem
        have hnv : (m.grid ((c :: cs).getD (rnd 0 % (c :: cs).length) c)).visited = false := by
          cases hb : (m.grid ((c :: cs).getD (rnd 0 % (c :: cs).length) c)).visited
          · rfl
          · exact absurd hb hnv0
        obtain ⟨hnxtB, _, _⟩ :=
          candidates_geom m top ((c :: cs).getD (rnd 0 % (c :: cs).length) c) htopB hmem
        have hu := unvis_pushStep m top ((c :: cs).getD (rnd 0 % (c :: cs).length) c) hnxtB hnv
        have hlen : ((((c :: cs).getD (rnd 0 % (c :: cs).length) c)) :: top :: rest).length =
            rest.length + 2 := rfl
        rw [hlen]
        rw [List.length_cons] at hf
        omega

/-- The invariant holds at the start of the carve. -/
theorem carveInv_init (w h : Nat) (entry : Pos) (hx : entry.1 < w) (hy : entry.2 < h) :
    CarveInv w h entry ((Maze.fresh w h).setVisited entry) [entry] := by
  have hgrid : ∀ p, ((Maze.fresh w h).setVisited entry).grid p =
      (if p = entry then { Cell.init with visited := true } else Cell.init) := by
    intro p
    rfl
  have hv0 : ∀ p, (((Maze.fresh w h).setVisited entry).grid p).visited = true → p = entry := by
    intro p hp
    by_contra hne
    rw [hgrid p, if_neg hne] at hp
    exact Bool.noConfusion hp
  have hclosed : allClosed ((Maze.fresh w h).setVisited entry) := by
    intro p
    rw [hgrid p]
    split <;> exact ⟨rfl, rfl, rfl, rfl⟩
  have hev : (((Maze.fresh w h).setVisited entry).grid entry).visited = true := by
    rw [hgrid entry, if_pos rfl]
  refine ⟨rfl, rfl, rfl, ⟨hx, hy⟩, hev, ?_, ?_, allClosed_symmWalls _ hclosed, ?_, ?_, ?_, ?_⟩
  · intro p hp
    rw [List.mem_singleton] at hp
    subst hp
    exact ⟨⟨hx, hy⟩, hev⟩
  · intro p _
    exact hclosed p
  · intro p _ hpv
    rw [hv0 p hpv]
  · intro v c hc
    cases c with
    | nil => exact ((SimpleGraph.Walk.isCycle_def _).mp hc).2.1 rfl
    | cons ha p => exact adjE_isolated _ v (hclosed v) _ ha
  · rw [openWallCount_fresh_setVisited, visitedCount_fresh_setVisited w h entry hx hy]
  · intro p _ hpv hpns q _ _ _
    exfalso
    apply hpns
    rw [hv0 p hpv]
    exact List.mem_singleton.mpr rfl

/-- With an empty stack, the closure property forces every in-bounds cell
to be visited: walk towards the entry coordinate by coordinate. -/
theorem carveInv_all_visited (w h : Nat) (entry : Pos) (m : Maze)
    (hinv : CarveInv w h entry m []) :
    ∀ p : Pos, m.inB p → (m.grid p).visited = true := by
  have key : ∀ d : Nat, ∀ p : Pos, m.inB p →
      (entry.1 - p.1) + (p.1 - entry.1) + (entry.2 - p.2) + (p.2 - entry.2) = d →
      (m.grid p).visited = true := by
    intro d
    induction d using Nat.strong_induction_on with
    | _ d ih =>
      intro p hpB hd
      by_cases hpe : p = entry
      · rw [hpe]
        exact hinv.entry_vis
      · have hne2 : p.1 ≠ entry.1 ∨ p.2 ≠ entry.2 := by
          by_contra hcon
          push_neg at hcon
          exact hpe (pos_ext hcon.1 hcon.2)
        have hstep : ∃ q : Pos, m.inB q ∧ nbrFull q p ∧
            (entry.1 - q.1) + (q.1 - entry.1) + (entry.2 - q.2) + (q.2 - entry.2) < d := by
          rcases Nat.lt_trichotomy p.1 entry.1 with h1 | h1 | h1
          · refine ⟨(p.1 + 1, p.2), ⟨?_, hpB.2⟩, Or.inr (Or.inl rfl), ?_⟩
            · show p.1 + 1 < m.width
              have := hinv.dimw
              have := hinv.entry_in.1
              omega
            · show (entry.1 - (p.1 + 1)) + ((p.1 + 1) - entry.1) +
                (entry.2 - p.2) + (p.2 - entry.2) < d
              omega
          · rcases Nat.lt_trichotomy p.2 entry.2 with h2 | h2 | h2
            · refine ⟨(p.1, p.2 + 1), ⟨hpB.1, ?_⟩, Or.inr (Or.inr (Or.inr rfl)), ?_⟩
              · show p.2 + 1 < m.height
                have := hinv.dimh
                have := hinv.entry_in.2
                omega
              · show (entry.1 - p.1) + (p.1 - entry.1) +
                  (entry.2 - (p.2 + 1)) + ((p.2 + 1) - entry.2) < d
                omega
            · exact absurd (pos_ext h1 h2) hpe
            · refine ⟨(p.1, p.2 - 1), ⟨hpB.1, ?_⟩, Or.inr (Or.inr (Or.inl ?_)), ?_⟩
              · show p.2 - 1 < m.height
                have := hpB.2
                omega
              · exact pos_ext rfl (by show p.2 = p.2 - 1 + 1; omega)
              · show (entry.1 - p.1) + (p.1 - entry.1) +
                  (entry.2 - (p.2 - 1)) + ((p.2 - 1) - entry.2) < d
                omega
          · refine ⟨(p.1 - 1, p.2), ⟨?_, hpB.2⟩, Or.inl ?_, ?_⟩
            · show p.1 - 1 < m.width
              have := hpB.1
              omega
            · exact pos_ext (by show p.1 = p.1 - 1 + 1; omega) rfl
            · show (entry.1 - (p.1 - 1)) + ((p.1 - 1) - entry.1) +
                (entry.2 - p.2) + (p.2 - entry.2) < d
              omega
        obtain ⟨q, hqB, hnbr, hlt⟩ := hstep
        have hqv := ih _ hlt q hqB rfl
        exact hinv.closure q hqB hqv (List.not_mem_nil q) p hpB.1 hpB.2 hnbr
  intro p hpB
  exact key _ p hpB rfl

/-- If every in-bounds cell is visited, the visited count is the full cell
count. -/
theorem visitedCount_full (m : Maze)
    (hall : ∀ p : Pos, m.inB p → (m.grid p).visited = true) :
    visitedCount m = m.width * m.height := by
  unfold visitedCount
  rw [Finset.sum_congr rfl (fun p hp => if_pos (hall p (mem_gridFinset.mp hp)))]
  rw [Finset.sum_const, smul_eq_mul, mul_one]
  unfold gridFinset
  rw [Finset.card_product, Finset.card_range, Finset.card_range]

/-- `generate_backtracking` on a fresh grid satisfies the invariant with an
empty stack. -/
theorem carve_result (w h : Nat) (entry : Pos) (rnd : Nat → Nat)
    (hx : entry.1 < w) (hy : entry.2 < h) :
    CarveInv w h entry (generate_backtracking rnd (Maze.fresh w h) entry) [] := by
  unfold generate_backtracking
  apply carve_main w h entry _ rnd _ _ (carveInv_init w h entry hx hy)
  have h1 := unvisCount_split ((Maze.fresh w h).setVisited entry)
  have h2 := visitedCount_fresh_setVisited w h entry hx hy
  rw [show ((Maze.fresh w h).setVisited entry).width = w from rfl,
    show ((Maze.fresh w h).setVisited entry).height = h from rfl] at h1
  show 2 * unvisCount ((Maze.fresh w h).setVisited entry) + [entry].length ≤
    2 * (Maze.fresh w h).width * (Maze.fresh w h).height + 1
  rw [show (Maze.fresh w h).width = w from rfl, show (Maze.fresh w h).height = h from rfl,
    Nat.mul_assoc]
  simp only [List.length_cons, List.length_nil]
  omega

/-- **C1**: for every grid with an empty pattern-cell set (the grid
`MazeGenerator.__init__` builds when `add_42_pattern` is not applied) and
every in-bounds entry, `generate_backtracking` produces a spanning tree of
the cells: the number of open walls is the cell count minus one, the
open-wall graph is acyclic, every cell is reachable from the entry, and
between any two cells there is exactly one simple path. -/
theorem generate_backtracking_spanning_tree (w h : Nat) (entry : Pos) (rnd : Nat → Nat)
    (hx : entry.1 < w) (hy : entry.2 < h) :
    openWallCount (generate_backtracking rnd (Maze.fresh w h) entry) + 1 = w * h ∧
    (posGraph (generate_backtracking rnd (Maze.fresh w h) entry)).IsAcyclic ∧
    (∀ p : Pos, p.1 < w → p.2 < h →
      (posGraph (generate_backtracking rnd (Maze.fresh w h) entry)).Reachable entry p) ∧
    (∀ p q : Pos, p.1 < w → p.2 < h → q.1 < w → q.2 < h →
      ∃ pa : (posGraph (generate_backtracking rnd (Maze.fresh w h) entry)).Walk p q,
        pa.IsPath ∧
        ∀ o : (posGraph (generate_backtracking rnd (Maze.fresh w h) entry)).Walk p q,
          o.IsPath → o = pa) := by
  have hF := carve_result w h entry rnd hx hy
  have hall := carveInv_all_visited w h entry _ hF
  have hin : ∀ p : Pos, p.1 < w → p.2 < h →
      (generate_backtracking rnd (Maze.fresh w h) entry).inB p := by
    intro p h1 h2
    exact ⟨by rw [hF.dimw]; exact h1, by rw [hF.dimh]; exact h2⟩
  have hreach : ∀ p : Pos, p.1 < w → p.2 < h →
      (posGraph (generate_backtracking rnd (Maze.fresh w h) entry)).Reachable entry p := by
    intro p h1 h2
    exact hF.reach p (hin p h1 h2) (hall p (hin p h1 h2))
  refine ⟨?_, hF.acyc, hreach, ?_⟩
  · have hv := visitedCount_full _ hall
    rw [hF.dimw, hF.dimh] at hv
    have hc := hF.count
    omega
  · intro p q h1 h2 h3 h4
    obtain ⟨wk⟩ := (hreach p h1 h2).symm.trans (hreach q h3 h4)
    refine ⟨wk.toPath.1, wk.toPath.2, ?_⟩
    intro o ho
    have hu := SimpleGraph.isAcyclic_iff_path_unique.mp hF.acyc ⟨o, ho⟩ wk.toPath
    exact congrArg Subtype.val hu

theorem generate_backtracking_spanning_tree_witness :
    (((0, 0) : Pos).1 < 1 ∧ ((0, 0) : Pos).2 < 1) ∧
    (openWallCount (generate_backtracking (fun _ => 0) (Maze.fresh 1 1) (0, 0)) + 1 = 1 * 1 ∧
     (posGraph (generate_backtracking (fun _ => 0) (Maze.fresh 1 1) (0, 0))).IsAcyclic ∧
     (∀ p : Pos, p.1 < 1 → p.2 < 1 →
       (posGraph (generate_backtracking (fun _ => 0) (Maze.fresh 1 1) (0, 0))).Reachable
         (0, 0) p) ∧
     (∀ p q : Pos, p.1 < 1 → p.2 < 1 → q.1 < 1 → q.2 < 1 →
       ∃ pa : (posGraph (generate_backtracking (fun _ => 0) (Maze.fresh 1 1) (0, 0))).Walk p q,
         pa.IsPath ∧
         ∀ o : (posGraph (generate_backtracking (fun _ => 0) (Maze.fresh 1 1) (0, 0))).Walk p q,
           o.IsPath → o = pa)) :=
  ⟨⟨by decide, by decide⟩,
    generate_backtracking_spanning_tree 1 1 (0, 0) (fun _ => 0) (by decide) (by decide)⟩

/-! ## BFS correctness: bridging the step guards and the open-wall graph -/

/-- Under wall symmetry, a passed BFS guard from an in-bounds cell means a
real open-wall edge. -/
theorem adjE_of_guard (m : Maze) (hsym : symmWalls m) (c : Pos) (hc : m.inB c) (d : Dir)
    (hb : boundOk m c d = true) (hw : wallOf (m.grid c) d = false) :
    adjE m c (moveDir c d) := by
  obtain ⟨hcx, hcy⟩ := hc
  cases d
  · show adjE m c (c.1, c.2 - 1)
    have hby : 0 < c.2 := by
      simpa [boundOk] using hb
    have hw2 : (m.grid c).north = false := hw
    have hnB : m.inB (c.1, c.2 - 1) := ⟨hcx, by show c.2 - 1 < m.height; omega⟩
    have hsymm := (hsym (c.1, c.2 - 1) hnB.1 hnB.2).2 (by show c.2 - 1 + 1 < m.height; omega)
    have htv : ((c.1, c.2 - 1) : Pos).1 = c.1 ∧ ((c.1, c.2 - 1) : Pos).2 + 1 = c.2 :=
      ⟨rfl, by show c.2 - 1 + 1 = c.2; omega⟩
    have hc2 : ((c.1, c.2 - 1).1, (c.1, c.2 - 1).2 + 1) = c := pos_ext htv.1 htv.2
    rw [hc2] at hsymm
    refine ⟨⟨hcx, hcy⟩, hnB, Or.inr (Or.inr (Or.inr ⟨hc2.symm, ?_, hw2⟩))⟩
    rw [hsymm]
    exact hw2
  · show adjE m c (c.1 + 1, c.2)
    have hbx : c.1 < m.width - 1 := by
      simpa [boundOk] using hb
    have hw2 : (m.grid c).east = false := hw
    have hnB : m.inB (c.1 + 1, c.2) := ⟨by show c.1 + 1 < m.width; omega, hcy⟩
    have hsymm := (hsym c hcx hcy).1 (by omega)
    refine ⟨⟨hcx, hcy⟩, hnB, Or.inl ⟨rfl, hw2, ?_⟩⟩
    rw [← hsymm]
    exact hw2
  · show adjE m c (c.1, c.2 + 1)
    have hby : c.2 < m.height - 1 := by
      simpa [boundOk] using hb
    have hw2 : (m.grid c).south = false := hw
    have hnB : m.inB (c.1, c.2 + 1) := ⟨hcx, by show c.2 + 1 < m.height; omega⟩
    have hsymm := (hsym c hcx hcy).2 (by omega)
    refine ⟨⟨hcx, hcy⟩, hnB, Or.inr (Or.inr (Or.inl ⟨rfl, hw2, ?_⟩))⟩
    rw [← hsymm]
    exact hw2
  · show adjE m c (c.1 - 1, c.2)
    have hbx : 0 < c.1 := by
      simpa [boundOk] using hb
    have hw2 : (m.grid c).west = false := hw
    have hnB : m.inB (c.1 - 1, c.2) := ⟨by show c.1 - 1 < m.width; omega, hcy⟩
    have hsymm := (hsym (c.1 - 1, c.2) hnB.1 hnB.2).1 (by show c.1 - 1 + 1 < m.width; omega)
    have hc2 : ((c.1 - 1, c.2).1 + 1, (c.1 - 1, c.2).2) = c :=
      pos_ext (by show c.1 - 1 + 1 = c.1; omega) rfl
    rw [hc2] at hsymm
    refine ⟨⟨hcx, hcy⟩, hnB, Or.inr (Or.inl ⟨hc2.symm, ?_, hw2⟩)⟩
    rw [hsymm]
    exact hw2

/-- An open-wall edge from `c` passes the BFS guard of the direction that
realizes it (no symmetry needed: the guard checks `c`'s own flag, which
the edge forces open). -/
theorem adjE_guard_of_move (m : Maze) (c q : Pos) (d : Dir) (h : adjE m c q)
    (hq : q = moveDir c d) :
    boundOk m c d = true ∧ wallOf (m.grid c) d = false := by
  obtain ⟨⟨hcx, hcy⟩, ⟨hqx, hqy⟩, hcase⟩ := h
  cases d
  · have hq1 : q.1 = c.1 := by rw [hq]; rfl
    have hq2 : q.2 = c.2 - 1 := by rw [hq]; rfl
    rcases hcase with ⟨hg, h1, h2⟩ | ⟨hg, h1, h2⟩ | ⟨hg, h1, h2⟩ | ⟨hg, h1, h2⟩
    · have e1 : q.1 = c.1 + 1 := by rw [hg]
      exfalso
      omega
    · have e1 : c.1 = q.1 + 1 := by rw [hg]
      exfalso
      omega
    · have e2 : q.2 = c.2 + 1 := by rw [hg]
      exfalso
      omega
    · have e2 : c.2 = q.2 + 1 := by rw [hg]
      refine ⟨?_, h2⟩
      show decide (0 < c.2) = true
      rw [decide_eq_true_eq]
      omega
  · have hq1 : q.1 = c.1 + 1 := by rw [hq]; rfl
    have hq2 : q.2 = c.2 := by rw [hq]; rfl
    rcases hcase with ⟨hg, h1, h2⟩ | ⟨hg, h1, h2⟩ | ⟨hg, h1, h2⟩ | ⟨hg, h1, h2⟩
    · refine ⟨?_, h1⟩
      show decide (c.1 < m.width - 1) = true
      rw [decide_eq_true_eq]
      omega
    · have e1 : c.1 = q.1 + 1 := by rw [hg]
      exfalso
      omega
    · have e1 : q.1 = c.1 := by rw [hg]
      exfalso
      omega
    · have e1 : c.1 = q.1 := by rw [hg]
      exfalso
      omega
  · have hq1 : q.1 = c.1 := by rw [hq]; rfl
    have hq2 : q.2 = c.2 + 1 := by rw [hq]; rfl
    rcases hcase with ⟨hg, h1, h2⟩ | ⟨hg, h1, h2⟩ | ⟨hg, h1, h2⟩ | ⟨hg, h1, h2⟩
    · have e1 : q.1 = c.1 + 1 := by rw [hg]
      exfalso
      omega
    · have e1 : c.1 = q.1 + 1 := by rw [hg]
      exfalso
      omega
    · refine ⟨?_, h1⟩
      show decide (c.2 < m.height - 1) = true
      rw [decide_eq_true_eq]
      omega
    · have e2 : c.2 = q.2 + 1 := by rw [hg]
      exfalso
      omega
  · have hq1 : q.1 = c.1 - 1 := by rw [hq]; rfl
    have hq2 : q.2 = c.2 := by rw [hq]; rfl
    rcases hcase with ⟨hg, h1, h2⟩ | ⟨hg, h1, h2⟩ | ⟨hg, h1, h2⟩ | ⟨hg, h1, h2⟩
    · have e1 : q.1 = c.1 + 1 := by rw [hg]
      exfalso
      omega
    · have e1 : c.1 = q.1 + 1 := by rw [hg]
      refine ⟨?_, h2⟩
      show decide (0 < c.1) = true
      rw [decide_eq_true_eq]
      omega
    · have e2 : q.2 = c.2 + 1 := by rw [hg]
      exfalso
      omega
    · have e2 : c.2 = q.2 + 1 := by rw [hg]
      exfalso
      omega

/-- Every open-wall edge out of `c` is realized by one of the four BFS
directions, with its guard passing. -/
theorem adjE_to_dir (m : Maze) (c q : Pos) (h : adjE m c q) :
    ∃ d : Dir, q = moveDir c d ∧ boundOk m c d = true ∧ wallOf (m.grid c) d = false := by
  have hmove : ∃ d : Dir, q = moveDir c d := by
    obtain ⟨_, _, hcase⟩ := h
    rcases hcase with ⟨hg, _, _⟩ | ⟨hg, _, _⟩ | ⟨hg, _, _⟩ | ⟨hg, _, _⟩
    · exact ⟨Dir.E, by rw [hg]; rfl⟩
    · refine ⟨Dir.W, ?_⟩
      have e1 : c.1 = q.1 + 1 := by rw [hg]
      have e2 : c.2 = q.2 := by rw [hg]
      exact pos_ext (by show q.1 = c.1 - 1; omega) (by show q.2 = c.2; omega)
    · exact ⟨Dir.S, by rw [hg]; rfl⟩
    · refine ⟨Dir.N, ?_⟩
      have e1 : c.1 = q.1 := by rw [hg]
      have e2 : c.2 = q.2 + 1 := by rw [hg]
      exact pos_ext (by show q.1 = c.1; omega) (by show q.2 = c.2 - 1; omega)
  obtain ⟨d, hd⟩ := hmove
  obtain ⟨h1, h2⟩ := adjE_guard_of_move m c q d h hd
  exact ⟨d, hd, h1, h2⟩

/-! ## Distance helpers -/

/-- An adjacency bounds the distance step. -/
theorem dist_le_succ_of_adj {V : Type} (G : SimpleGraph V) (entry b p : V)
    (hr : G.Reachable entry b) (hadj : G.Adj b p) :
    G.dist entry p ≤ G.dist entry b + 1 := by
  obtain ⟨wb, hwb⟩ := hr.exists_walk_length_eq_dist
  have hw : (wb.concat hadj).length = G.dist entry b + 1 := by
    rw [SimpleGraph.Walk.length_concat, hwb]
  calc G.dist entry p ≤ (wb.concat hadj).length := SimpleGraph.dist_le _
    _ = G.dist entry b + 1 := hw

/-- A vertex at positive distance has a predecessor one step closer. -/
theorem dist_pred {V : Type} (G : SimpleGraph V) (entry p : V) (n : ℕ)
    (hr : G.Reachable entry p) (hd : G.dist entry p = n + 1) :
    ∃ b, G.Adj b p ∧ G.Reachable entry b ∧ G.dist entry b = n := by
  obtain ⟨wp, hwp⟩ := hr.exists_walk_length_eq_dist
  have hrev := wp.reverse
  cases hrev2 : wp.reverse with
  | nil =>
    exfalso
    have hlen : wp.reverse.length = 0 := by rw [hrev2]; rfl
    rw [SimpleGraph.Walk.length_reverse, hwp, hd] at hlen
    omega
  | cons hadj w =>
    rename_i b
    have hlen : wp.reverse.length = w.length + 1 := by rw [hrev2]; rfl
    rw [SimpleGraph.Walk.length_reverse, hwp, hd] at hlen
    have hwlen : w.length = n := by omega
    have hrb : G.Reachable entry b := ⟨w.reverse⟩
    have hble : G.dist entry b ≤ n := by
      have := SimpleGraph.dist_le w.reverse
      rw [SimpleGraph.Walk.length_reverse, hwlen] at this
      exact this
    have hbge : n + 1 ≤ G.dist entry b + 1 := by
      rw [← hd]
      exact dist_le_succ_of_adj G entry b p hrb hadj.symm
    exact ⟨b, hadj.symm, hrb, by omega⟩

/-! ## BFS bookkeeping: unvisited count and parent-map lookups -/

/-- The number of in-bounds cells the BFS has not visited yet. -/
def bfsUnvis (m : Maze) (V : List Pos) : ℕ :=
  ∑ p ∈ gridFinset m.width m.height, (if p ∈ V then 0 else 1)

theorem bfsUnvis_entry (m : Maze) (entry : Pos) (hB : m.inB entry) :
    bfsUnvis m [entry] + 1 = m.width * m.height := by
  unfold bfsUnvis
  have hs : ∑ p ∈ gridFinset m.width m.height, (1 : ℕ) =
      (∑ p ∈ gridFinset m.width m.height, (if p ∈ [entry] then 0 else 1)) + 1 := by
    apply sum_succ_at entry (mem_gridFinset.mpr ⟨hB.1, hB.2⟩)
    · intro b _ hbne
      rw [if_neg (by rw [List.mem_singleton]; exact hbne)]
    · rw [if_pos (List.mem_singleton.mpr rfl)]
  have hc : ∑ p ∈ gridFinset m.width m.height, (1 : ℕ) = m.width * m.height := by
    rw [Finset.sum_const, smul_eq_mul, mul_one]
    unfold gridFinset
    rw [Finset.card_product, Finset.card_range, Finset.card_range]
  omega

theorem bfsUnvis_cons (m : Maze) (V : List Pos) (n : Pos) (hB : m.inB n) (hn : n ∉ V) :
    bfsUnvis m V = bfsUnvis m (n :: V) + 1 := by
  unfold bfsUnvis
  apply sum_succ_at n (mem_gridFinset.mpr ⟨hB.1, hB.2⟩)
  · intro b _ hbne
    by_cases hb : b ∈ V
    · rw [if_pos hb, if_pos (List.mem_cons_of_mem _ hb)]
    · rw [if_neg hb, if_neg (by rw [List.mem_cons]; rintro (hc | hc); exact hbne hc; exact hb hc)]
  · rw [if_neg hn, if_pos (List.mem_cons_self _ _)]

theorem lookupP_cons_self (P : List (Pos × Pos × Dir)) (k : Pos) (v : Pos × Dir) :
    lookupP ((k, v) :: P) k = some v := by
  show (if k = k then some v else lookupP P k) = some v
  rw [if_pos rfl]

theorem lookupP_cons_other (P : List (Pos × Pos × Dir)) (k p : Pos) (v : Pos × Dir)
    (hne : p ≠ k) :
    lookupP ((k, v) :: P) p = lookupP P p := by
  show (if p = k then some v else lookupP P p) = lookupP P p
  rw [if_neg hne]

/-- The BFS loop invariant.  The queue is `Q1 ++ Q2` with `Q1` at distance
`dcur` from the entry and `Q2` at `dcur + 1`; `V` is the visited list and
`P` the parent map. -/
structure BfsInv (m : Maze) (entry : Pos) (dcur : ℕ) (Q1 Q2 V : List Pos)
    (P : List (Pos × Pos × Dir)) : Prop where
  vin : ∀ p ∈ V, m.inB p ∧ (posGraph m).Reachable entry p
  vent : entry ∈ V
  qsub : ∀ x ∈ Q1 ++ Q2, x ∈ V
  keys : ∀ k, lookupP P k ≠ none ↔ (k ∈ V ∧ k ≠ entry)
  chain : ∀ k q d, lookupP P k = some (q, d) → k = moveDir q d ∧ adjE m q k ∧
    (posGraph m).dist entry k = (posGraph m).dist entry q + 1 ∧
    (posGraph m).Reachable entry k ∧ (q = entry ∨ lookupP P q ≠ none)
  lev1 : ∀ x ∈ Q1, (posGraph m).dist entry x = dcur
  lev2 : ∀ x ∈ Q2, (posGraph m).dist entry x = dcur + 1
  el2 : ∀ p ∈ V, (posGraph m).dist entry p ≤ dcur + 1
  el3 : ∀ p, (posGraph m).Reachable entry p → (posGraph m).dist entry p ≤ dcur → p ∈ V
  clos : ∀ p ∈ V, p ∉ Q1 ++ Q2 → ∀ q, adjE m p q → q ∈ V
  dk : ∀ k, lookupP P k ≠ none → (posGraph m).dist entry k ≤ P.length
  dc : dcur ≤ P.length

/-- The invariant of the inner four-direction expansion of the dequeued
cell `c`: `Q0` and `V0` are the queue tail and visited list before the
expansion, `done` the directions already checked. -/
structure Mid (m : Maze) (entry c : Pos) (dcur : ℕ) (Q0 V0 : List Pos)
    (done : List Dir) (s : List Pos × List Pos × List (Pos × Pos × Dir)) : Prop where
  vin : ∀ p ∈ s.2.1, m.inB p ∧ (posGraph m).Reachable entry p
  vent : entry ∈ s.2.1
  vmono : ∀ p ∈ V0, p ∈ s.2.1
  qsub : ∀ x ∈ s.1, x ∈ s.2.1
  keys : ∀ k, lookupP s.2.2 k ≠ none ↔ (k ∈ s.2.1 ∧ k ≠ entry)
  chain : ∀ k q d, lookupP s.2.2 k = some (q, d) → k = moveDir q d ∧ adjE m q k ∧
    (posGraph m).dist entry k = (posGraph m).dist entry q + 1 ∧
    (posGraph m).Reachable entry k ∧ (q = entry ∨ lookupP s.2.2 q ≠ none)
  qadd : ∃ add, s.1 = Q0 ++ add ∧ ∀ x ∈ add, (posGraph m).dist entry x = dcur + 1
  el2 : ∀ p ∈ s.2.1, (posGraph m).dist entry p ≤ dcur + 1
  el3 : ∀ p, (posGraph m).Reachable entry p → (posGraph m).dist entry p ≤ dcur → p ∈ s.2.1
  clos : ∀ p ∈ s.2.1, p ∉ (c :: s.1) → ∀ q, adjE m p q → q ∈ s.2.1
  dk : ∀ k, lookupP s.2.2 k ≠ none → (posGraph m).dist entry k ≤ s.2.2.length
  dc : dcur ≤ s.2.2.length
  mu : bfsUnvis m s.2.1 + s.1.length = bfsUnvis m V0 + Q0.length
  cov : ∀ d2 ∈ done, ∀ q, adjE m c q → q = moveDir c d2 → q ∈ s.2.1

set_option maxHeartbeats 1000000 in
/-- Checking one more direction preserves the expansion invariant. -/
theorem mid_expand (m : Maze) (entry c : Pos) (dcur : ℕ) (Q0 V0 : List Pos)
    (done : List Dir) (s : List Pos × List Pos × List (Pos × Pos × Dir)) (d : Dir)
    (hsym : symmWalls m) (hcB : m.inB c) (hcV : c ∈ s.2.1)
    (hcd : (posGraph m).dist entry c = dcur)
    (hmid : Mid m entry c dcur Q0 V0 done s) :
    Mid m entry c dcur Q0 V0 (d :: done) (expandDir m c d s) := by
  obtain ⟨Qs, Vs, Ps⟩ := s
  obtain ⟨vin, vent, vmono, qsub, keys, chain, qadd, el2, el3, clos, dk, dc, mu, cov⟩ := hmid
  dsimp only at vin vent vmono qsub keys chain qadd el2 el3 clos dk dc mu cov hcV
  unfold expandDir
  dsimp only
  by_cases hg : boundOk m c d = true ∧ wallOf (m.grid c) d = false ∧ moveDir c d ∉ Vs
  · rw [if_pos hg]
    obtain ⟨g1, g2, g3⟩ := hg
    have hadjcn : adjE m c (moveDir c d) := adjE_of_guard m hsym c hcB d g1 g2
    have hnB : m.inB (moveDir c d) := hadjcn.2.1
    have hcR : (posGraph m).Reachable entry c := (vin c hcV).2
    have hnR : (posGraph m).Reachable entry (moveDir c d) :=
      hcR.trans (SimpleGraph.Adj.reachable hadjcn)
    have hnd_le : (posGraph m).dist entry (moveDir c d) ≤ dcur + 1 := by
      have htr := dist_le_succ_of_adj (posGraph m) entry c (moveDir c d) hcR hadjcn
      rw [hcd] at htr
      exact htr
    have hnd : (posGraph m).dist entry (moveDir c d) = dcur + 1 := by
      rcases Nat.lt_or_ge ((posGraph m).dist entry (moveDir c d)) (dcur + 1) with hlt | hge
      · exact absurd (el3 _ hnR (by omega)) g3
      · omega
    have hne : (moveDir c d) ≠ entry := by
      intro hc2
      exact g3 (hc2 ▸ vent)
    have hkn : lookupP Ps (moveDir c d) = none := by
      cases hl : lookupP Ps (moveDir c d) with
      | none => rfl
      | some val =>
        exact absurd ((keys _).mp (by rw [hl]; simp)).1 g3
    have hnc : (moveDir c d) ≠ c := by
      intro hc2
      apply g3
      rw [hc2]
      exact hcV
    refine ⟨?_, ?_, ?_, ?_, ?_, ?_, ?_, ?_, ?_, ?_, ?_, ?_, ?_, ?_⟩
    · intro p hp
      rcases List.mem_cons.mp hp with hp2 | hp2
      · rw [hp2]
        exact ⟨hnB, hnR⟩
      · exact vin p hp2
    · exact List.mem_cons_of_mem _ vent
    · intro p hp
      exact List.mem_cons_of_mem _ (vmono p hp)
    · intro x hx
      rcases List.mem_append.mp hx with hx2 | hx2
      · exact List.mem_cons_of_mem _ (qsub x hx2)
      · rw [List.mem_singleton.mp hx2]
        exact List.mem_cons_self _ _
    · intro k
      by_cases hk : k = moveDir c d
      · rw [hk, lookupP_cons_self]
        constructor
        · intro _
          exact ⟨List.mem_cons_self _ _, hne⟩
        · intro _
          simp
      · rw [lookupP_cons_other _ _ _ _ hk]
        rw [keys k]
        constructor
        · rintro ⟨h1, h2⟩
          exact ⟨List.mem_cons_of_mem _ h1, h2⟩
        · rintro ⟨h1, h2⟩
          rcases List.mem_cons.mp h1 with h3 | h3
          · exact absurd h3 hk
          · exact ⟨h3, h2⟩
    · intro k q d2 hl
      by_cases hk : k = moveDir c d
      · rw [hk, lookupP_cons_self] at hl
        have hpair := Option.some.inj hl
        rw [Prod.mk.injEq] at hpair
        obtain ⟨h1, h2⟩ := hpair
        rw [← h1, ← h2, hk]
        refine ⟨rfl, hadjcn, by rw [hnd, hcd], hnR, ?_⟩
        by_cases hce : c = entry
        · exact Or.inl hce
        · refine Or.inr ?_
          rw [lookupP_cons_other _ _ _ _ (Ne.symm hnc)]
          exact (keys c).mpr ⟨hcV, hce⟩
      · rw [lookupP_cons_other _ _ _ _ hk] at hl
        obtain ⟨c1, c2, c3, c4, c5⟩ := chain k q d2 hl
        refine ⟨c1, c2, c3, c4, ?_⟩
        rcases c5 with c5 | c5
        · exact Or.inl c5
        · refine Or.inr ?_
          have hqV : q ∈ Vs := ((keys q).mp c5).1
          have hqn : q ≠ moveDir c d := by
            intro hc2
            exact g3 (hc2 ▸ hqV)
          rw [lookupP_cons_other _ _ _ _ hqn]
          exact c5
    · obtain ⟨add, ha1, ha2⟩ := qadd
      refine ⟨add ++ [moveDir c d], ?_, ?_⟩
      · rw [ha1, List.append_assoc]
      · intro x hx
        rcases List.mem_append.mp hx with hx2 | hx2
        · exact ha2 x hx2
        · rw [List.mem_singleton.mp hx2]
          exact hnd
    · intro p hp
      rcases List.mem_cons.mp hp with hp2 | hp2
      · rw [hp2]
        omega
      · exact el2 p hp2
    · intro p hr hd2
      exact List.mem_cons_of_mem _ (el3 p hr hd2)
    · intro p hp hpn q hq
      have hpne : p ≠ moveDir c d := by
        intro hc2
        apply hpn
        rw [hc2]
        exact List.mem_cons_of_mem _ (List.mem_append.mpr (Or.inr (List.mem_singleton.mpr rfl)))
      have hpV : p ∈ Vs := by
        rcases List.mem_cons.mp hp with hp2 | hp2
        · exact absurd hp2 hpne
        · exact hp2
      have hpn2 : p ∉ c :: Qs := by
        intro hc2
        apply hpn
        rcases List.mem_cons.mp hc2 with h3 | h3
        · rw [h3]
          exact List.mem_cons_self _ _
        · exact List.mem_cons_of_mem _ (List.mem_append.mpr (Or.inl h3))
      exact List.mem_cons_of_mem _ (clos p hpV hpn2 q hq)
    · intro k hl
      rw [List.length_cons]
      by_cases hk : k = moveDir c d
      · rw [hk, hnd]
        omega
      · rw [lookupP_cons_other _ _ _ _ hk] at hl
        have := dk k hl
        omega
    · rw [List.length_cons]
      omega
    · dsimp only
      rw [List.length_append, List.length_singleton]
      have hmu2 := bfsUnvis_cons m Vs (moveDir c d) hnB g3
      omega
    · intro d2 hd2 q hq hqe
      rcases List.mem_cons.mp hd2 with hd3 | hd3
      · rw [hqe, hd3]
        exact List.mem_cons_self _ _
      · exact List.mem_cons_of_mem _ (cov d2 hd3 q hq hqe)
  · rw [if_neg hg]
    refine ⟨vin, vent, vmono, qsub, keys, chain, qadd, el2, el3, clos, dk, dc, mu, ?_⟩
    intro d2 hd2 q hq hqe
    rcases List.mem_cons.mp hd2 with hd3 | hd3
    · obtain ⟨g1, g2⟩ := adjE_guard_of_move m c q d2 hq hqe
      rw [hd3] at hqe g1 g2
      by_contra hqn
      exact hg ⟨g1, g2, by rw [← hqe]; exact hqn⟩
    · exact cov d2 hd3 q hq hqe

/-- The four-direction expansion of the BFS body, in source order
N, E, S, W. -/
def expand4 (m : Maze) (c : Pos) (s0 : List Pos × List Pos × List (Pos × Pos × Dir)) :
    List Pos × List Pos × List (Pos × Pos × Dir) :=
  expandDir m c Dir.W (expandDir m c Dir.S (expandDir m c Dir.E (expandDir m c Dir.N s0)))

theorem bfsLoop_cons_ne (exitP : Pos) (fuel : Nat) (m : Maze) (c : Pos)
    (r vis : List Pos) (par : List (Pos × Pos × Dir)) (hne : c ≠ exitP) :
    bfsLoop exitP (fuel + 1) m (c :: r) vis par =
      bfsLoop exitP fuel m (expand4 m c (r, vis, par)).1 (expand4 m c (r, vis, par)).2.1
        (expand4 m c (r, vis, par)).2.2 := by
  simp only [bfsLoop, if_neg hne, expand4]

theorem bfsLoop_cons_eq (exitP : Pos) (fuel : Nat) (m : Maze) (c : Pos)
    (r vis : List Pos) (par : List (Pos × Pos × Dir)) (hc : c = exitP) :
    bfsLoop exitP (fuel + 1) m (c :: r) vis par = (m, vis, par) := by
  simp only [bfsLoop, if_pos hc]

theorem bfsLoop_nil_eq (exitP : Pos) (fuel : Nat) (m : Maze)
    (vis : List Pos) (par : List (Pos × Pos × Dir)) :
    bfsLoop exitP fuel m [] vis par = (m, vis, par) := by
  cases fuel <;> rfl

/-- Processing one dequeued non-exit cell preserves the loop invariant and
decreases the measure by exactly one. -/
theorem bfs_step (m : Maze) (entry c : Pos) (dcur : ℕ) (Q1t Q2 V : List Pos)
    (P : List (Pos × Pos × Dir)) (hsym : symmWalls m)
    (hinv : BfsInv m entry dcur (c :: Q1t) Q2 V P) :
    ∃ Qb2, (expand4 m c (Q1t ++ Q2, V, P)).1 = Q1t ++ Qb2 ∧
      BfsInv m entry dcur Q1t Qb2 (expand4 m c (Q1t ++ Q2, V, P)).2.1
        (expand4 m c (Q1t ++ Q2, V, P)).2.2 ∧
      bfsUnvis m (expand4 m c (Q1t ++ Q2, V, P)).2.1 +
          (expand4 m c (Q1t ++ Q2, V, P)).1.length + 1 =
        bfsUnvis m V + (c :: (Q1t ++ Q2)).length := by
  unfold expand4
  have hcV : c ∈ V := hinv.qsub c (by rw [List.cons_append]; exact List.mem_cons_self _ _)
  have hcB : m.inB c := (hinv.vin c hcV).1
  have hcd : (posGraph m).dist entry c = dcur := hinv.lev1 c (List.mem_cons_self _ _)
  have hmid0 : Mid m entry c dcur (Q1t ++ Q2) V [] (Q1t ++ Q2, V, P) := by
    refine ⟨hinv.vin, hinv.vent, fun p hp => hp, ?_, hinv.keys, hinv.chain, ?_,
      hinv.el2, hinv.el3, ?_, hinv.dk, hinv.dc, rfl, ?_⟩
    · intro x hx
      exact hinv.qsub x (by rw [List.cons_append]; exact List.mem_cons_of_mem _ hx)
    · exact ⟨[], (List.append_nil _).symm, by intro x hx; cases hx⟩
    · intro p hp hpn q hq
      exact hinv.clos p hp (by rw [List.cons_append]; exact hpn) q hq
    · intro d2 hd2
      cases hd2
  have hm1 := mid_expand m entry c dcur (Q1t ++ Q2) V [] _ Dir.N hsym hcB
    (show c ∈ ((Q1t ++ Q2, V, P) :
      List Pos × List Pos × List (Pos × Pos × Dir)).2.1 from hcV) hcd hmid0
  have hm2 := mid_expand m entry c dcur (Q1t ++ Q2) V _ _ Dir.E hsym hcB
    (hm1.vmono c hcV) hcd hm1
  have hm3 := mid_expand m entry c dcur (Q1t ++ Q2) V _ _ Dir.S hsym hcB
    (hm2.vmono c hcV) hcd hm2
  have hm4 := mid_expand m entry c dcur (Q1t ++ Q2) V _ _ Dir.W hsym hcB
    (hm3.vmono c hcV) hcd hm3
  obtain ⟨vin, vent, vmono, qsub, keys, chain, qadd, el2, el3, clos, dk, dc, mu, cov⟩ := hm4
  obtain ⟨add, haeq, hadd⟩ := qadd
  refine ⟨Q2 ++ add, ?_, ?_, ?_⟩
  · rw [haeq, List.append_assoc]
  · refine ⟨vin, vent, ?_, keys, chain, ?_, ?_, el2, el3, ?_, dk, dc⟩
    · intro x hx
      apply qsub
      rw [haeq, List.append_assoc]
      exact hx
    · intro x hx
      exact hinv.lev1 x (List.mem_cons_of_mem _ hx)
    · intro x hx
      rcases List.mem_append.mp hx with hx2 | hx2
      · exact hinv.lev2 x hx2
      · exact hadd x hx2
    · intro p hp hpn q hq
      by_cases hpc : p = c
      · rw [hpc] at hq
        obtain ⟨d, hd, _, _⟩ := adjE_to_dir m c q hq
        refine cov d ?_ q hq hd
        cases d <;> simp
      · refine clos p hp ?_ q hq
        intro hc2
        rcases List.mem_cons.mp hc2 with h3 | h3
        · exact hpc h3
        · apply hpn
          rw [haeq, List.append_assoc] at h3
          exact h3
  · rw [List.length_cons]
    omega

/-- When the current level is exhausted, the queue holds the next level
and the invariant shifts to `dcur + 1`. -/
theorem bfsInv_shift (m : Maze) (entry : Pos) (dcur : ℕ) (Q2 V : List Pos)
    (P : List (Pos × Pos × Dir)) (hinv : BfsInv m entry dcur [] Q2 V P)
    (hne : Q2 ≠ []) :
    BfsInv m entry (dcur + 1) Q2 [] V P := by
  refine ⟨hinv.vin, hinv.vent, ?_, hinv.keys, hinv.chain, hinv.lev2, ?_, ?_, ?_, ?_,
    hinv.dk, ?_⟩
  · intro x hx
    rw [List.append_nil] at hx
    exact hinv.qsub x (by rw [List.nil_append]; exact hx)
  · intro x hx
    cases hx
  · intro p hp
    have := hinv.el2 p hp
    omega
  · intro p hr hd2
    rcases Nat.lt_or_ge ((posGraph m).dist entry p) (dcur + 1) with hlt | hge
    · exact hinv.el3 p hr (by omega)
    · have hd3 : (posGraph m).dist entry p = dcur + 1 := by omega
      obtain ⟨b, hadj, hbr, hbd⟩ := dist_pred (posGraph m) entry p dcur hr hd3
      have hbV : b ∈ V := hinv.el3 b hbr (by omega)
      have hbq : b ∉ ([] : List Pos) ++ Q2 := by
        rw [List.nil_append]
        intro hmem
        have := hinv.lev2 b hmem
        omega
      exact hinv.clos b hbV hbq p hadj
  · intro p hp hpn q hq
    refine hinv.clos p hp ?_ q hq
    rw [List.nil_append]
    rw [List.append_nil] at hpn
    exact hpn
  · cases hq2 : Q2 with
    | nil => exact absurd hq2 hne
    | cons c r =>
      have hcq : c ∈ Q2 := by rw [hq2]; exact List.mem_cons_self _ _
      have hcV : c ∈ V := hinv.qsub c (by rw [List.nil_append]; exact hcq)
      have hcd : (posGraph m).dist entry c = dcur + 1 := hinv.lev2 c hcq
      have hcne : c ≠ entry := by
        intro hc2
        rw [hc2, SimpleGraph.dist_self] at hcd
        omega
      have hlook : lookupP P c ≠ none := (hinv.keys c).mpr ⟨hcV, hcne⟩
      have := hinv.dk c hlook
      omega

/-- What holds of the visited list and parent map when the BFS loop
returns: sound parent chains that cover exactly the non-entry visited
cells, distances bounded by the map length, visited cells reachable, and
the exit visited whenever it is reachable. -/
def bfsFinal (m : Maze) (entry exitP : Pos) (V : List Pos)
    (P : List (Pos × Pos × Dir)) : Prop :=
  (∀ k, lookupP P k ≠ none ↔ (k ∈ V ∧ k ≠ entry)) ∧
  (∀ k q d, lookupP P k = some (q, d) → k = moveDir q d ∧ adjE m q k ∧
    (posGraph m).dist entry k = (posGraph m).dist entry q + 1 ∧
    (posGraph m).Reachable entry k ∧ (q = entry ∨ lookupP P q ≠ none)) ∧
  (∀ k, lookupP P k ≠ none → (posGraph m).dist entry k ≤ P.length) ∧
  (∀ p ∈ V, (posGraph m).Reachable entry p) ∧
  ((posGraph m).Reachable entry exitP → exitP ∈ V)

theorem bfsInv_final_break (m : Maze) (entry exitP : Pos) (dcur : ℕ)
    (Q1 Q2 V : List Pos) (P : List (Pos × Pos × Dir))
    (hinv : BfsInv m entry dcur Q1 Q2 V P) (hmem : exitP ∈ Q1 ++ Q2) :
    bfsFinal m entry exitP V P :=
  ⟨hinv.keys, hinv.chain, hinv.dk, fun p hp => (hinv.vin p hp).2,
    fun _ => hinv.qsub exitP hmem⟩

theorem bfsInv_final_drain (m : Maze) (entry exitP : Pos) (dcur : ℕ)
    (Q1 Q2 V : List Pos) (P : List (Pos × Pos × Dir))
    (hinv : BfsInv m entry dcur Q1 Q2 V P) (hq : Q1 ++ Q2 = []) :
    bfsFinal m entry exitP V P := by
  refine ⟨hinv.keys, hinv.chain, hinv.dk, fun p hp => (hinv.vin p hp).2, ?_⟩
  have hwalk : ∀ (u v : Pos), (posGraph m).Walk u v → u ∈ V → v ∈ V := by
    intro u v wk
    induction wk with
    | nil => exact fun h => h
    | cons hadj w ih =>
      intro hu
      apply ih
      exact hinv.clos _ hu (by rw [hq]; exact List.not_mem_nil _) _ hadj
  intro hr
  obtain ⟨wk⟩ := hr
  exact hwalk entry exitP wk hinv.vent

/-- The BFS loop, run with enough fuel from an invariant state, reaches a
final state. -/
theorem bfsLoop_ok (m : Maze) (entry exitP : Pos) (hsym : symmWalls m) :
    ∀ (fuel dcur : ℕ) (Q1 Q2 V : List Pos) (P : List (Pos × Pos × Dir)),
      BfsInv m entry dcur Q1 Q2 V P →
      bfsUnvis m V + (Q1 ++ Q2).length ≤ fuel →
      bfsFinal m entry exitP (bfsLoop exitP fuel m (Q1 ++ Q2) V P).2.1
        (bfsLoop exitP fuel m (Q1 ++ Q2) V P).2.2 := by
  intro fuel
  induction fuel with
  | zero =>
    intro dcur Q1 Q2 V P hinv hf
    have hq : Q1 ++ Q2 = [] := by
      cases hq2 : Q1 ++ Q2 with
      | nil => rfl
      | cons a l =>
        rw [hq2, List.length_cons] at hf
        omega
    rw [hq, bfsLoop_nil_eq]
    exact bfsInv_final_drain m entry exitP dcur Q1 Q2 V P hinv hq
  | succ fuel ih =>
    intro dcur Q1 Q2 V P hinv hf
    cases hq2 : Q1 ++ Q2 with
    | nil =>
      rw [bfsLoop_nil_eq]
      exact bfsInv_final_drain m entry exitP dcur Q1 Q2 V P hinv hq2
    | cons c r =>
      by_cases hce : c = exitP
      · rw [bfsLoop_cons_eq _ _ _ _ _ _ _ hce]
        exact bfsInv_final_break m entry exitP dcur Q1 Q2 V P hinv
          (by rw [hq2, ← hce]; exact List.mem_cons_self _ _)
      · rw [bfsLoop_cons_ne _ _ _ _ _ _ _ hce]
        cases Q1 with
        | nil =>
          rw [List.nil_append] at hq2
          subst hq2
          have hsh := bfsInv_shift m entry dcur (c :: r) V P hinv (by simp)
          have hstep := bfs_step m entry c (dcur + 1) r [] V P hsym hsh
          rw [List.append_nil] at hstep
          obtain ⟨Qb2, hq3, hinv2, hmu⟩ := hstep
          rw [hq3]
          apply ih (dcur + 1) r Qb2 _ _ hinv2
          rw [← hq3]
          rw [List.nil_append, List.length_cons] at hf
          rw [List.length_cons] at hmu
          omega
        | cons c1 q1t =>
          rw [List.cons_append] at hq2
          injection hq2 with h1 h2
          subst h1
          subst h2
          have hstep := bfs_step m entry c1 dcur q1t Q2 V P hsym hinv
          obtain ⟨Qb2, hq3, hinv2, hmu⟩ := hstep
          rw [hq3]
          apply ih dcur q1t Qb2 _ _ hinv2
          rw [← hq3]
          rw [List.cons_append, List.length_cons] at hf
          rw [List.length_cons] at hmu
          omega

/-- The invariant at BFS start. -/
theorem bfsInv_init (m : Maze) (entry : Pos) (hB : m.inB entry) :
    BfsInv m entry 0 [entry] [] [entry] [] := by
  refine ⟨?_, List.mem_singleton.mpr rfl, ?_, ?_, ?_, ?_, ?_, ?_, ?_, ?_, ?_, Nat.le_refl 0⟩
  · intro p hp
    rw [List.mem_singleton] at hp
    subst hp
    exact ⟨hB, SimpleGraph.Reachable.refl _⟩
  · intro x hx
    rw [List.append_nil] at hx
    exact hx
  · intro k
    constructor
    · intro h
      exact absurd rfl h
    · rintro ⟨h1, h2⟩
      rw [List.mem_singleton] at h1
      exact absurd h1 h2
  · intro k q d hl
    exact Option.noConfusion hl
  · intro x hx
    rw [List.mem_singleton] at hx
    rw [hx, SimpleGraph.dist_self]
  · intro x hx
    cases hx
  · intro p hp
    rw [List.mem_singleton] at hp
    rw [hp, SimpleGraph.dist_self]
    omega
  · intro p hr hd
    have h0 : (posGraph m).dist entry p = 0 := by omega
    rw [List.mem_singleton]
    exact (hr.dist_eq_zero_iff.mp h0).symm
  · intro p hp hpn q hq
    exfalso
    apply hpn
    rw [List.append_nil]
    exact hp
  · intro k h
    exact absurd rfl h

/-- The reconstruction loop returns the parent chain: a direction list of
length exactly the BFS distance whose replay from the entry lands on the
queried cell. -/
theorem backtrack_spec (m : Maze) (entry : Pos) (P : List (Pos × Pos × Dir))
    (hchain : ∀ k q d, lookupP P k = some (q, d) → k = moveDir q d ∧ adjE m q k ∧
      (posGraph m).dist entry k = (posGraph m).dist entry q + 1 ∧
      (posGraph m).Reachable entry k ∧ (q = entry ∨ lookupP P q ≠ none)) :
    ∀ (fuel : ℕ) (k : Pos), (posGraph m).Reachable entry k →
      (k = entry ∨ lookupP P k ≠ none) →
      (posGraph m).dist entry k < fuel →
      ∃ ds, backtrack entry P fuel k = some ds ∧
        ds.length = (posGraph m).dist entry k ∧
        List.foldl moveDir entry ds.reverse = k := by
  intro fuel
  induction fuel with
  | zero =>
    intro k _ _ hlt
    omega
  | succ fuel ih =>
    intro k hr hk hlt
    by_cases hke : k = entry
    · refine ⟨[], ?_, ?_, ?_⟩
      · simp only [backtrack]
        rw [if_pos hke]
      · rw [hke, SimpleGraph.dist_self]
        rfl
      · rw [hke]
        rfl
    · rcases hk with hk | hk
      · exact absurd hk hke
      · cases hl : lookupP P k with
        | none => exact absurd hl hk
        | some v =>
          obtain ⟨q, d⟩ := v
          obtain ⟨c1, c2, c3, c4, c5⟩ := hchain k q d hl
          have hrq : (posGraph m).Reachable entry q := by
            rcases c5 with h | h
            · rw [h]
            · cases hl2 : lookupP P q with
              | none => exact absurd hl2 h
              | some v2 =>
                obtain ⟨a, b⟩ := v2
                exact (hchain q a b hl2).2.2.2.1
          obtain ⟨ds, hbt, hlen, hfold⟩ := ih q hrq c5 (by omega)
          refine ⟨d :: ds, ?_, ?_, ?_⟩
          · simp only [backtrack, if_neg hke, hl, hbt]
          · rw [List.length_cons, hlen, c3]
          · rw [List.reverse_cons, List.foldl_append, hfold, List.foldl_cons, List.foldl_nil]
            exact c1.symm

/-- Replaying one direction token of the output string. -/
def stepTok (p : Pos) (ch : Char) : Pos :=
  if ch = 'N' then moveDir p Dir.N
  else if ch = 'E' then moveDir p Dir.E
  else if ch = 'S' then moveDir p Dir.S
  else if ch = 'W' then moveDir p Dir.W
  else p

theorem stepTok_dirChar (p : Pos) (d : Dir) : stepTok p (dirChar d) = moveDir p d := by
  cases d <;> rfl

/-- Full functional specification of `solve_bfs` on wall-symmetric grids:
the empty string exactly on `entry = exit` or an unreachable exit, and
otherwise a string of length `dist entry exit` replaying from the entry to
the exit. -/
theorem solve_bfs_correct (m : Maze) (entry exitP : Pos) (hsym : symmWalls m)
    (hentry : m.inB entry) :
    ((entry = exitP ∨ ¬(posGraph m).Reachable entry exitP) →
      solve_bfs m entry exitP = "") ∧
    ((posGraph m).Reachable entry exitP →
      (solve_bfs m entry exitP).length = (posGraph m).dist entry exitP ∧
      (solve_bfs m entry exitP).toList.foldl stepTok entry = exitP) := by
  have hinv0 := bfsInv_init m entry hentry
  have hfuel : bfsUnvis m [entry] + (([entry] : List Pos) ++ []).length ≤
      m.width * m.height := by
    have h1 := bfsUnvis_entry m entry hentry
    rw [List.append_nil, List.length_singleton]
    omega
  have hfin := bfsLoop_ok m entry exitP hsym (m.width * m.height) 0 [entry] [] [entry] []
    hinv0 hfuel
  rw [List.append_nil] at hfin
  obtain ⟨fkeys, fchain, fdk, fvreach, fexit⟩ := hfin
  unfold solve_bfs solve_bfs_full
  dsimp only
  constructor
  · rintro (hcase | hcase)
    · have hbt : backtrack entry
          (bfsLoop exitP (m.width * m.height) m [entry] [entry] []).2.2
          ((bfsLoop exitP (m.width * m.height) m [entry] [entry] []).2.2.length + 1)
          exitP = some [] := by
        simp only [backtrack]
        rw [if_pos hcase.symm]
      rw [hbt]
      rfl
    · have hne : exitP ≠ entry := by
        intro h
        apply hcase
        rw [h]
      have hlook : lookupP
          (bfsLoop exitP (m.width * m.height) m [entry] [entry] []).2.2 exitP = none := by
        cases hl : lookupP (bfsLoop exitP (m.width * m.height) m [entry] [entry] []).2.2
            exitP with
        | none => rfl
        | some v =>
          exfalso
          apply hcase
          apply fvreach
          exact ((fkeys exitP).mp (by rw [hl]; simp)).1
      have hbt : backtrack entry
          (bfsLoop exitP (m.width * m.height) m [entry] [entry] []).2.2
          ((bfsLoop exitP (m.width * m.height) m [entry] [entry] []).2.2.length + 1)
          exitP = none := by
        simp only [backtrack, if_neg hne, hlook]
      rw [hbt]
  · intro hreach
    have hexV : exitP ∈ (bfsLoop exitP (m.width * m.height) m [entry] [entry] []).2.1 :=
      fexit hreach
    by_cases hke : exitP = entry
    · have hbt : backtrack entry
          (bfsLoop exitP (m.width * m.height) m [entry] [entry] []).2.2
          ((bfsLoop exitP (m.width * m.height) m [entry] [entry] []).2.2.length + 1)
          exitP = some [] := by
        simp only [backtrack]
        rw [if_pos hke]
      rw [hbt]
      constructor
      · rw [hke, SimpleGraph.dist_self]
        rfl
      · rw [hke]
        rfl
    · have hlk : lookupP
          (bfsLoop exitP (m.width * m.height) m [entry] [entry] []).2.2 exitP ≠ none :=
        (fkeys exitP).mpr ⟨hexV, hke⟩
      have hdk := fdk exitP hlk
      obtain ⟨ds, hbt, hlen, hfold⟩ := backtrack_spec m entry
        (bfsLoop exitP (m.width * m.height) m [entry] [entry] []).2.2 fchain
        ((bfsLoop exitP (m.width * m.height) m [entry] [entry] []).2.2.length + 1)
        exitP hreach (Or.inr hlk) (by omega)
      rw [hbt]
      constructor
      · show ((ds.reverse).map dirChar).length = _
        rw [List.length_map, List.length_reverse, hlen]
      · show (((ds.reverse).map dirChar) : List Char).foldl stepTok entry = exitP
        rw [List.foldl_map]
        have hfa : (fun (p : Pos) (d : Dir) => stepTok p (dirChar d)) = moveDir :=
          funext fun p => funext fun d => stepTok_dirChar p d
        rw [hfa]
        exact hfold

/-! ## C2 and C6 -/

/-- A wall-asymmetric 2-by-2 grid: the three two-sided-open walls form the
path (0,0)-(1,0)-(1,1)-(0,1); additionally (0,0).south is open while
(0,1).north stays closed. -/
def cexGrid2 : Pos → Cell := fun p =>
  if p = (0, 0) then ⟨true, false, false, true, false⟩
  else if p = (1, 0) then ⟨true, true, false, false, false⟩
  else if p = (1, 1) then ⟨false, true, true, false, false⟩
  else if p = (0, 1) then ⟨true, false, true, true, false⟩
  else Cell.init

def CEX2 : Maze := { width := 2, height := 2, grid := cexGrid2, pattern_cells := [] }

/-- A 2-by-1 grid where (0,0).east is open but (1,0).west is closed. -/
def cexGrid6 : Pos → Cell := fun p =>
  if p = (0, 0) then ⟨true, false, true, true, false⟩ else Cell.init

def CEX6 : Maze := { width := 2, height := 1, grid := cexGrid6, pattern_cells := [] }

instance (m : Maze) (p q : Pos) : Decidable (adjE m p q) := by
  unfold adjE
  infer_instance

theorem cex6_isolated : ∀ b, ¬ adjE CEX6 (0, 0) b := by
  intro b hb
  have hbB := hb.2.1
  have hb1 : b = (0, 0) ∨ b = (1, 0) := by
    obtain ⟨bx, by2⟩ := b
    have h1 : bx < 2 := hbB.1
    have h2 : by2 < 1 := hbB.2
    have hbx : bx = 0 ∨ bx = 1 := by omega
    have hby : by2 = 0 := by omega
    subst hby
    rcases hbx with rfl | rfl
    · exact Or.inl rfl
    · exact Or.inr rfl
  rcases hb1 with rfl | rfl
  · exact adjE_irrefl CEX6 (0, 0) hb
  · revert hb
    decide

theorem cex6_unreachable : ¬ (posGraph CEX6).Reachable (0, 0) (1, 0) := by
  rintro ⟨wk⟩
  cases wk with
  | cons hadj w => exact cex6_isolated _ hadj

/-- Counterexample to C2 as stated: on a wall-asymmetric grid the exit is
reachable through (two-sided) open walls, yet the returned string has
length 1 while no open-wall walk of length 1 exists (so the token count is
not the shortest-path distance).  BFS stepped through (0,0).south, which
is open on (0,0)'s side only. -/
theorem solve_bfs_not_shortest :
    (posGraph CEX2).Reachable (0, 0) (0, 1) ∧
    solve_bfs CEX2 (0, 0) (0, 1) = "S" ∧
    (solve_bfs CEX2 (0, 0) (0, 1)).length = 1 ∧
    (∀ wk : (posGraph CEX2).Walk (0, 0) (0, 1), wk.length ≠ 1) := by
  refine ⟨?_, by decide, by decide, ?_⟩
  · have e1 : adjE CEX2 (0, 0) (1, 0) := by decide
    have e2 : adjE CEX2 (1, 0) (1, 1) := by decide
    have e3 : adjE CEX2 (1, 1) (0, 1) := by decide
    exact ⟨SimpleGraph.Walk.cons e1 (SimpleGraph.Walk.cons e2
      (SimpleGraph.Walk.cons e3 SimpleGraph.Walk.nil))⟩
  · intro wk hlen
    cases wk with
    | cons hadj w =>
      rw [SimpleGraph.Walk.length_cons] at hlen
      have hw0 : w.length = 0 := by omega
      have hb := SimpleGraph.Walk.eq_of_length_eq_zero hw0
      rw [hb] at hadj
      exact (by decide : ¬ adjE CEX2 (0, 0) (0, 1)) hadj

/-- **C2** (amended): on a grid whose wall state is symmetric between
adjacent cells (the C4 invariant, which every program mutation maintains
when the pattern is stamped before carving), for in-bounds entry and exit
with the exit reachable through open walls, `solve_bfs` returns a string
whose token count is exactly the shortest-path distance in the open-wall
graph, and replaying its tokens one `moveDir` step at a time from the
entry ends exactly at the exit. -/
theorem solve_bfs_shortest_path (m : Maze) (entry exitP : Pos)
    (hsym : symmWalls m) (hentry : m.inB entry) (hexit : m.inB exitP)
    (hreach : (posGraph m).Reachable entry exitP) :
    (solve_bfs m entry exitP).length = (posGraph m).dist entry exitP ∧
    (solve_bfs m entry exitP).toList.foldl stepTok entry = exitP :=
  (solve_bfs_correct m entry exitP hsym hentry).2 hreach

theorem solve_bfs_shortest_path_witness :
    symmWalls ((Maze.fresh 2 1).openEast (0, 0)) ∧
    Maze.inB ((Maze.fresh 2 1).openEast (0, 0)) (0, 0) ∧
    Maze.inB ((Maze.fresh 2 1).openEast (0, 0)) (1, 0) ∧
    (posGraph ((Maze.fresh 2 1).openEast (0, 0))).Reachable (0, 0) (1, 0) ∧
    ((solve_bfs ((Maze.fresh 2 1).openEast (0, 0)) (0, 0) (1, 0)).length =
        (posGraph ((Maze.fresh 2 1).openEast (0, 0))).dist (0, 0) (1, 0) ∧
      (solve_bfs ((Maze.fresh 2 1).openEast (0, 0)) (0, 0) (1, 0)).toList.foldl
        stepTok (0, 0) = (1, 0)) :=
  have hsym : symmWalls ((Maze.fresh 2 1).openEast (0, 0)) :=
    symmWalls_openEast _ _ (allClosed_symmWalls _ (fun _ => ⟨rfl, rfl, rfl, rfl⟩))
  have hr : (posGraph ((Maze.fresh 2 1).openEast (0, 0))).Reachable (0, 0) (1, 0) :=
    ⟨SimpleGraph.Walk.cons
      (show adjE ((Maze.fresh 2 1).openEast (0, 0)) (0, 0) (1, 0) by decide)
      SimpleGraph.Walk.nil⟩
  ⟨hsym, by decide, by decide, hr,
    solve_bfs_shortest_path ((Maze.fresh 2 1).openEast (0, 0)) (0, 0) (1, 0)
      hsym (by decide) (by decide) hr⟩

/-- Counterexample to C6 as stated: on a wall-asymmetric grid the exit is
unreachable through (two-sided) open walls and distinct from the entry,
yet `solve_bfs` returns a non-empty string, because the BFS consults only
the dequeued cell's own wall flag. -/
theorem solve_bfs_nonempty_unreachable :
    ¬ (posGraph CEX6).Reachable (0, 0) (1, 0) ∧ ((0, 0) : Pos) ≠ (1, 0) ∧
    solve_bfs CEX6 (0, 0) (1, 0) = "E" :=
  ⟨cex6_unreachable, by decide, by decide⟩

/-- **C6** (amended): on a grid with symmetric walls and in-bounds entry
and exit, `solve_bfs` returns the empty string exactly when the exit is
unreachable from the entry through open walls or the entry equals the
exit; for a reachable exit distinct from the entry the string is
non-empty.  The embedding is total, so no error is raised in any case. -/
theorem solve_bfs_empty_iff (m : Maze) (entry exitP : Pos)
    (hsym : symmWalls m) (hentry : m.inB entry) (hexit : m.inB exitP) :
    (solve_bfs m entry exitP = "" ↔
      (¬(posGraph m).Reachable entry exitP ∨ entry = exitP)) := by
  obtain ⟨hempty, hfull⟩ := solve_bfs_correct m entry exitP hsym hentry
  constructor
  · intro h0
    by_cases hr : (posGraph m).Reachable entry exitP
    · by_cases he : entry = exitP
      · exact Or.inr he
      · exfalso
        obtain ⟨hlen, _⟩ := hfull hr
        rw [h0] at hlen
        have h0d : (posGraph m).dist entry exitP = 0 := by
          rw [← hlen]
          rfl
        exact he (hr.dist_eq_zero_iff.mp h0d)
    · exact Or.inl hr
  · intro hcase
    apply hempty
    tauto

theorem solve_bfs_empty_iff_witness :
    symmWalls (Maze.fresh 1 1) ∧
    Maze.inB (Maze.fresh 1 1) (0, 0) ∧ Maze.inB (Maze.fresh 1 1) (0, 0) ∧
    (solve_bfs (Maze.fresh 1 1) (0, 0) (0, 0) = "" ↔
      (¬(posGraph (Maze.fresh 1 1)).Reachable (0, 0) (0, 0) ∨ ((0, 0) : Pos) = (0, 0))) :=
  have hsym : symmWalls (Maze.fresh 1 1) :=
    allClosed_symmWalls _ (fun _ => ⟨rfl, rfl, rfl, rfl⟩)
  ⟨hsym, by decide, by decide,
    solve_bfs_empty_iff (Maze.fresh 1 1) (0, 0) (0, 0) hsym (by decide) (by decide)⟩
